import Mathlib

/-!
Verification development for a DHT simulator with two overlays:
a ring-with-fingers overlay (`src/chord`) and a prefix-routed overlay
(`src/pastry`), both over a shared identifier space (`src/common/ids.py`),
with hop metrics (`src/common/metrics.py`).

The Python source is shallowly embedded: dictionaries become association
lists (insertion-ordered, as Python dicts are), machine integers become
`Nat` with explicit `% 2^m`, the seeded `random.Random` generator becomes
an arbitrary draw function `Nat → Nat` together with a draw counter
(`getrandbits(m)` is `f k % 2^m`, `choice(xs)` indexes by `f k % |xs|`),
SHA-1 based hashing (`hash_128`) becomes an arbitrary function
`String → Nat` (theorems quantify over it, adding its true range bound
`< 2^128` as a hypothesis where needed), and code paths that raise
(operations on an empty network) or diverge (fresh-id generation loops)
return `Option`, with `none` for the fault/divergence.

Structural state (successor/predecessor/finger tables for the ring
overlay, leaf sets and routing tables for the prefix overlay) is derived
on demand from the current membership list by the literal rebuild
computations of the source.  This is faithful because every membership
change in `ChordNetwork` / `PastryNetwork` immediately calls
`_rebuild_ring_and_fingers` / `_rebuild_structures`, so between contract
calls the stored structures always equal the rebuilt ones.
-/

namespace DhtSpec

/-! ### Identifier space (`src/common/ids.py`) -/

/-- Number of bits of the shared identifier space (`ID_BITS`). -/
def ID_BITS : Nat := 128

/-- `ID_HEX_LEN = ID_BITS // 4`: 32 hex digits. -/
def ID_HEX_LEN : Nat := 32

/-- `MOD = 1 << ID_BITS`. -/
def MOD : Nat := 2 ^ ID_BITS

/-- Clockwise distance from `a` to `b` on a ring of size `M`:
Python's `(b - a) % M` for nonnegative ints. -/
def cwM (M a b : Nat) : Nat := (b % M + M - a % M) % M

/-- `circ_dist(a, b) = min((a-b) % MOD, (b-a) % MOD)`. -/
def circ_dist (a b : Nat) : Nat := min (cwM MOD b a) (cwM MOD a b)

/-- `ChordNode.in_interval(x, a, b, inclusive_right)`: membership in the
wrap-around interval `(a, b]` (inclusive) or `(a, b)` (exclusive). -/
def in_interval (x a b : Nat) (inclusive_right : Bool) : Bool :=
  if a < b then
    (if inclusive_right then decide (a < x) && decide (x ≤ b)
     else decide (a < x) && decide (x < b))
  else
    (if inclusive_right then decide (x > a) || decide (x ≤ b)
     else decide (x > a) || decide (x < b))

theorem cwM_closed (M a b : Nat) (hM : 0 < M) (ha : a < M) (hb : b < M) :
    cwM M a b = if a ≤ b then b - a else b + M - a := by
  unfold cwM
  rw [Nat.mod_eq_of_lt ha, Nat.mod_eq_of_lt hb]
  rcases le_or_lt a b with h | h
  · have hbma : b + M - a = (b - a) + M := by omega
    rw [if_pos h, hbma, Nat.add_mod_right, Nat.mod_eq_of_lt (by omega)]
  · rw [if_neg (by omega), Nat.mod_eq_of_lt (by omega)]

theorem cwM_lt (M a b : Nat) (hM : 0 < M) : cwM M a b < M :=
  Nat.mod_lt _ hM

theorem cwM_self (M a : Nat) : cwM M a a = 0 := by
  unfold cwM
  have h : a % M + M - a % M = M := by omega
  rw [h, Nat.mod_self]

theorem cwM_eq_zero_iff (M a b : Nat) (hM : 0 < M) (ha : a < M) (hb : b < M) :
    cwM M a b = 0 ↔ a = b := by
  rw [cwM_closed M a b hM ha hb]
  split <;> omega

theorem cwM_add_rev (M a b : Nat) (hM : 0 < M) (ha : a < M) (hb : b < M) (hne : a ≠ b) :
    cwM M a b + cwM M b a = M := by
  rw [cwM_closed M a b hM ha hb, cwM_closed M b a hM hb ha]
  split <;> split <;> omega

/-- Arc subtraction: if `b` lies weakly before `t` on the clockwise arc
from `a`, the remaining distance from `b` to `t` is the difference. -/
theorem cwM_sub (M a b t : Nat) (hM : 0 < M) (ha : a < M) (hb : b < M) (ht : t < M)
    (h : cwM M a b ≤ cwM M a t) : cwM M b t = cwM M a t - cwM M a b := by
  rw [cwM_closed M a b hM ha hb] at h
  rw [cwM_closed M a t hM ha ht] at h ⊢
  rw [cwM_closed M a b hM ha hb, cwM_closed M b t hM hb ht]
  split_ifs at h ⊢ <;> omega

theorem cwM_inj (M t a b : Nat) (hM : 0 < M) (ht : t < M) (ha : a < M) (hb : b < M)
    (h : cwM M t a = cwM M t b) : a = b := by
  rw [cwM_closed M t a hM ht ha, cwM_closed M t b hM ht hb] at h
  split_ifs at h <;> omega

/-- Characterisation of the inclusive wrap-around interval `(a, b]` by
clockwise distances, for `a ≠ b`. -/
theorem in_interval_true_iff (M x a b : Nat) (hM : 0 < M) (hx : x < M) (ha : a < M)
    (hb : b < M) (hne : a ≠ b) :
    in_interval x a b true = true ↔ 0 < cwM M a x ∧ cwM M a x ≤ cwM M a b := by
  rw [cwM_closed M a x hM ha hx, cwM_closed M a b hM ha hb]
  unfold in_interval
  split_ifs <;>
    simp_all only [decide_eq_true_eq, Bool.and_eq_true, Bool.or_eq_true,
      not_true_eq_false] <;> omega

/-- Characterisation of the exclusive wrap-around interval `(a, b)` by
clockwise distances, for `a ≠ b`. -/
theorem in_interval_false_iff (M x a b : Nat) (hM : 0 < M) (hx : x < M) (ha : a < M)
    (hb : b < M) (hne : a ≠ b) :
    in_interval x a b false = true ↔ 0 < cwM M a x ∧ cwM M a x < cwM M a b := by
  rw [cwM_closed M a x hM ha hx, cwM_closed M a b hM ha hb]
  unfold in_interval
  split_ifs <;>
    simp_all only [decide_eq_true_eq, Bool.and_eq_true, Bool.or_eq_true,
      not_false_eq_true, not_true_eq_false] <;> omega

/-- The degenerate exclusive interval `(a, a)` contains everything except `a`. -/
theorem in_interval_false_self (x a : Nat) :
    in_interval x a a false = true ↔ x ≠ a := by
  unfold in_interval
  simp only [lt_irrefl, if_neg, if_false]
  simp
  omega

/-! ### List helpers -/

/-- `l[i]` with default 0, as Python list indexing on known-in-range indices. -/
def nth (l : List Nat) (i : Nat) : Nat := l.getD i 0

/-- Python's `(a - k) % n` for `0 ≤ a < n` (used for circular list indices). -/
def pySubMod (a k n : Nat) : Nat := (a + (n - k % n)) % n

/-- `sorted(l)` (ascending; embedded as a stable structurally-recursive
sort). -/
def sortNat (l : List Nat) : List Nat := l.insertionSort (· ≤ ·)

/-- `sorted(set(l))`. -/
def dedupSort (l : List Nat) : List Nat := sortNat l.dedup

theorem nth_mem (l : List Nat) (i : Nat) (h : i < l.length) : nth l i ∈ l := by
  unfold nth
  rw [List.getD_eq_getElem l 0 h]
  exact List.getElem_mem h

theorem nth_lt_of_sorted (l : List Nat) (hs : List.Sorted (· < ·) l) (i j : Nat)
    (hij : i < j) (hj : j < l.length) : nth l i < nth l j := by
  unfold nth
  rw [List.getD_eq_getElem l 0 (lt_trans hij hj), List.getD_eq_getElem l 0 hj]
  exact List.pairwise_iff_getElem.mp hs i j (lt_trans hij hj) hj hij

theorem nth_le_of_sorted (l : List Nat) (hs : List.Sorted (· < ·) l) (i j : Nat)
    (hij : i ≤ j) (hj : j < l.length) : nth l i ≤ nth l j := by
  rcases Nat.lt_or_ge i j with h | h
  · exact le_of_lt (nth_lt_of_sorted l hs i j h hj)
  · have : i = j := by omega
    rw [this]

theorem sortNat_perm (l : List Nat) : (sortNat l).Perm l :=
  List.perm_insertionSort (· ≤ ·) l

theorem sortNat_sorted (l : List Nat) : List.Sorted (· ≤ ·) (sortNat l) :=
  List.sorted_insertionSort (· ≤ ·) l

theorem sortNat_sorted_lt (l : List Nat) (hnd : l.Nodup) :
    List.Sorted (· < ·) (sortNat l) := by
  have hle := sortNat_sorted l
  have hnd2 : (sortNat l).Nodup := ((sortNat_perm l).nodup_iff).mpr hnd
  unfold List.Sorted at hle ⊢
  have := List.Pairwise.and hle hnd2
  exact List.Pairwise.imp (by intro a b hab; omega) this

theorem sortNat_eq_self (l : List Nat) (hs : List.Sorted (· < ·) l) : sortNat l = l := by
  refine List.eq_of_perm_of_sorted (sortNat_perm l) (sortNat_sorted l) ?_
  exact List.Pairwise.imp le_of_lt hs

theorem dedupSort_sorted (l : List Nat) : List.Sorted (· < ·) (dedupSort l) :=
  sortNat_sorted_lt l.dedup l.nodup_dedup

theorem dedupSort_mem (l : List Nat) (z : Nat) : z ∈ dedupSort l ↔ z ∈ l := by
  unfold dedupSort
  rw [(sortNat_perm l.dedup).mem_iff, List.mem_dedup]

theorem dedupSort_eq_self (l : List Nat) (hs : List.Sorted (· < ·) l) :
    dedupSort l = l := by
  unfold dedupSort
  rw [List.Nodup.dedup hs.nodup]
  exact sortNat_eq_self l hs

/-! ### Ring successor / predecessor / bisect successor
(`ChordNetwork._rebuild_ring_and_fingers`, `ChordNetwork._successor_id_of`) -/

/-- The successor pointer installed by `_rebuild_ring_and_fingers`:
`sorted_ids[(idx + 1) % n]`. -/
def succOf (ids : List Nat) (x : Nat) : Nat :=
  nth ids ((ids.indexOf x + 1) % ids.length)

/-- The predecessor pointer installed by `_rebuild_ring_and_fingers`:
`sorted_ids[(idx - 1) % n]`. -/
def predOf (ids : List Nat) (x : Nat) : Nat :=
  nth ids (pySubMod (ids.indexOf x) 1 ids.length)

/-- `ChordNetwork._successor_id_of`: `bisect_left` on the sorted id list,
wrapping to the first id. -/
def successorIdOf (ids : List Nat) (x : Nat) : Nat :=
  match ids.find? (fun y => decide (x ≤ y)) with
  | some y => y
  | none => ids.headD 0

theorem succOf_mem (ids : List Nat) (x : Nat) (hne : ids ≠ []) : succOf ids x ∈ ids := by
  have hlen : 0 < ids.length := List.length_pos.mpr hne
  exact nth_mem ids _ (Nat.mod_lt _ hlen)

theorem predOf_mem (ids : List Nat) (x : Nat) (hne : ids ≠ []) : predOf ids x ∈ ids := by
  have hlen : 0 < ids.length := List.length_pos.mpr hne
  exact nth_mem ids _ (Nat.mod_lt _ hlen)

theorem successorIdOf_mem (ids : List Nat) (x : Nat) (hne : ids ≠ []) :
    successorIdOf ids x ∈ ids := by
  unfold successorIdOf
  cases hfind : ids.find? (fun y => decide (x ≤ y)) with
  | some y => exact List.mem_of_find?_eq_some hfind
  | none =>
      cases ids with
      | nil => exact absurd rfl hne
      | cons a l => exact List.mem_cons_self a l

theorem indexOf_spec (ids : List Nat) (x : Nat) (hx : x ∈ ids) :
    ids.indexOf x < ids.length ∧ nth ids (ids.indexOf x) = x := by
  have hlt : ids.indexOf x < ids.length := List.indexOf_lt_length.mpr hx
  refine ⟨hlt, ?_⟩
  unfold nth
  rw [List.getD_eq_getElem ids 0 hlt]
  exact List.getElem_indexOf hlt

theorem succOf_ne (ids : List Nat) (x : Nat) (hs : List.Sorted (· < ·) ids)
    (hlen : 2 ≤ ids.length) (hx : x ∈ ids) : succOf ids x ≠ x := by
  obtain ⟨hlt, hnth⟩ := indexOf_spec ids x hx
  set idx := ids.indexOf x with hidx
  unfold succOf
  rw [← hidx]
  rcases Nat.lt_or_ge (idx + 1) ids.length with h | h
  · rw [Nat.mod_eq_of_lt h]
    have := nth_lt_of_sorted ids hs idx (idx + 1) (by omega) h
    omega
  · have hidx1 : idx + 1 = ids.length := by omega
    have hz : (idx + 1) % ids.length = 0 := by rw [hidx1]; exact Nat.mod_self _
    rw [hz]
    have := nth_lt_of_sorted ids hs 0 idx (by omega) hlt
    omega

/-- The rebuilt successor pointer is clockwise-closest: no live node lies
strictly between a node and its successor. -/
theorem succOf_min (M : Nat) (ids : List Nat) (x : Nat) (hM : 0 < M)
    (hs : List.Sorted (· < ·) ids) (hb : ∀ w ∈ ids, w < M) (hx : x ∈ ids) :
    ∀ z ∈ ids, z ≠ x → cwM M x (succOf ids x) ≤ cwM M x z := by
  intro z hz hzx
  obtain ⟨hlt, hnth⟩ := indexOf_spec ids x hx
  set idx := ids.indexOf x with hidx
  obtain ⟨iz, hiz, hiznth⟩ := List.mem_iff_getElem.mp hz
  have hznth : nth ids iz = z := by
    unfold nth; rw [List.getD_eq_getElem ids 0 hiz]; exact hiznth
  have hxM : x < M := hb x hx
  have hzM : z < M := hb z hz
  have hizidx : iz ≠ idx := by
    intro hcon
    rw [hcon, hnth] at hznth
    exact hzx hznth.symm
  unfold succOf
  rw [← hidx]
  rcases Nat.lt_or_ge (idx + 1) ids.length with h | h
  · rw [Nat.mod_eq_of_lt h]
    have hsmem : nth ids (idx + 1) ∈ ids := nth_mem ids _ h
    have hsM : nth ids (idx + 1) < M := hb _ hsmem
    have hxs : x < nth ids (idx + 1) := by
      have := nth_lt_of_sorted ids hs idx (idx + 1) (by omega) h
      omega
    rw [cwM_closed M x (nth ids (idx + 1)) hM hxM hsM, cwM_closed M x z hM hxM hzM]
    rcases Nat.lt_or_ge idx iz with hcase | hcase
    · have hzge := nth_le_of_sorted ids hs (idx + 1) iz (by omega) hiz
      rw [hznth] at hzge
      rw [if_pos (by omega), if_pos (by omega)]
      omega
    · have hzlt : z < x := by
        have := nth_lt_of_sorted ids hs iz idx (by omega) hlt
        omega
      rw [if_pos (by omega), if_neg (by omega)]
      omega
  · have hidx1 : idx + 1 = ids.length := by omega
    have hz0 : (idx + 1) % ids.length = 0 := by rw [hidx1]; exact Nat.mod_self _
    rw [hz0]
    have h0 : 0 < ids.length := by omega
    have hsmem : nth ids 0 ∈ ids := nth_mem ids _ h0
    have hsM : nth ids 0 < M := hb _ hsmem
    have hzlt : z < x := by
      have := nth_lt_of_sorted ids hs iz idx (by omega) hlt
      omega
    have hsz : nth ids 0 ≤ z := by
      have := nth_le_of_sorted ids hs 0 iz (by omega) hiz
      omega
    rw [cwM_closed M x (nth ids 0) hM hxM hsM, cwM_closed M x z hM hxM hzM]
    have hsx : nth ids 0 ≤ x := by
      have := nth_le_of_sorted ids hs 0 idx (by omega) hlt
      omega
    rcases Nat.lt_or_ge (nth ids 0) x with hcase | hcase
    · rw [if_neg (by omega), if_neg (by omega)]
      omega
    · have hsxeq : nth ids 0 = x := by omega
      rw [hsxeq, if_pos le_rfl]
      omega

/-- The rebuilt predecessor pointer is counter-clockwise-closest. -/
theorem predOf_min (M : Nat) (ids : List Nat) (x : Nat) (hM : 0 < M)
    (hs : List.Sorted (· < ·) ids) (hb : ∀ w ∈ ids, w < M) (hx : x ∈ ids) :
    ∀ z ∈ ids, z ≠ x → cwM M (predOf ids x) x ≤ cwM M z x := by
  intro z hz hzx
  obtain ⟨hlt, hnth⟩ := indexOf_spec ids x hx
  set idx := ids.indexOf x with hidx
  obtain ⟨iz, hiz, hiznth⟩ := List.mem_iff_getElem.mp hz
  have hznth : nth ids iz = z := by
    unfold nth; rw [List.getD_eq_getElem ids 0 hiz]; exact hiznth
  have hxM : x < M := hb x hx
  have hzM : z < M := hb z hz
  have hizidx : iz ≠ idx := by
    intro hcon
    rw [hcon, hnth] at hznth
    exact hzx hznth.symm
  unfold predOf pySubMod
  rw [← hidx]
  have h1 : (1 : Nat) % ids.length = 1 % ids.length := rfl
  rcases Nat.lt_or_ge 1 ids.length with hlen2 | hlen1
  · have h1mod : 1 % ids.length = 1 := Nat.mod_eq_of_lt hlen2
    rw [h1mod]
    rcases Nat.lt_or_ge 0 idx with hcase | hcase
    · have hdx : (idx + (ids.length - 1)) % ids.length = idx - 1 := by
        have heq : idx + (ids.length - 1) = (idx - 1) + ids.length := by omega
        rw [heq, Nat.add_mod_right, Nat.mod_eq_of_lt (by omega)]
      rw [hdx]
      have hpm : nth ids (idx - 1) ∈ ids := nth_mem ids _ (by omega)
      have hpM : nth ids (idx - 1) < M := hb _ hpm
      have hpx : nth ids (idx - 1) < x := by
        have := nth_lt_of_sorted ids hs (idx - 1) idx (by omega) hlt
        omega
      rw [cwM_closed M (nth ids (idx - 1)) x hM hpM hxM, cwM_closed M z x hM hzM hxM]
      rcases Nat.lt_or_ge iz idx with hc2 | hc2
      · have hzp : z ≤ nth ids (idx - 1) := by
          have := nth_le_of_sorted ids hs iz (idx - 1) (by omega) (by omega)
          omega
        rw [if_pos (by omega), if_pos (by omega)]
        omega
      · have hxz : x < z := by
          have := nth_lt_of_sorted ids hs idx iz (by omega) hiz
          omega
        rw [if_pos (by omega), if_neg (by omega)]
        omega
    · have hidx0 : idx = 0 := by omega
      have hdx : (idx + (ids.length - 1)) % ids.length = ids.length - 1 := by
        rw [hidx0, Nat.zero_add]
        exact Nat.mod_eq_of_lt (show ids.length - 1 < ids.length by omega)
      rw [hdx]
      have hpm : nth ids (ids.length - 1) ∈ ids := nth_mem ids _ (by omega)
      have hpM : nth ids (ids.length - 1) < M := hb _ hpm
      have hxz : x < z := by
        have := nth_lt_of_sorted ids hs idx iz (by omega) hiz
        omega
      have hzp : z ≤ nth ids (ids.length - 1) := by
        have := nth_le_of_sorted ids hs iz (ids.length - 1) (by omega) (by omega)
        omega
      have hxp : x < nth ids (ids.length - 1) := by omega
      rw [cwM_closed M (nth ids (ids.length - 1)) x hM hpM hxM,
        cwM_closed M z x hM hzM hxM]
      rw [if_neg (by omega), if_neg (by omega)]
      omega
  · -- singleton list: z ≠ x is impossible
    have : iz = idx := by omega
    exact absurd this hizidx

/-- `_successor_id_of` picks the clockwise-closest node at or after `x`. -/
theorem successorIdOf_min (M : Nat) (ids : List Nat) (x : Nat) (hM : 0 < M)
    (hs : List.Sorted (· < ·) ids) (hb : ∀ w ∈ ids, w < M) (hne : ids ≠ [])
    (hx : x < M) : ∀ w ∈ ids, cwM M x (successorIdOf ids x) ≤ cwM M x w := by
  intro w hw
  have hwM : w < M := hb w hw
  unfold successorIdOf
  cases hfind : ids.find? (fun y => decide (x ≤ y)) with
  | some y =>
      obtain ⟨hpy, as, bs, hsplit, hall⟩ := List.find?_eq_some.mp hfind
      have hxy : x ≤ y := by simpa using hpy
      have hyM : y < M := hb y (List.mem_of_find?_eq_some hfind)
      rw [cwM_closed M x y hM hx hyM, cwM_closed M x w hM hx hwM]
      rw [hsplit] at hw
      rcases List.mem_append.mp hw with hwas | hwbs
      · have hwx : w < x := by
          have := hall w hwas
          simp at this
          omega
        rw [if_pos hxy, if_neg (by omega)]
        omega
      · have hyw : y ≤ w := by
          rw [hsplit] at hs
          have hpair := (List.pairwise_append.mp hs).2.1
          rcases List.mem_cons.mp hwbs with hwy | hwbs2
          · omega
          · have := (List.pairwise_cons.mp hpair).1 w hwbs2
            omega
        rw [if_pos hxy, if_pos (by omega)]
        omega
  | none =>
      have hallw : ∀ y ∈ ids, y < x := by
        intro y hy
        have := List.find?_eq_none.mp hfind y hy
        simp at this
        omega
      have hhead : ids.headD 0 = nth ids 0 := by
        cases ids with
        | nil => exact absurd rfl hne
        | cons a l => rfl
      rw [hhead]
      have h0 : 0 < ids.length := List.length_pos.mpr hne
      have hsmem : nth ids 0 ∈ ids := nth_mem ids _ h0
      have hsM : nth ids 0 < M := hb _ hsmem
      have hsx : nth ids 0 < x := hallw _ hsmem
      have hwx : w < x := hallw w hw
      obtain ⟨iw, hiw, hiwnth⟩ := List.mem_iff_getElem.mp hw
      have hwnth : nth ids iw = w := by
        unfold nth
        rw [List.getD_eq_getElem ids 0 hiw]
        exact hiwnth
      have hsw : nth ids 0 ≤ w := by
        have := nth_le_of_sorted ids hs 0 iw (by omega) hiw
        omega
      rw [cwM_closed M x (nth ids 0) hM hx hsM, cwM_closed M x w hM hx hwM]
      rw [if_neg (by omega), if_neg (by omega)]
      omega

/-- Uniqueness of the clockwise-minimiser among the (distinct) live nodes. -/
theorem successorIdOf_unique (M : Nat) (ids : List Nat) (x z : Nat) (hM : 0 < M)
    (hs : List.Sorted (· < ·) ids) (hb : ∀ w ∈ ids, w < M) (hne : ids ≠ [])
    (hx : x < M) (hz : z ∈ ids)
    (hmin : ∀ w ∈ ids, cwM M x z ≤ cwM M x w) : z = successorIdOf ids x := by
  have h1 := successorIdOf_min M ids x hM hs hb hne hx z hz
  have h2 := hmin (successorIdOf ids x) (successorIdOf_mem ids x hne)
  exact cwM_inj M x z (successorIdOf ids x) hM hx (hb z hz)
    (hb _ (successorIdOf_mem ids x hne)) (by omega)

/-! ### Chord routing (`ChordNetwork._route`, `ChordNode.closest_preceding_finger`)

Fingers are the ones installed by `_rebuild_ring_and_fingers`:
`finger[i] = nodes[_successor_id_of((nid + 2^i) % mod)]`. -/

/-- `finger[i]` of node `nid`, as rebuilt. -/
def fingerOf (m : Nat) (ids : List Nat) (nid i : Nat) : Nat :=
  successorIdOf ids ((nid + 2 ^ i) % 2 ^ m)

/-- Downward scan of `closest_preceding_finger`: checks finger `i-1`, …, `0`. -/
def cpfGo (m : Nat) (ids : List Nat) (selfId key : Nat) : Nat → Nat
  | 0 => selfId
  | i + 1 =>
    if in_interval (fingerOf m ids selfId i) selfId key false then fingerOf m ids selfId i
    else cpfGo m ids selfId key i

/-- `ChordNode.closest_preceding_finger` (scans `finger[m-1]` down to `finger[0]`). -/
def closest_preceding_finger (m : Nat) (ids : List Nat) (selfId key : Nat) : Nat :=
  cpfGo m ids selfId key m

/-- The advance step of `ChordNetwork._route`: closest preceding finger, replaced
by the successor when it makes no progress or was already visited. -/
def chordNext (m : Nat) (ids : List Nat) (visited : List Nat) (current target : Nat) : Nat :=
  if closest_preceding_finger m ids current target = current ∨
      closest_preceding_finger m ids current target ∈ visited then succOf ids current
  else closest_preceding_finger m ids current target

/-- The loop of `ChordNetwork._route`.  The loop body is translated literally
(including the `hops > len(nodes) + 5` safety fuse); the structural `fuel`
argument only bounds the recursion and is chosen large enough at the call
site that it never runs out (the fuse fires first). -/
def chordRouteGo (m : Nat) (ids : List Nat) (target : Nat) :
    Nat → Nat → Nat → List Nat → Nat × Nat
  | 0, current, hops, _ => (current, hops)
  | fuel + 1, current, hops, visited =>
    if succOf ids current = current then (current, 0)
    else if in_interval target current (succOf ids current) true then
      (succOf ids current, hops + (if succOf ids current = current then 0 else 1))
    else if ids.length + 5 < hops + 1 then
      (chordNext m ids visited current target, hops + 1)
    else
      chordRouteGo m ids target fuel (chordNext m ids visited current target) (hops + 1)
        (current :: visited)

/-- `ChordNetwork._route(start_id, target_id)`, returning `(destination, hops)`. -/
def chordRoute (m : Nat) (ids : List Nat) (startId targetId : Nat) : Nat × Nat :=
  chordRouteGo m ids targetId (ids.length + 6) startId 0 []

theorem chordRouteGo_succ (m : Nat) (ids : List Nat) (target fuel current hops : Nat)
    (visited : List Nat) :
    chordRouteGo m ids target (fuel + 1) current hops visited =
      if succOf ids current = current then (current, 0)
      else if in_interval target current (succOf ids current) true then
        (succOf ids current, hops + (if succOf ids current = current then 0 else 1))
      else if ids.length + 5 < hops + 1 then
        (chordNext m ids visited current target, hops + 1)
      else
        chordRouteGo m ids target fuel (chordNext m ids visited current target) (hops + 1)
          (current :: visited) := rfl

theorem fingerOf_mem (m : Nat) (ids : List Nat) (nid i : Nat) (hne : ids ≠ []) :
    fingerOf m ids nid i ∈ ids :=
  successorIdOf_mem ids _ hne

theorem cpfGo_spec (m : Nat) (ids : List Nat) (selfId key : Nat) (hne : ids ≠ []) :
    ∀ i, cpfGo m ids selfId key i = selfId ∨
      (cpfGo m ids selfId key i ∈ ids ∧
        in_interval (cpfGo m ids selfId key i) selfId key false = true) := by
  intro i
  induction i with
  | zero => exact Or.inl rfl
  | succ i ih =>
      unfold cpfGo
      split_ifs with h
      · exact Or.inr ⟨fingerOf_mem m ids selfId i hne, h⟩
      · exact ih

theorem chordNext_mem (m : Nat) (ids : List Nat) (visited : List Nat)
    (current target : Nat) (hne : ids ≠ []) (hcur : current ∈ ids) :
    chordNext m ids visited current target ∈ ids := by
  unfold chordNext
  split_ifs with h
  · exact succOf_mem ids current hne
  · show cpfGo m ids current target m ∈ ids
    rcases cpfGo_spec m ids current target hne m with hself | ⟨hmem, _⟩
    · rw [hself]; exact hcur
    · exact hmem

theorem chordRouteGo_dest_mem (m : Nat) (ids : List Nat) (target : Nat) (hne : ids ≠ []) :
    ∀ fuel current hops visited, current ∈ ids →
      (chordRouteGo m ids target fuel current hops visited).1 ∈ ids := by
  intro fuel
  induction fuel with
  | zero => intro current hops visited hcur; exact hcur
  | succ fuel ih =>
      intro current hops visited hcur
      rw [chordRouteGo_succ]
      split_ifs with h1 h2 h3
      · exact hcur
      · exact succOf_mem ids current hne
      · exact chordNext_mem m ids visited current target hne hcur
      · exact ih _ _ _ (chordNext_mem m ids visited current target hne hcur)

/-- Spec-side measure: number of live nodes strictly clockwise-closer to the
target than `cur` (excluding exact hits). -/
def closerCount (M : Nat) (ids : List Nat) (t cur : Nat) : Nat :=
  (ids.toFinset.filter (fun z => 0 < cwM M z t ∧ cwM M z t < cwM M cur t)).card

/-- Arithmetic core of destination correctness: if `t ∈ (cur, s]` and no live
node lies strictly between `cur` and `s`, then `s` is clockwise-minimal from
`t` among `{cur, s}` and anything at clockwise distance `≥ cwM cur s`. -/
theorem cw_dest_le (M cur s t w : Nat) (hM : 0 < M) (hcur : cur < M) (hsM : s < M)
    (ht : t < M) (hw : w < M) (h0 : 0 < cwM M cur t) (h1 : cwM M cur t ≤ cwM M cur s)
    (h2 : w = cur ∨ cwM M cur s ≤ cwM M cur w) : cwM M t s ≤ cwM M t w := by
  have hts : cwM M t s = cwM M cur s - cwM M cur t := cwM_sub M cur t s hM hcur ht hsM h1
  rcases h2 with hwc | hws
  · rw [hwc]
    have hct : cur ≠ t := by
      intro hct
      rw [hct, cwM_self] at h0
      omega
    have hrev : cwM M cur t + cwM M t cur = M := cwM_add_rev M cur t hM hcur ht hct
    have hlt := cwM_lt M cur s hM
    omega
  · have htw : cwM M t w = cwM M cur w - cwM M cur t :=
      cwM_sub M cur t w hM hcur ht hw (by omega)
    omega

/-- The interval-hit exit of `_route` lands exactly on `_successor_id_of(target)`. -/
theorem interval_exit_dest (m : Nat) (ids : List Nat) (cur t : Nat)
    (hs : List.Sorted (· < ·) ids) (hb : ∀ x ∈ ids, x < 2 ^ m) (ht : t < 2 ^ m)
    (hne : ids ≠ []) (hcur : cur ∈ ids) (hsucc : succOf ids cur ≠ cur)
    (hint : in_interval t cur (succOf ids cur) true = true) :
    succOf ids cur = successorIdOf ids t := by
  have hM : 0 < 2 ^ m := Nat.pos_pow_of_pos m (by omega)
  have hcurM : cur < 2 ^ m := hb cur hcur
  have hsmem : succOf ids cur ∈ ids := succOf_mem ids cur hne
  have hsM : succOf ids cur < 2 ^ m := hb _ hsmem
  have hchar := (in_interval_true_iff (2 ^ m) t cur (succOf ids cur) hM ht hcurM hsM
    (fun h => hsucc h.symm)).mp hint
  refine successorIdOf_unique (2 ^ m) ids t (succOf ids cur) hM hs hb hne ht hsmem ?_
  intro w hw
  refine cw_dest_le (2 ^ m) cur (succOf ids cur) t w hM hcurM hsM ht (hb w hw)
    hchar.1 hchar.2 ?_
  by_cases hwc : w = cur
  · exact Or.inl hwc
  · exact Or.inr (succOf_min (2 ^ m) ids cur hM hs hb hcur w hw hwc)

theorem closerCount_le (M : Nat) (ids : List Nat) (t cur : Nat) (hcur : cur ∈ ids) :
    closerCount M ids t cur ≤ ids.length - 1 := by
  unfold closerCount
  have hsub : ids.toFinset.filter
      (fun z => 0 < cwM M z t ∧ cwM M z t < cwM M cur t) ⊆ ids.toFinset.erase cur := by
    intro z hz
    simp only [Finset.mem_filter] at hz
    refine Finset.mem_erase.mpr ⟨?_, hz.1⟩
    intro hzc
    rw [hzc] at hz
    omega
  calc (ids.toFinset.filter (fun z => 0 < cwM M z t ∧ cwM M z t < cwM M cur t)).card
      ≤ (ids.toFinset.erase cur).card := Finset.card_le_card hsub
    _ = ids.toFinset.card - 1 := Finset.card_erase_of_mem (List.mem_toFinset.mpr hcur)
    _ ≤ ids.length - 1 := by
        have := ids.toFinset_card_le
        omega

/-- A step to a strictly clockwise-closer node strictly decreases `closerCount`. -/
theorem closerCount_lt (M : Nat) (ids : List Nat) (t cur nxt : Nat) (hnxt : nxt ∈ ids)
    (h0 : 0 < cwM M nxt t) (hlt : cwM M nxt t < cwM M cur t) :
    closerCount M ids t nxt < closerCount M ids t cur := by
  unfold closerCount
  have hmem : nxt ∈ ids.toFinset.filter
      (fun z => 0 < cwM M z t ∧ cwM M z t < cwM M cur t) :=
    Finset.mem_filter.mpr ⟨List.mem_toFinset.mpr hnxt, h0, hlt⟩
  have hsub : ids.toFinset.filter (fun z => 0 < cwM M z t ∧ cwM M z t < cwM M nxt t) ⊆
      (ids.toFinset.filter (fun z => 0 < cwM M z t ∧ cwM M z t < cwM M cur t)).erase nxt := by
    intro z hz
    simp only [Finset.mem_filter] at hz
    refine Finset.mem_erase.mpr ⟨?_, Finset.mem_filter.mpr ⟨hz.1, hz.2.1, by omega⟩⟩
    intro hzn
    rw [hzn] at hz
    omega
  calc (ids.toFinset.filter (fun z => 0 < cwM M z t ∧ cwM M z t < cwM M nxt t)).card
      ≤ ((ids.toFinset.filter
          (fun z => 0 < cwM M z t ∧ cwM M z t < cwM M cur t)).erase nxt).card :=
        Finset.card_le_card hsub
    _ < (ids.toFinset.filter (fun z => 0 < cwM M z t ∧ cwM M z t < cwM M cur t)).card := by
        rw [Finset.card_erase_of_mem hmem]
        have := Finset.card_pos.mpr ⟨nxt, hmem⟩
        omega

theorem cpf_spec (m : Nat) (ids : List Nat) (selfId key : Nat) (hne : ids ≠ []) :
    closest_preceding_finger m ids selfId key = selfId ∨
      (closest_preceding_finger m ids selfId key ∈ ids ∧
        in_interval (closest_preceding_finger m ids selfId key) selfId key false = true) :=
  cpfGo_spec m ids selfId key hne m

/-- Main induction for `ChordNetwork._route` on a consistent (rebuilt) network
with at least two nodes: starting anywhere strictly clockwise-before the
target, the route reaches `_successor_id_of(target)` and the hop counter grows
by at most `closerCount + 1`. -/
theorem chordRouteGo_spec (m : Nat) (ids : List Nat) (t : Nat)
    (hs : List.Sorted (· < ·) ids) (hb : ∀ x ∈ ids, x < 2 ^ m) (ht : t < 2 ^ m)
    (hlen : 2 ≤ ids.length) :
    ∀ k fuel cur hops : Nat, ∀ visited : List Nat, cur ∈ ids →
      0 < cwM (2 ^ m) cur t → closerCount (2 ^ m) ids t cur ≤ k → k + 1 ≤ fuel →
      hops + k ≤ ids.length + 4 →
      (chordRouteGo m ids t fuel cur hops visited).1 = successorIdOf ids t ∧
      (chordRouteGo m ids t fuel cur hops visited).2 ≤ hops + k + 1 := by
  intro k
  induction k using Nat.strong_induction_on with
  | _ k IH =>
    intro fuel cur hops visited hcur hcw hcount hfuel hhops
    have hM : 0 < 2 ^ m := Nat.pos_pow_of_pos m (by omega)
    have hne : ids ≠ [] := by
      intro h
      rw [h] at hlen
      simp at hlen
    obtain ⟨fuel', rfl⟩ : ∃ f', fuel = f' + 1 := ⟨fuel - 1, by omega⟩
    rw [chordRouteGo_succ]
    have hsne : succOf ids cur ≠ cur := succOf_ne ids cur hs hlen hcur
    rw [if_neg hsne]
    have hsmem := succOf_mem ids cur hne
    have hcurM := hb cur hcur
    have hsM := hb _ hsmem
    by_cases hint : in_interval t cur (succOf ids cur) true = true
    · rw [if_pos hint]
      refine ⟨interval_exit_dest m ids cur t hs hb ht hne hcur hsne hint, ?_⟩
      show hops + (if succOf ids cur = cur then 0 else 1) ≤ hops + k + 1
      rw [if_neg hsne]
      omega
    · rw [if_neg hint]
      have hchar : ¬(0 < cwM (2 ^ m) cur t ∧
          cwM (2 ^ m) cur t ≤ cwM (2 ^ m) cur (succOf ids cur)) := by
        intro hcon
        exact hint ((in_interval_true_iff (2 ^ m) t cur (succOf ids cur) hM ht hcurM hsM
          (fun h => hsne h.symm)).mpr hcon)
      have hscur0 : 0 < cwM (2 ^ m) cur (succOf ids cur) := by
        rcases Nat.eq_zero_or_pos (cwM (2 ^ m) cur (succOf ids cur)) with h0 | h0
        · exact absurd ((cwM_eq_zero_iff _ _ _ hM hcurM hsM).mp h0).symm hsne
        · exact h0
      have hslt : cwM (2 ^ m) cur (succOf ids cur) < cwM (2 ^ m) cur t := by omega
      have hst : cwM (2 ^ m) (succOf ids cur) t =
          cwM (2 ^ m) cur t - cwM (2 ^ m) cur (succOf ids cur) :=
        cwM_sub _ cur (succOf ids cur) t hM hcurM hsM ht (by omega)
      have hsS : 0 < cwM (2 ^ m) (succOf ids cur) t ∧
          cwM (2 ^ m) (succOf ids cur) t < cwM (2 ^ m) cur t := by omega
      have hnext : chordNext m ids visited cur t ∈ ids ∧
          0 < cwM (2 ^ m) (chordNext m ids visited cur t) t ∧
          cwM (2 ^ m) (chordNext m ids visited cur t) t < cwM (2 ^ m) cur t := by
        unfold chordNext
        split_ifs with hc
        · exact ⟨hsmem, hsS.1, hsS.2⟩
        · push_neg at hc
          rcases cpf_spec m ids cur t hne with hself | ⟨hmem, hopen⟩
          · exact absurd hself hc.1
          · have hcpfM := hb _ hmem
            have hct : cur ≠ t := by
              intro h
              rw [h, cwM_self] at hcw
              omega
            have hoc := (in_interval_false_iff (2 ^ m) _ cur t hM hcpfM hcurM ht hct).mp hopen
            have hsub := cwM_sub (2 ^ m) cur _ t hM hcurM hcpfM ht (le_of_lt hoc.2)
            exact ⟨hmem, by omega, by omega⟩
      have hdec : closerCount (2 ^ m) ids t (chordNext m ids visited cur t) <
          closerCount (2 ^ m) ids t cur :=
        closerCount_lt _ ids t cur _ hnext.1 hnext.2.1 hnext.2.2
      have hpos : 0 < closerCount (2 ^ m) ids t cur := by
        have hmem2 : succOf ids cur ∈ ids.toFinset.filter
            (fun z => 0 < cwM (2 ^ m) z t ∧ cwM (2 ^ m) z t < cwM (2 ^ m) cur t) :=
          Finset.mem_filter.mpr ⟨List.mem_toFinset.mpr hsmem, hsS.1, hsS.2⟩
        unfold closerCount
        exact Finset.card_pos.mpr ⟨_, hmem2⟩
      rw [if_neg (show ¬(ids.length + 5 < hops + 1) by omega)]
      have hrec := IH (k - 1) (by omega) fuel' (chordNext m ids visited cur t) (hops + 1)
        (cur :: visited) hnext.1 hnext.2.1 (by omega) (by omega) (by omega)
      exact ⟨hrec.1, by omega⟩

theorem succOf_singleton (a x : Nat) : succOf [a] x = a := by
  unfold succOf nth
  simp [Nat.mod_one]

theorem successorIdOf_singleton (a t : Nat) : successorIdOf [a] t = a := by
  unfold successorIdOf
  cases hfind : List.find? (fun y => decide (t ≤ y)) [a] with
  | some y =>
      have := List.mem_of_find?_eq_some hfind
      simp at this
      rw [this]
  | none => rfl

/-- `ChordNetwork._route` on a consistent rebuilt network: from any live start
node to any in-space target, the destination is `_successor_id_of(target)` and
the reported hop count is at most `len(nodes) + 5` (so the safety fuse never
fires). -/
theorem chordRoute_spec (m : Nat) (ids : List Nat) (start t : Nat)
    (hs : List.Sorted (· < ·) ids) (hb : ∀ x ∈ ids, x < 2 ^ m) (ht : t < 2 ^ m)
    (hne : ids ≠ []) (hstart : start ∈ ids) :
    (chordRoute m ids start t).1 = successorIdOf ids t ∧
    (chordRoute m ids start t).2 ≤ ids.length + 5 := by
  have hM : 0 < 2 ^ m := Nat.pos_pow_of_pos m (by omega)
  have hlen0 : 0 < ids.length := List.length_pos.mpr hne
  rcases Nat.lt_or_ge ids.length 2 with hl | hl
  · -- singleton network: the route returns the only node with 0 hops
    have hlen1 : ids.length = 1 := by omega
    obtain ⟨a, rfl⟩ := List.length_eq_one.mp hlen1
    have hsa : start = a := by simpa using hstart
    subst hsa
    unfold chordRoute
    have hfe : [start].length + 6 = [start].length + 5 + 1 := rfl
    rw [hfe, chordRouteGo_succ, if_pos (succOf_singleton start start)]
    rw [successorIdOf_singleton start t]
    exact ⟨rfl, by simp⟩
  · have hstartM := hb start hstart
    by_cases hcw : 0 < cwM (2 ^ m) start t
    · have h := chordRouteGo_spec m ids t hs hb ht hl (ids.length - 1) (ids.length + 6)
        start 0 [] hstart hcw (closerCount_le _ ids t start hstart) (by omega) (by omega)
      unfold chordRoute
      exact ⟨h.1, by omega⟩
    · -- the start node's id equals the target: one forced hop, then the main lemma
      have hst : start = t := by
        have h0 : cwM (2 ^ m) start t = 0 := by omega
        exact (cwM_eq_zero_iff _ _ _ hM hstartM ht).mp h0
      unfold chordRoute
      have hfe : ids.length + 6 = ids.length + 5 + 1 := rfl
      rw [hfe, chordRouteGo_succ]
      have hsne : succOf ids start ≠ start := succOf_ne ids start hs hl hstart
      rw [if_neg hsne]
      have hsmem := succOf_mem ids start hne
      have hint : ¬(in_interval t start (succOf ids start) true = true) := by
        intro h
        have hchar := (in_interval_true_iff (2 ^ m) t start (succOf ids start) hM ht
          hstartM (hb _ hsmem) (fun h2 => hsne h2.symm)).mp h
        omega
      rw [if_neg hint, if_neg (show ¬(ids.length + 5 < 0 + 1) by omega)]
      simp only [Nat.zero_add]
      have hnmem : chordNext m ids [] start t ∈ ids :=
        chordNext_mem m ids [] start t hne hstart
      have hnne : chordNext m ids [] start t ≠ start := by
        unfold chordNext
        split_ifs with hc
        · exact hsne
        · push_neg at hc
          exact hc.1
      have hncw : 0 < cwM (2 ^ m) (chordNext m ids [] start t) t := by
        rcases Nat.eq_zero_or_pos (cwM (2 ^ m) (chordNext m ids [] start t) t) with h0 | h0
        · have heq := (cwM_eq_zero_iff _ _ _ hM (hb _ hnmem) ht).mp h0
          exact absurd (heq.trans hst.symm) hnne
        · exact h0
      have h := chordRouteGo_spec m ids t hs hb ht hl (ids.length - 1) (ids.length + 5)
        (chordNext m ids [] start t) 1 (start :: []) hnmem hncw
        (closerCount_le _ ids t _ hnmem) (by omega) (by omega)
      exact ⟨h.1, by omega⟩

/-! ### Hex representation (`to_hex128`, `common_prefix_len_hex`) -/

/-- Digit `i` (most significant first) of the 32-digit hex form of `x`. -/
def hexDigit (x i : Nat) : Nat := x / 16 ^ (ID_HEX_LEN - 1 - i) % 16

/-- `to_hex128`, as the list of 32 hex digit values. -/
def to_hex128 (x : Nat) : List Nat := (List.range ID_HEX_LEN).map (hexDigit x)

/-- Length of the longest common prefix of two digit lists. -/
def cplGo : List Nat → List Nat → Nat
  | a :: as, b :: bs => if a = b then cplGo as bs + 1 else 0
  | _, _ => 0

/-- `common_prefix_len_hex(a, b)`. -/
def common_prefix_len_hex (a b : Nat) : Nat := cplGo (to_hex128 a) (to_hex128 b)

/-! ### Leaf set (`LeafSet`) -/

/-- The dedup-keeping-order append loop building `out` in `LeafSet.rebuild`
(`if x != self_id and x not in out: out.append(x)`). -/
def buildOut (selfId : Nat) (xs : List Nat) : List Nat :=
  xs.foldl (fun out xv => if xv ≠ selfId ∧ xv ∉ out then out ++ [xv] else out) []

/-- `LeafSet.rebuild(self_id, all_node_ids)`: up to `L/2` ring neighbours on
each side of `self`, deduplicated, excluding `self`, truncated to `L`. -/
def leafRebuild (L selfId : Nat) (allIds : List Nat) : List Nat :=
  if selfId ∈ dedupSort allIds then
    (buildOut selfId
      (((List.range (L / 2)).map fun k0 =>
          nth (dedupSort allIds)
            (pySubMod ((dedupSort allIds).indexOf selfId) (k0 + 1) (dedupSort allIds).length)) ++
        ((List.range (L / 2)).map fun k0 =>
          nth (dedupSort allIds)
            (((dedupSort allIds).indexOf selfId + (k0 + 1)) % (dedupSort allIds).length)))).take L
  else []

/-- `LeafSet.candidates_with_self`. -/
def candidates_with_self (selfId : Nat) (leaves : List Nat) : List Nat := selfId :: leaves

/-- Python `min(xs, key=f)` over `x :: xs` (first minimum wins). -/
def pyMinBy (f : Nat → Nat) (x : Nat) (xs : List Nat) : Nat :=
  xs.foldl (fun b y => if f y < f b then y else b) x

/-- `LeafSet.closest_to(self_id, target_id)`. -/
def closest_to (leaves : List Nat) (selfId targetId : Nat) : Nat :=
  pyMinBy (fun nid => circ_dist nid targetId) selfId leaves

/-! ### Routing table (`RoutingTable`) -/

/-- One step of `RoutingTable.rebuild` (first-writer-wins cell fill). -/
def rtInsert (selfId : Nat) (table : List (List (Nat × Nat))) (nid : Nat) :
    List (List (Nat × Nat)) :=
  if nid = selfId then table
  else if common_prefix_len_hex selfId nid < ID_HEX_LEN then
    if ((table.getD (common_prefix_len_hex selfId nid) []).find?
        (fun e => e.1 == hexDigit nid (common_prefix_len_hex selfId nid))).isSome then table
    else
      table.set (common_prefix_len_hex selfId nid)
        ((table.getD (common_prefix_len_hex selfId nid) []) ++
          [(hexDigit nid (common_prefix_len_hex selfId nid), nid)])
  else table

/-- `RoutingTable.rebuild(self_id, all_node_ids)`: 32 rows of (column, node) cells. -/
def rtRebuild (selfId : Nat) (allIds : List Nat) : List (List (Nat × Nat)) :=
  allIds.foldl (rtInsert selfId) (List.replicate ID_HEX_LEN [])

/-- `RoutingTable.entry(row, col)`. -/
def rtEntry (table : List (List (Nat × Nat))) (row col : Nat) : Option Nat :=
  if row < table.length then
    ((table.getD row []).find? (fun e => e.1 == col)).map (fun e => e.2)
  else none

/-- `RoutingTable.row_candidates(row)`. -/
def rtRowCandidates (table : List (List (Nat × Nat))) (row : Nat) : List Nat :=
  if row < table.length then (table.getD row []).map (fun e => e.2) else []

/-! ### Pastry next hop (`PastryNode.next_hop`) -/

/-- The fallback scan of `next_hop` (step 3): best strictly-closer unvisited
neighbourhood node sharing at least prefix `p` with `self`. -/
def fallbackStep (selfId targetId p : Nat) (visited neighborhood : List Nat) : Nat :=
  neighborhood.foldl
    (fun best nid =>
      if nid = selfId ∨ nid ∈ visited then best
      else if common_prefix_len_hex selfId nid < p then best
      else if circ_dist nid targetId < circ_dist best targetId then nid else best)
    selfId

/-- Step 2 of `next_hop`: the routing-table candidate for the target (cell at
row = common prefix length, column = next hex digit of the target), accepted
only when present, unvisited and strictly closer. -/
def rtHit (selfId targetId : Nat) (table : List (List (Nat × Nat)))
    (visited : List Nat) : Option Nat :=
  if common_prefix_len_hex selfId targetId < ID_HEX_LEN then
    match rtEntry table (common_prefix_len_hex selfId targetId)
        (hexDigit targetId (common_prefix_len_hex selfId targetId)) with
    | some rt =>
        if rt ∉ visited ∧ circ_dist rt targetId < circ_dist selfId targetId then some rt
        else none
    | none => none
  else none

/-- `PastryNode.next_hop(target_id, neighborhood, visited)`. -/
def next_hop (selfId : Nat) (leaves : List Nat) (table : List (List (Nat × Nat)))
    (targetId : Nat) (neighborhood visited : List Nat) : Nat :=
  if closest_to leaves selfId targetId ≠ selfId ∧
      circ_dist (closest_to leaves selfId targetId) targetId <
        circ_dist selfId targetId then
    closest_to leaves selfId targetId
  else
    (rtHit selfId targetId table visited).getD
      (fallbackStep selfId targetId (common_prefix_len_hex selfId targetId) visited
        neighborhood)

/-! ### Pastry routing (`PastryNetwork._route`)

The per-node leaf set and routing table are the rebuilt ones
(`_rebuild_structures` sorts `self.nodes.keys()` and rebuilds both on every
membership change). -/

/-- The `next_hop` call made by one iteration of `PastryNetwork._route`. -/
def pastryStep (L : Nat) (ids : List Nat) (target current : Nat)
    (visited : List Nat) : Nat :=
  next_hop current (leafRebuild L current (sortNat ids))
    (rtRebuild current (sortNat ids)) target
    (candidates_with_self current (leafRebuild L current (sortNat ids)) ++
      rtRowCandidates (rtRebuild current (sortNat ids))
        (common_prefix_len_hex current target))
    visited

/-- The loop of `PastryNetwork._route`.  The source loop has no hop fuse; the
structural `fuel` only bounds the recursion, and termination within
`len(nodes)` iterations is proved below (`pastryRoute_total`). -/
def pastryRouteGo (L : Nat) (ids : List Nat) (target : Nat) :
    Nat → Nat → Nat → List Nat → Option (Nat × Nat)
  | 0, _, _, _ => none
  | fuel + 1, current, hops, visited =>
    if pastryStep L ids target current (current :: visited) = current then
      some (current, hops)
    else if pastryStep L ids target current (current :: visited) ∉ ids then
      some (current, hops)
    else
      pastryRouteGo L ids target fuel (pastryStep L ids target current (current :: visited))
        (hops + 1) (current :: visited)

/-- `PastryNetwork._route(start_id, target_id)`. -/
def pastryRoute (L : Nat) (ids : List Nat) (startId targetId : Nat) : Option (Nat × Nat) :=
  pastryRouteGo L ids targetId ids.length startId 0 []

theorem pastryRouteGo_succ (L : Nat) (ids : List Nat) (target fuel current hops : Nat)
    (visited : List Nat) :
    pastryRouteGo L ids target (fuel + 1) current hops visited =
      if pastryStep L ids target current (current :: visited) = current then
        some (current, hops)
      else if pastryStep L ids target current (current :: visited) ∉ ids then
        some (current, hops)
      else
        pastryRouteGo L ids target fuel
          (pastryStep L ids target current (current :: visited)) (hops + 1)
          (current :: visited) := rfl

/-! ### The accepted next hop is strictly closer (prefix overlay) -/

theorem pyMinBy_cons (f : Nat → Nat) (x y : Nat) (ys : List Nat) :
    pyMinBy f x (y :: ys) = pyMinBy f (if f y < f x then y else x) ys := rfl

theorem pyMinBy_le_init (f : Nat → Nat) (x : Nat) (xs : List Nat) :
    f (pyMinBy f x xs) ≤ f x := by
  induction xs generalizing x with
  | nil => exact le_rfl
  | cons y ys ih =>
      rw [pyMinBy_cons]
      split_ifs with h
      · exact le_trans (ih y) (by omega)
      · exact ih x

theorem pyMinBy_le_mem (f : Nat → Nat) (x : Nat) (xs : List Nat) (y : Nat) (hy : y ∈ xs) :
    f (pyMinBy f x xs) ≤ f y := by
  induction xs generalizing x with
  | nil => simp at hy
  | cons z zs ih =>
      rw [pyMinBy_cons]
      rcases List.mem_cons.mp hy with hz | hzs
      · subst hz
        split_ifs with h
        · exact pyMinBy_le_init f y zs
        · exact le_trans (pyMinBy_le_init f x zs) (by omega)
      · split_ifs with h
        · exact ih z hzs
        · exact ih x hzs

theorem pyMinBy_mem (f : Nat → Nat) (x : Nat) (xs : List Nat) :
    pyMinBy f x xs = x ∨ pyMinBy f x xs ∈ xs := by
  induction xs generalizing x with
  | nil => exact Or.inl rfl
  | cons y ys ih =>
      rw [pyMinBy_cons]
      split_ifs with h
      · rcases ih y with h1 | h1
        · exact Or.inr (by rw [h1]; exact List.mem_cons_self y ys)
        · exact Or.inr (List.mem_cons_of_mem y h1)
      · rcases ih x with h1 | h1
        · exact Or.inl h1
        · exact Or.inr (List.mem_cons_of_mem y h1)

theorem fallbackStep_spec (selfId targetId p : Nat) (visited neighborhood : List Nat) :
    fallbackStep selfId targetId p visited neighborhood = selfId ∨
      (fallbackStep selfId targetId p visited neighborhood ∈ neighborhood ∧
        circ_dist (fallbackStep selfId targetId p visited neighborhood) targetId <
          circ_dist selfId targetId) := by
  unfold fallbackStep
  suffices h : ∀ l best, l ⊆ neighborhood →
      (best = selfId ∨ (best ∈ neighborhood ∧
        circ_dist best targetId < circ_dist selfId targetId)) →
      (l.foldl
        (fun best nid =>
          if nid = selfId ∨ nid ∈ visited then best
          else if common_prefix_len_hex selfId nid < p then best
          else if circ_dist nid targetId < circ_dist best targetId then nid else best)
        best = selfId ∨
        ((l.foldl
          (fun best nid =>
            if nid = selfId ∨ nid ∈ visited then best
            else if common_prefix_len_hex selfId nid < p then best
            else if circ_dist nid targetId < circ_dist best targetId then nid else best)
          best) ∈ neighborhood ∧
          circ_dist (l.foldl
            (fun best nid =>
              if nid = selfId ∨ nid ∈ visited then best
              else if common_prefix_len_hex selfId nid < p then best
              else if circ_dist nid targetId < circ_dist best targetId then nid else best)
            best) targetId < circ_dist selfId targetId)) by
    exact h neighborhood selfId (fun z hz => hz) (Or.inl rfl)
  intro l
  induction l with
  | nil => intro best hsub hbest; exact hbest
  | cons nid rest ih =>
      intro best hsub hbest
      simp only [List.foldl_cons]
      have hnid : nid ∈ neighborhood := hsub (List.mem_cons_self nid rest)
      have hrest : rest ⊆ neighborhood := fun z hz => hsub (List.mem_cons_of_mem nid hz)
      split_ifs with h1 h2 h3
      · exact ih best hrest hbest
      · exact ih best hrest hbest
      · refine ih nid hrest (Or.inr ⟨hnid, ?_⟩)
        rcases hbest with hb | hb
        · rw [hb] at h3; exact h3
        · omega
      · exact ih best hrest hbest

theorem rtHit_spec (selfId targetId : Nat) (table : List (List (Nat × Nat)))
    (visited : List Nat) (rt : Nat)
    (h : rtHit selfId targetId table visited = some rt) :
    circ_dist rt targetId < circ_dist selfId targetId ∧
      ∃ row col, rtEntry table row col = some rt := by
  unfold rtHit at h
  split_ifs at h with h1
  · cases hentry : rtEntry table (common_prefix_len_hex selfId targetId)
        (hexDigit targetId (common_prefix_len_hex selfId targetId)) with
    | none =>
        simp only [hentry] at h
        exact absurd h (by simp)
    | some rt0 =>
        simp only [hentry] at h
        split_ifs at h with h2
        · simp only [Option.some.injEq] at h
          subst h
          exact ⟨h2.2, _, _, hentry⟩

/-- Every next hop accepted by `next_hop` (any of the three steps) is strictly
closer to the target by circular distance than the current node. -/
theorem next_hop_strict (selfId targetId : Nat) (leaves : List Nat)
    (table : List (List (Nat × Nat))) (neighborhood visited : List Nat)
    (hne : next_hop selfId leaves table targetId neighborhood visited ≠ selfId) :
    circ_dist (next_hop selfId leaves table targetId neighborhood visited) targetId <
      circ_dist selfId targetId := by
  unfold next_hop at hne ⊢
  split_ifs with h1
  · exact h1.2
  · rw [if_neg h1] at hne
    cases hmatch : rtHit selfId targetId table visited with
    | some rt =>
        rw [hmatch] at hne
        simp only [Option.getD_some]
        exact (rtHit_spec selfId targetId table visited rt hmatch).1
    | none =>
        rw [hmatch] at hne
        simp only [Option.getD_none] at hne ⊢
        rcases fallbackStep_spec selfId targetId (common_prefix_len_hex selfId targetId)
          visited neighborhood with hf | hf
        · exact absurd hf hne
        · exact hf.2

/-! ### Pastry route termination and hop bound -/

/-- Spec-side measure: number of live nodes strictly closer (circular distance)
to the target than `cur`. -/
def pastryCloserCount (ids : List Nat) (t cur : Nat) : Nat :=
  (ids.toFinset.filter (fun z => circ_dist z t < circ_dist cur t)).card

theorem pastryCloserCount_le (ids : List Nat) (t cur : Nat) (hcur : cur ∈ ids) :
    pastryCloserCount ids t cur ≤ ids.length - 1 := by
  unfold pastryCloserCount
  have hsub : ids.toFinset.filter (fun z => circ_dist z t < circ_dist cur t) ⊆
      ids.toFinset.erase cur := by
    intro z hz
    simp only [Finset.mem_filter] at hz
    refine Finset.mem_erase.mpr ⟨?_, hz.1⟩
    intro hzc
    rw [hzc] at hz
    omega
  calc (ids.toFinset.filter (fun z => circ_dist z t < circ_dist cur t)).card
      ≤ (ids.toFinset.erase cur).card := Finset.card_le_card hsub
    _ = ids.toFinset.card - 1 := Finset.card_erase_of_mem (List.mem_toFinset.mpr hcur)
    _ ≤ ids.length - 1 := by
        have := ids.toFinset_card_le
        omega

theorem pastryCloserCount_lt (ids : List Nat) (t cur nxt : Nat) (hnxt : nxt ∈ ids)
    (hlt : circ_dist nxt t < circ_dist cur t) :
    pastryCloserCount ids t nxt < pastryCloserCount ids t cur := by
  unfold pastryCloserCount
  have hmem : nxt ∈ ids.toFinset.filter (fun z => circ_dist z t < circ_dist cur t) :=
    Finset.mem_filter.mpr ⟨List.mem_toFinset.mpr hnxt, hlt⟩
  have hsub : ids.toFinset.filter (fun z => circ_dist z t < circ_dist nxt t) ⊆
      (ids.toFinset.filter (fun z => circ_dist z t < circ_dist cur t)).erase nxt := by
    intro z hz
    simp only [Finset.mem_filter] at hz
    refine Finset.mem_erase.mpr ⟨?_, Finset.mem_filter.mpr ⟨hz.1, by omega⟩⟩
    intro hzn
    rw [hzn] at hz
    omega
  calc (ids.toFinset.filter (fun z => circ_dist z t < circ_dist nxt t)).card
      ≤ ((ids.toFinset.filter (fun z => circ_dist z t < circ_dist cur t)).erase nxt).card :=
        Finset.card_le_card hsub
    _ < (ids.toFinset.filter (fun z => circ_dist z t < circ_dist cur t)).card := by
        rw [Finset.card_erase_of_mem hmem]
        have := Finset.card_pos.mpr ⟨nxt, hmem⟩
        omega

/-- `PastryNetwork._route` terminates: with fuel `closerCount + 1` it returns,
the destination is live, and it adds at most `closerCount` hops. -/
theorem pastryRouteGo_bound (L : Nat) (ids : List Nat) (t : Nat) :
    ∀ k fuel cur hops : Nat, ∀ visited : List Nat, cur ∈ ids →
      pastryCloserCount ids t cur ≤ k → k + 1 ≤ fuel →
      ∃ dest h, pastryRouteGo L ids t fuel cur hops visited = some (dest, h) ∧
        h ≤ hops + k ∧ dest ∈ ids := by
  intro k
  induction k using Nat.strong_induction_on with
  | _ k IH =>
    intro fuel cur hops visited hcur hcount hfuel
    obtain ⟨fuel', rfl⟩ : ∃ f', fuel = f' + 1 := ⟨fuel - 1, by omega⟩
    rw [pastryRouteGo_succ]
    by_cases h1 : pastryStep L ids t cur (cur :: visited) = cur
    · rw [if_pos h1]
      exact ⟨cur, hops, rfl, by omega, hcur⟩
    · rw [if_neg h1]
      by_cases h2 : pastryStep L ids t cur (cur :: visited) ∈ ids
      · rw [if_neg (by simpa using h2)]
        have hstrict : circ_dist (pastryStep L ids t cur (cur :: visited)) t <
            circ_dist cur t :=
          next_hop_strict cur t _ _ _ _ h1
        have hdec : pastryCloserCount ids t (pastryStep L ids t cur (cur :: visited)) <
            pastryCloserCount ids t cur :=
          pastryCloserCount_lt ids t cur _ h2 hstrict
        have hkpos : 1 ≤ k := by omega
        obtain ⟨dest, h, heq, hle, hdest⟩ := IH (k - 1) (by omega) fuel'
          (pastryStep L ids t cur (cur :: visited)) (hops + 1) (cur :: visited) h2
          (by omega) (by omega)
        exact ⟨dest, h, heq, by omega, hdest⟩
      · rw [if_pos (by simpa using h2)]
        exact ⟨cur, hops, rfl, by omega, hcur⟩

/-- `PastryNetwork._route` from any live start returns within `len(nodes)`
loop iterations (at most `len(nodes) - 1` hops), with no hop-count fuse. -/
theorem pastryRoute_total (L : Nat) (ids : List Nat) (start t : Nat)
    (hstart : start ∈ ids) :
    ∃ dest h, pastryRoute L ids start t = some (dest, h) ∧ h + 1 ≤ ids.length ∧
      dest ∈ ids := by
  have hlen : 0 < ids.length := List.length_pos_of_mem hstart
  obtain ⟨dest, h, heq, hle, hdest⟩ := pastryRouteGo_bound L ids t (ids.length - 1)
    ids.length start 0 [] hstart (pastryCloserCount_le ids t start hstart) (by omega)
  exact ⟨dest, h, heq, by omega, hdest⟩

/-! ### Rotation order vs clockwise distance

For a sorted duplicate-free id list, walking the list circularly from a node
enumerates the other nodes in strictly increasing clockwise distance.  This
links the index arithmetic of `LeafSet.rebuild` to the closeness ranks of the
specification. -/

theorem nth_inj_of_sorted (ids : List Nat) (hs : List.Sorted (· < ·) ids)
    (i j : Nat) (hi : i < ids.length) (hj : j < ids.length)
    (h : nth ids i = nth ids j) : i = j := by
  rcases Nat.lt_trichotomy i j with hij | hij | hij
  · have := nth_lt_of_sorted ids hs i j hij hj
    omega
  · exact hij
  · have := nth_lt_of_sorted ids hs j i hij hi
    omega

/-- Strict monotonicity of clockwise distance along the rotated sorted list. -/
theorem rot_cw_mono (M : Nat) (ids : List Nat) (x idx : Nat) (hM : 0 < M)
    (hs : List.Sorted (· < ·) ids) (hb : ∀ w ∈ ids, w < M) (hidx : idx < ids.length)
    (hnthx : nth ids idx = x)
    (i j : Nat) (hi : i < ids.length) (hj : j < ids.length) (hij : i < j) :
    cwM M x (nth ids ((i + idx) % ids.length)) <
      cwM M x (nth ids ((j + idx) % ids.length)) := by
  have hxM : x < M := by
    rw [← hnthx]
    exact hb _ (nth_mem ids _ hidx)
  have hposi : (i + idx) % ids.length < ids.length := Nat.mod_lt _ (by omega)
  have hposj : (j + idx) % ids.length < ids.length := Nat.mod_lt _ (by omega)
  have hiM : nth ids ((i + idx) % ids.length) < M := hb _ (nth_mem ids _ hposi)
  have hjM : nth ids ((j + idx) % ids.length) < M := hb _ (nth_mem ids _ hposj)
  rw [cwM_closed M x _ hM hxM hiM, cwM_closed M x _ hM hxM hjM]
  rcases Nat.lt_or_ge (i + idx) ids.length with hwi | hwi
  · have heqi : (i + idx) % ids.length = i + idx := Nat.mod_eq_of_lt hwi
    have hxle : x ≤ nth ids ((i + idx) % ids.length) := by
      rw [heqi, ← hnthx]
      exact nth_le_of_sorted ids hs idx (i + idx) (by omega) (by omega)
    rcases Nat.lt_or_ge (j + idx) ids.length with hwj | hwj
    · have heqj : (j + idx) % ids.length = j + idx := Nat.mod_eq_of_lt hwj
      have hlt : nth ids ((i + idx) % ids.length) < nth ids ((j + idx) % ids.length) := by
        rw [heqi, heqj]
        exact nth_lt_of_sorted ids hs (i + idx) (j + idx) (by omega) (by omega)
      have hxle2 : x ≤ nth ids ((j + idx) % ids.length) := by omega
      rw [if_pos hxle, if_pos hxle2]
      omega
    · have heqj : (j + idx) % ids.length = j + idx - ids.length := by
        rw [Nat.mod_eq_sub_mod hwj]
        exact Nat.mod_eq_of_lt (by omega)
      have hltx : nth ids ((j + idx) % ids.length) < x := by
        rw [heqj, ← hnthx]
        exact nth_lt_of_sorted ids hs (j + idx - ids.length) idx (by omega) (by omega)
      rw [if_pos hxle, if_neg (by omega)]
      omega
  · have hwj : j + idx ≥ ids.length := by omega
    have heqi : (i + idx) % ids.length = i + idx - ids.length := by
      rw [Nat.mod_eq_sub_mod hwi]
      exact Nat.mod_eq_of_lt (by omega)
    have heqj : (j + idx) % ids.length = j + idx - ids.length := by
      rw [Nat.mod_eq_sub_mod hwj]
      exact Nat.mod_eq_of_lt (by omega)
    have hlt : nth ids ((i + idx) % ids.length) < nth ids ((j + idx) % ids.length) := by
      rw [heqi, heqj]
      exact nth_lt_of_sorted ids hs (i + idx - ids.length) (j + idx - ids.length)
        (by omega) (by omega)
    have hltxi : nth ids ((i + idx) % ids.length) < x := by
      rw [heqi, ← hnthx]
      exact nth_lt_of_sorted ids hs (i + idx - ids.length) idx (by omega) (by omega)
    have hltxj : nth ids ((j + idx) % ids.length) < x := by
      rw [heqj, ← hnthx]
      exact nth_lt_of_sorted ids hs (j + idx - ids.length) idx (by omega) (by omega)
    rw [if_neg (by omega), if_neg (by omega)]
    omega

/-- Every live node other than `x` sits at a unique rotation offset `δ ∈ [1, n-1]`. -/
theorem rot_index_exists (ids : List Nat) (x z idx : Nat) (hs : List.Sorted (· < ·) ids)
    (hidx : idx < ids.length) (hnthx : nth ids idx = x) (hz : z ∈ ids) (hzx : z ≠ x) :
    ∃ δ, 1 ≤ δ ∧ δ < ids.length ∧ z = nth ids ((δ + idx) % ids.length) := by
  obtain ⟨iz, hizlt, hiznth⟩ := List.mem_iff_getElem.mp hz
  have hnthz : nth ids iz = z := by
    unfold nth
    rw [List.getD_eq_getElem ids 0 hizlt]
    exact hiznth
  have hne : iz ≠ idx := by
    intro h
    rw [h, hnthx] at hnthz
    exact hzx hnthz.symm
  have hv : (iz + ids.length - idx) % ids.length =
      if idx ≤ iz then iz - idx else iz + ids.length - idx := by
    rcases le_or_lt idx iz with hle | hlt
    · have heq : iz + ids.length - idx = (iz - idx) + ids.length := by omega
      rw [if_pos hle, heq, Nat.add_mod_right, Nat.mod_eq_of_lt (by omega)]
    · rw [if_neg (by omega), Nat.mod_eq_of_lt (by omega)]
  refine ⟨(iz + ids.length - idx) % ids.length, ?_, Nat.mod_lt _ (by omega), ?_⟩
  · rw [hv]
    split_ifs with hle <;> omega
  · have harith : ((iz + ids.length - idx) % ids.length + idx) % ids.length = iz := by
      rw [hv]
      split_ifs with hle
      · have heq : iz - idx + idx = iz := by omega
        rw [heq, Nat.mod_eq_of_lt (by omega)]
      · have heq : iz + ids.length - idx + idx = iz + ids.length := by omega
        rw [heq, Nat.add_mod_right, Nat.mod_eq_of_lt (by omega)]
    rw [harith, hnthz]

theorem rot_self (ids : List Nat) (x idx : Nat) (hidx : idx < ids.length)
    (hnthx : nth ids idx = x) : nth ids ((0 + idx) % ids.length) = x := by
  rw [Nat.zero_add, Nat.mod_eq_of_lt hidx, hnthx]

theorem rot_ne_x (M : Nat) (ids : List Nat) (x idx i : Nat) (hM : 0 < M)
    (hs : List.Sorted (· < ·) ids) (hb : ∀ w ∈ ids, w < M)
    (hidx : idx < ids.length) (hnthx : nth ids idx = x)
    (hi1 : 1 ≤ i) (hi2 : i < ids.length) :
    0 < cwM M x (nth ids ((i + idx) % ids.length)) ∧
      nth ids ((i + idx) % ids.length) ≠ x := by
  have hmono := rot_cw_mono M ids x idx hM hs hb hidx hnthx 0 i (by omega) hi2 (by omega)
  rw [rot_self ids x idx hidx hnthx, cwM_self] at hmono
  refine ⟨hmono, ?_⟩
  intro heq
  rw [heq, cwM_self] at hmono
  omega

/-- Exactly `δ - 1` live nodes are clockwise-strictly-between `x` and the node
at rotation offset `δ` from `x`. -/
theorem rot_cwCount (M : Nat) (ids : List Nat) (x idx δ : Nat) (hM : 0 < M)
    (hs : List.Sorted (· < ·) ids) (hb : ∀ w ∈ ids, w < M)
    (hidx : idx < ids.length) (hnthx : nth ids idx = x)
    (hd1 : 1 ≤ δ) (hd2 : δ < ids.length) :
    (ids.toFinset.filter (fun w => w ≠ x ∧
      cwM M x w < cwM M x (nth ids ((δ + idx) % ids.length)))).card = δ - 1 := by
  have himg : ids.toFinset.filter (fun w => w ≠ x ∧
      cwM M x w < cwM M x (nth ids ((δ + idx) % ids.length))) =
      (Finset.Ioo 0 δ).image (fun i => nth ids ((i + idx) % ids.length)) := by
    ext w
    simp only [Finset.mem_filter, Finset.mem_image, Finset.mem_Ioo, List.mem_toFinset]
    constructor
    · rintro ⟨hw, hwx, hcw⟩
      obtain ⟨δw, hδw1, hδw2, hδweq⟩ := rot_index_exists ids x w idx hs hidx hnthx hw hwx
      refine ⟨δw, ⟨by omega, ?_⟩, hδweq.symm⟩
      rcases Nat.lt_trichotomy δw δ with hlt | heq | hgt
      · exact hlt
      · exfalso
        rw [heq] at hδweq
        rw [hδweq] at hcw
        omega
      · exfalso
        have := rot_cw_mono M ids x idx hM hs hb hidx hnthx δ δw hd2 hδw2 hgt
        rw [← hδweq] at this
        omega
    · rintro ⟨i, ⟨hi1, hi2⟩, heq⟩
      have hok := rot_ne_x M ids x idx i hM hs hb hidx hnthx (by omega) (by omega)
      have hmono := rot_cw_mono M ids x idx hM hs hb hidx hnthx i δ (by omega) hd2 hi2
      rw [heq] at hok hmono
      exact ⟨by rw [← heq]; exact nth_mem ids _ (Nat.mod_lt _ (by omega)), hok.2, hmono⟩
  rw [himg, Finset.card_image_of_injOn, Nat.card_Ioo]
  · omega
  · intro i hi j hj heq
    simp only [Finset.coe_Ioo, Set.mem_Ioo] at hi hj
    beta_reduce at heq
    rcases Nat.lt_trichotomy i j with hlt | he | hgt
    · have := rot_cw_mono M ids x idx hM hs hb hidx hnthx i j (by omega) (by omega) hlt
      rw [heq] at this
      omega
    · exact he
    · have := rot_cw_mono M ids x idx hM hs hb hidx hnthx j i (by omega) (by omega) hgt
      rw [heq] at this
      omega

/-- Exactly `n - 1 - δ` live nodes are counter-clockwise-strictly-between `x`
and the node at rotation offset `δ` from `x`. -/
theorem rot_ccwCount (M : Nat) (ids : List Nat) (x idx δ : Nat) (hM : 0 < M)
    (hs : List.Sorted (· < ·) ids) (hb : ∀ w ∈ ids, w < M)
    (hidx : idx < ids.length) (hnthx : nth ids idx = x)
    (hd1 : 1 ≤ δ) (hd2 : δ < ids.length) :
    (ids.toFinset.filter (fun w => w ≠ x ∧
      cwM M w x < cwM M (nth ids ((δ + idx) % ids.length)) x)).card =
      ids.length - 1 - δ := by
  have hxM : x < M := by
    rw [← hnthx]
    exact hb _ (nth_mem ids _ hidx)
  have hzdata := rot_ne_x M ids x idx δ hM hs hb hidx hnthx hd1 hd2
  have hzmem : nth ids ((δ + idx) % ids.length) ∈ ids :=
    nth_mem ids _ (Nat.mod_lt _ (by omega))
  have hzM : nth ids ((δ + idx) % ids.length) < M := hb _ hzmem
  -- flip ccw comparisons into cw comparisons
  have hcongr : ids.toFinset.filter (fun w => w ≠ x ∧
      cwM M w x < cwM M (nth ids ((δ + idx) % ids.length)) x) =
      ids.toFinset.filter (fun w => w ≠ x ∧
        cwM M x (nth ids ((δ + idx) % ids.length)) < cwM M x w) := by
    apply Finset.filter_congr
    intro w hw
    simp only [List.mem_toFinset] at hw
    have hwM : w < M := hb w hw
    constructor
    · rintro ⟨hwx, hlt⟩
      have h1 := cwM_add_rev M x w hM hxM hwM (fun h => hwx h.symm)
      have h2 := cwM_add_rev M x (nth ids ((δ + idx) % ids.length)) hM hxM hzM
        (fun h => hzdata.2 h.symm)
      exact ⟨hwx, by omega⟩
    · rintro ⟨hwx, hlt⟩
      have h1 := cwM_add_rev M x w hM hxM hwM (fun h => hwx h.symm)
      have h2 := cwM_add_rev M x (nth ids ((δ + idx) % ids.length)) hM hxM hzM
        (fun h => hzdata.2 h.symm)
      exact ⟨hwx, by omega⟩
  rw [hcongr]
  have himg : ids.toFinset.filter (fun w => w ≠ x ∧
      cwM M x (nth ids ((δ + idx) % ids.length)) < cwM M x w) =
      (Finset.Ioo δ ids.length).image (fun i => nth ids ((i + idx) % ids.length)) := by
    ext w
    simp only [Finset.mem_filter, Finset.mem_image, Finset.mem_Ioo, List.mem_toFinset]
    constructor
    · rintro ⟨hw, hwx, hcw⟩
      obtain ⟨δw, hδw1, hδw2, hδweq⟩ := rot_index_exists ids x w idx hs hidx hnthx hw hwx
      refine ⟨δw, ⟨?_, hδw2⟩, hδweq.symm⟩
      rcases Nat.lt_trichotomy δ δw with hlt | heq | hgt
      · exact hlt
      · exfalso
        rw [← heq] at hδweq
        rw [hδweq] at hcw
        omega
      · exfalso
        have := rot_cw_mono M ids x idx hM hs hb hidx hnthx δw δ hδw2 hd2 hgt
        rw [← hδweq] at this
        omega
    · rintro ⟨i, ⟨hi1, hi2⟩, heq⟩
      have hok := rot_ne_x M ids x idx i hM hs hb hidx hnthx (by omega) hi2
      have hmono := rot_cw_mono M ids x idx hM hs hb hidx hnthx δ i hd2 hi2 hi1
      rw [heq] at hok hmono
      exact ⟨by rw [← heq]; exact nth_mem ids _ (Nat.mod_lt _ (by omega)), hok.2, hmono⟩
  rw [himg, Finset.card_image_of_injOn, Nat.card_Ioo]
  · omega
  · intro i hi j hj heq
    simp only [Finset.coe_Ioo, Set.mem_Ioo] at hi hj
    beta_reduce at heq
    rcases Nat.lt_trichotomy i j with hlt | he | hgt
    · have := rot_cw_mono M ids x idx hM hs hb hidx hnthx i j (by omega) (by omega) hlt
      rw [heq] at this
      omega
    · exact he
    · have := rot_cw_mono M ids x idx hM hs hb hidx hnthx j i (by omega) (by omega) hgt
      rw [heq] at this
      omega

/-! ### Leaf-set characterisation -/

theorem buildOut_mem (s : Nat) (xs : List Nat) (z : Nat) :
    z ∈ buildOut s xs ↔ z ≠ s ∧ z ∈ xs := by
  unfold buildOut
  suffices h : ∀ (l acc : List Nat),
      (z ∈ List.foldl (fun out xv => if xv ≠ s ∧ xv ∉ out then out ++ [xv] else out) acc l ↔
        z ∈ acc ∨ (z ≠ s ∧ z ∈ l)) by
    rw [h xs []]
    simp
  intro l
  induction l with
  | nil => intro acc; simp
  | cons xv rest ih =>
      intro acc
      simp only [List.foldl_cons]
      rw [ih]
      split_ifs with h
      · simp only [List.mem_append, List.mem_singleton, List.mem_cons,
          List.not_mem_nil, or_false]
        constructor
        · rintro ((hz | hz) | hz)
          · exact Or.inl hz
          · exact Or.inr ⟨by rw [hz]; exact h.1, Or.inl hz⟩
          · exact Or.inr ⟨hz.1, Or.inr hz.2⟩
        · rintro (hz | ⟨hzs, hz | hz⟩)
          · exact Or.inl (Or.inl hz)
          · exact Or.inl (Or.inr hz)
          · exact Or.inr ⟨hzs, hz⟩
      · push_neg at h
        simp only [List.mem_cons]
        constructor
        · rintro (hz | hz)
          · exact Or.inl hz
          · exact Or.inr ⟨hz.1, Or.inr hz.2⟩
        · rintro (hz | ⟨hzs, hz | hz⟩)
          · exact Or.inl hz
          · refine Or.inl ?_
            rw [hz]
            exact h (by rw [← hz]; exact hzs)
          · exact Or.inr ⟨hzs, hz⟩

theorem buildOut_nodup (s : Nat) (xs : List Nat) : (buildOut s xs).Nodup := by
  unfold buildOut
  suffices h : ∀ (l acc : List Nat), acc.Nodup →
      (List.foldl (fun out xv => if xv ≠ s ∧ xv ∉ out then out ++ [xv] else out) acc l).Nodup by
    exact h xs [] List.nodup_nil
  intro l
  induction l with
  | nil => intro acc hacc; exact hacc
  | cons xv rest ih =>
      intro acc hacc
      simp only [List.foldl_cons]
      split_ifs with h
      · refine ih _ ?_
        rw [List.nodup_append]
        refine ⟨hacc, List.nodup_singleton xv, ?_⟩
        intro a ha hmem
        simp only [List.mem_singleton] at hmem
        rw [hmem] at ha
        exact h.2 ha
      · exact ih _ hacc

theorem buildOut_length_le (s : Nat) (xs : List Nat) :
    (buildOut s xs).length ≤ xs.length := by
  have hsub : buildOut s xs ⊆ xs := fun z hz => ((buildOut_mem s xs z).mp hz).2
  exact ((buildOut_nodup s xs).subperm hsub).length_le

/-- Nodes on one side at clockwise rank below `z`'s (spec side of the claim:
"`L/2` numerically nearest above"). -/
def cwCloserCount (ids : List Nat) (x z : Nat) : Nat :=
  (ids.toFinset.filter (fun w => w ≠ x ∧ cwM MOD x w < cwM MOD x z)).card

/-- Nodes on the other side at counter-clockwise rank below `z`'s. -/
def ccwCloserCount (ids : List Nat) (x z : Nat) : Nat :=
  (ids.toFinset.filter (fun w => w ≠ x ∧ cwM MOD w x < cwM MOD z x)).card

theorem mod_add_cancel (n c a b : Nat) (ha : a < n) (hb : b < n)
    (h : (c + a) % n = (c + b) % n) : a = b := by
  have hn : 0 < n := by omega
  have h1 : (c + a) % n = (c % n + a) % n := by
    rw [Nat.add_mod, Nat.mod_eq_of_lt ha]
  have h2 : (c + b) % n = (c % n + b) % n := by
    rw [Nat.add_mod, Nat.mod_eq_of_lt hb]
  rw [h1, h2] at h
  have hc : c % n < n := Nat.mod_lt _ hn
  rcases Nat.lt_or_ge (c % n + a) n with hca | hca <;>
    rcases Nat.lt_or_ge (c % n + b) n with hcb | hcb
  · rw [Nat.mod_eq_of_lt hca, Nat.mod_eq_of_lt hcb] at h
    omega
  · have hb2 : c % n + b - n < n := by omega
    rw [Nat.mod_eq_of_lt hca, Nat.mod_eq_sub_mod hcb, Nat.mod_eq_of_lt hb2] at h
    omega
  · have ha2 : c % n + a - n < n := by omega
    rw [Nat.mod_eq_sub_mod hca, Nat.mod_eq_of_lt ha2, Nat.mod_eq_of_lt hcb] at h
    omega
  · have ha2 : c % n + a - n < n := by omega
    have hb2 : c % n + b - n < n := by omega
    rw [Nat.mod_eq_sub_mod hca, Nat.mod_eq_of_lt ha2, Nat.mod_eq_sub_mod hcb,
      Nat.mod_eq_of_lt hb2] at h
    omega

/-- The `larger`-side entries of `LeafSet.rebuild` are exactly the nodes with
fewer than `half` clockwise-closer peers. -/
theorem larger_iff (ids : List Nat) (selfId z half : Nat)
    (hs : List.Sorted (· < ·) ids) (hb : ∀ w ∈ ids, w < MOD)
    (hx : selfId ∈ ids) (hz : z ∈ ids) (hzx : z ≠ selfId) :
    (∃ k0, k0 < half ∧
        z = nth ids ((ids.indexOf selfId + (k0 + 1)) % ids.length)) ↔
      cwCloserCount ids selfId z < half := by
  have hMOD : 0 < MOD := Nat.pos_pow_of_pos ID_BITS (by omega)
  obtain ⟨hidx, hnthx⟩ := indexOf_spec ids selfId hx
  obtain ⟨δ, hδ1, hδ2, hδeq⟩ := rot_index_exists ids selfId z (ids.indexOf selfId) hs
    hidx hnthx hz hzx
  have hcount : cwCloserCount ids selfId z = δ - 1 := by
    unfold cwCloserCount
    rw [hδeq]
    exact rot_cwCount MOD ids selfId (ids.indexOf selfId) δ hMOD hs hb hidx hnthx hδ1 hδ2
  rw [hcount]
  constructor
  · rintro ⟨k0, hk0, hkeq⟩
    have hn : 0 < ids.length := by omega
    have hiidx : (ids.indexOf selfId + (k0 + 1)) % ids.length =
        (δ + ids.indexOf selfId) % ids.length := by
      apply nth_inj_of_sorted ids hs _ _ (Nat.mod_lt _ hn) (Nat.mod_lt _ hn)
      rw [← hkeq, ← hδeq]
    have h3 : (ids.indexOf selfId % ids.length + (k0 + 1) % ids.length) % ids.length =
        (ids.indexOf selfId % ids.length + δ % ids.length) % ids.length := by
      rw [← Nat.add_mod, ← Nat.add_mod, hiidx, Nat.add_comm δ (ids.indexOf selfId)]
    rw [Nat.mod_eq_of_lt hδ2] at h3
    have hkd : (k0 + 1) % ids.length = δ :=
      mod_add_cancel ids.length (ids.indexOf selfId % ids.length) _ _
        (Nat.mod_lt _ hn) hδ2 h3
    have hdle : δ ≤ k0 + 1 := by
      have := Nat.mod_le (k0 + 1) ids.length
      omega
    omega
  · intro hlt
    refine ⟨δ - 1, by omega, ?_⟩
    have heq : ids.indexOf selfId + (δ - 1 + 1) = δ + ids.indexOf selfId := by omega
    rw [heq, hδeq]

/-- The `smaller`-side entries of `LeafSet.rebuild` are exactly the nodes with
fewer than `half` counter-clockwise-closer peers. -/
theorem smaller_iff (ids : List Nat) (selfId z half : Nat)
    (hs : List.Sorted (· < ·) ids) (hb : ∀ w ∈ ids, w < MOD)
    (hx : selfId ∈ ids) (hz : z ∈ ids) (hzx : z ≠ selfId) :
    (∃ k0, k0 < half ∧
        z = nth ids (pySubMod (ids.indexOf selfId) (k0 + 1) ids.length)) ↔
      ccwCloserCount ids selfId z < half := by
  have hMOD : 0 < MOD := Nat.pos_pow_of_pos ID_BITS (by omega)
  obtain ⟨hidx, hnthx⟩ := indexOf_spec ids selfId hx
  obtain ⟨δ, hδ1, hδ2, hδeq⟩ := rot_index_exists ids selfId z (ids.indexOf selfId) hs
    hidx hnthx hz hzx
  have hn : 0 < ids.length := by omega
  have hcount : ccwCloserCount ids selfId z = ids.length - 1 - δ := by
    unfold ccwCloserCount
    rw [hδeq]
    exact rot_ccwCount MOD ids selfId (ids.indexOf selfId) δ hMOD hs hb hidx hnthx hδ1 hδ2
  rw [hcount]
  constructor
  · rintro ⟨k0, hk0, hkeq⟩
    unfold pySubMod at hkeq
    rcases Nat.eq_zero_or_pos ((k0 + 1) % ids.length) with hr | hr
    · exfalso
      rw [hr] at hkeq
      have heq : ids.indexOf selfId + (ids.length - 0) = ids.indexOf selfId + ids.length := by
        omega
      rw [heq, Nat.add_mod_right, Nat.mod_eq_of_lt hidx, hnthx] at hkeq
      exact hzx hkeq
    · have hrlt : (k0 + 1) % ids.length < ids.length := Nat.mod_lt _ hn
      have hiidx : (ids.indexOf selfId + (ids.length - (k0 + 1) % ids.length)) % ids.length =
          (δ + ids.indexOf selfId) % ids.length := by
        apply nth_inj_of_sorted ids hs _ _ (Nat.mod_lt _ hn) (Nat.mod_lt _ hn)
        rw [← hkeq, ← hδeq]
      have h3 : (ids.indexOf selfId % ids.length +
          (ids.length - (k0 + 1) % ids.length) % ids.length) % ids.length =
          (ids.indexOf selfId % ids.length + δ % ids.length) % ids.length := by
        rw [← Nat.add_mod, ← Nat.add_mod, hiidx, Nat.add_comm δ (ids.indexOf selfId)]
      rw [Nat.mod_eq_of_lt hδ2,
        Nat.mod_eq_of_lt (show ids.length - (k0 + 1) % ids.length < ids.length by omega)]
        at h3
      have hjd : ids.length - (k0 + 1) % ids.length = δ :=
        mod_add_cancel ids.length (ids.indexOf selfId % ids.length) _ _ (by omega) hδ2 h3
      have hrle : (k0 + 1) % ids.length ≤ k0 + 1 := Nat.mod_le _ _
      omega
  · intro hlt
    refine ⟨ids.length - δ - 1, by omega, ?_⟩
    unfold pySubMod
    have hmod : (ids.length - δ - 1 + 1) % ids.length = ids.length - δ := by
      have heq0 : ids.length - δ - 1 + 1 = ids.length - δ := by omega
      rw [heq0]
      exact Nat.mod_eq_of_lt (by omega)
    rw [hmod]
    have heq : ids.length - (ids.length - δ) = δ := by omega
    rw [heq, Nat.add_comm (ids.indexOf selfId) δ, hδeq]

/-- Characterisation of `LeafSet.rebuild` (on the sorted distinct id list the
network passes in): the leaves are exactly the nodes within rank `L/2` of
`self` on at least one side of the ring.  Saturates automatically when fewer
nodes exist. -/
theorem leafRebuild_mem_iff (L selfId : Nat) (ids : List Nat)
    (hs : List.Sorted (· < ·) ids) (hb : ∀ w ∈ ids, w < MOD)
    (hself : selfId ∈ ids) (z : Nat) :
    z ∈ leafRebuild L selfId ids ↔
      z ∈ ids ∧ z ≠ selfId ∧
        (ccwCloserCount ids selfId z < L / 2 ∨ cwCloserCount ids selfId z < L / 2) := by
  have hn : 0 < ids.length := List.length_pos_of_mem hself
  unfold leafRebuild
  rw [dedupSort_eq_self ids hs, if_pos hself]
  have hlen : (buildOut selfId
      (((List.range (L / 2)).map fun k0 =>
          nth ids (pySubMod (ids.indexOf selfId) (k0 + 1) ids.length)) ++
        ((List.range (L / 2)).map fun k0 =>
          nth ids ((ids.indexOf selfId + (k0 + 1)) % ids.length)))).length ≤ L := by
    have h1 := buildOut_length_le selfId
      (((List.range (L / 2)).map fun k0 =>
          nth ids (pySubMod (ids.indexOf selfId) (k0 + 1) ids.length)) ++
        ((List.range (L / 2)).map fun k0 =>
          nth ids ((ids.indexOf selfId + (k0 + 1)) % ids.length)))
    simp only [List.length_append, List.length_map, List.length_range] at h1
    omega
  rw [List.take_of_length_le hlen, buildOut_mem]
  simp only [List.mem_append, List.mem_map, List.mem_range]
  constructor
  · rintro ⟨hzx, ⟨k0, hk0, hkeq⟩ | ⟨k0, hk0, hkeq⟩⟩
    · have hz : z ∈ ids := by
        rw [← hkeq]
        exact nth_mem ids _ (Nat.mod_lt _ hn)
      exact ⟨hz, hzx, Or.inl ((smaller_iff ids selfId z (L / 2) hs hb hself hz hzx).mp
        ⟨k0, hk0, hkeq.symm⟩)⟩
    · have hz : z ∈ ids := by
        rw [← hkeq]
        exact nth_mem ids _ (Nat.mod_lt _ hn)
      exact ⟨hz, hzx, Or.inr ((larger_iff ids selfId z (L / 2) hs hb hself hz hzx).mp
        ⟨k0, hk0, hkeq.symm⟩)⟩
  · rintro ⟨hz, hzx, hcase | hcase⟩
    · obtain ⟨k0, hk0, hkeq⟩ :=
        (smaller_iff ids selfId z (L / 2) hs hb hself hz hzx).mpr hcase
      exact ⟨hzx, Or.inl ⟨k0, hk0, hkeq.symm⟩⟩
    · obtain ⟨k0, hk0, hkeq⟩ :=
        (larger_iff ids selfId z (L / 2) hs hb hself hz hzx).mpr hcase
      exact ⟨hzx, Or.inr ⟨k0, hk0, hkeq.symm⟩⟩

/-! ### Pastry destination correctness: helper lemmas -/

theorem cwM_pos_of_ne (M a b : Nat) (hM : 0 < M) (ha : a < M) (hb : b < M)
    (hne : a ≠ b) : 0 < cwM M a b := by
  rcases Nat.eq_zero_or_pos (cwM M a b) with h0 | h0
  · exact absurd ((cwM_eq_zero_iff M a b hM ha hb).mp h0) hne
  · exact h0

/-- Mirror arc subtraction: if the remaining clockwise distance from `b` to
`t` is at most that from `a`, then `b` lies on the arc from `a` to `t`. -/
theorem cwM_sub2 (M a b t : Nat) (hM : 0 < M) (ha : a < M) (hb : b < M) (ht : t < M)
    (h : cwM M b t ≤ cwM M a t) : cwM M a b = cwM M a t - cwM M b t := by
  rw [cwM_closed M b t hM hb ht, cwM_closed M a t hM ha ht] at h
  rw [cwM_closed M a b hM ha hb, cwM_closed M a t hM ha ht, cwM_closed M b t hM hb ht]
  split_ifs at h ⊢ <;> omega

theorem predOf_ne (ids : List Nat) (x : Nat) (hs : List.Sorted (· < ·) ids)
    (hlen : 2 ≤ ids.length) (hx : x ∈ ids) : predOf ids x ≠ x := by
  obtain ⟨hlt, hnth⟩ := indexOf_spec ids x hx
  unfold predOf pySubMod
  have h1 : (1 : Nat) % ids.length = 1 := Nat.mod_eq_of_lt (by omega)
  rw [h1]
  rcases Nat.eq_zero_or_pos (ids.indexOf x) with hidx0 | hidx0
  · have hm : (0 + (ids.length - 1)) % ids.length = ids.length - 1 := by
      rw [Nat.zero_add]
      exact Nat.mod_eq_of_lt (by omega)
    rw [hidx0, hm]
    have hlt2 := nth_lt_of_sorted ids hs 0 (ids.length - 1) (by omega) (by omega)
    rw [hidx0] at hnth
    omega
  · have heq : (ids.indexOf x + (ids.length - 1)) % ids.length = ids.indexOf x - 1 := by
      rw [Nat.mod_eq_sub_mod (by omega)]
      have heq2 : ids.indexOf x + (ids.length - 1) - ids.length = ids.indexOf x - 1 := by
        omega
      rw [heq2]
      exact Nat.mod_eq_of_lt (by omega)
    rw [heq]
    have := nth_lt_of_sorted ids hs (ids.indexOf x - 1) (ids.indexOf x) (by omega) hlt
    omega

theorem leafRebuild_subset (L s : Nat) (ids0 : List Nat) (z : Nat)
    (hz : z ∈ leafRebuild L s ids0) : z ∈ ids0 := by
  unfold leafRebuild at hz
  split_ifs at hz with hself
  · have hn : 0 < (dedupSort ids0).length := List.length_pos_of_mem hself
    have hz2 := (buildOut_mem s _ z).mp (List.mem_of_mem_take hz)
    rcases List.mem_append.mp hz2.2 with hmem | hmem <;>
      simp only [List.mem_map, List.mem_range] at hmem <;>
      obtain ⟨k0, hk0, hkeq⟩ := hmem
    · rw [← hkeq] at hz2 ⊢
      exact (dedupSort_mem ids0 _).mp (nth_mem _ _ (Nat.mod_lt _ hn))
    · rw [← hkeq] at hz2 ⊢
      exact (dedupSort_mem ids0 _).mp (nth_mem _ _ (Nat.mod_lt _ hn))
  · simp at hz

theorem rtInsert_inv (s nid : Nat) (ids0 : List Nat) (acc : List (List (Nat × Nat)))
    (hnid : nid ∈ ids0)
    (hacc : ∀ r ∈ acc, ∀ e ∈ r, e.2 ∈ ids0 ∧ e.2 ≠ s) :
    ∀ r ∈ rtInsert s acc nid, ∀ e ∈ r, e.2 ∈ ids0 ∧ e.2 ≠ s := by
  intro r hr e he
  unfold rtInsert at hr
  split_ifs at hr with h1 h2 h3
  · exact hacc r hr e he
  · exact hacc r hr e he
  · rcases List.mem_or_eq_of_mem_set hr with hmem | heq
    · exact hacc r hmem e he
    · subst heq
      rcases List.mem_append.mp he with he2 | he2
      · by_cases hrow : common_prefix_len_hex s nid < acc.length
        · have hold : acc.getD (common_prefix_len_hex s nid) [] ∈ acc := by
            rw [List.getD_eq_getElem acc [] hrow]
            exact List.getElem_mem hrow
          exact hacc _ hold e he2
        · rw [List.getD_eq_default acc [] (by omega)] at he2
          simp at he2
      · simp only [List.mem_singleton] at he2
        rw [he2]
        exact ⟨hnid, h1⟩
  · exact hacc r hr e he

/-- Every cell installed by `RoutingTable.rebuild` holds a live node other
than `self`. -/
theorem rtRebuild_values (s : Nat) (ids0 : List Nat) :
    ∀ r ∈ rtRebuild s ids0, ∀ e ∈ r, e.2 ∈ ids0 ∧ e.2 ≠ s := by
  unfold rtRebuild
  suffices h : ∀ (l : List Nat) (acc : List (List (Nat × Nat))),
      (∀ x ∈ l, x ∈ ids0) →
      (∀ r ∈ acc, ∀ e ∈ r, e.2 ∈ ids0 ∧ e.2 ≠ s) →
      ∀ r ∈ List.foldl (rtInsert s) acc l, ∀ e ∈ r, e.2 ∈ ids0 ∧ e.2 ≠ s by
    refine h ids0 _ (fun x hx => hx) ?_
    intro r hr
    simp only [List.mem_replicate] at hr
    rw [hr.2]
    intro e he
    simp at he
  intro l
  induction l with
  | nil => intro acc hl hacc; exact hacc
  | cons nid rest ih =>
      intro acc hl hacc
      simp only [List.foldl_cons]
      exact ih _ (fun x hx => hl x (List.mem_cons_of_mem nid hx))
        (rtInsert_inv s nid ids0 acc (hl nid (List.mem_cons_self nid rest)) hacc)

theorem rtEntry_values (s : Nat) (ids0 : List Nat) (row col v : Nat)
    (h : rtEntry (rtRebuild s ids0) row col = some v) : v ∈ ids0 ∧ v ≠ s := by
  unfold rtEntry at h
  split_ifs at h with h1
  · cases hf : ((rtRebuild s ids0).getD row []).find? (fun e => e.1 == col) with
    | none => rw [hf] at h; simp at h
    | some e =>
        rw [hf] at h
        simp only [Option.map_some', Option.some.injEq] at h
        have he := List.mem_of_find?_eq_some hf
        have hrow : (rtRebuild s ids0).getD row [] ∈ rtRebuild s ids0 := by
          rw [List.getD_eq_getElem _ [] h1]
          exact List.getElem_mem h1
        have hv := rtRebuild_values s ids0 _ hrow e he
        rw [← h]
        exact hv

theorem rtRowCandidates_values (s : Nat) (ids0 : List Nat) (row v : Nat)
    (h : v ∈ rtRowCandidates (rtRebuild s ids0) row) : v ∈ ids0 ∧ v ≠ s := by
  unfold rtRowCandidates at h
  split_ifs at h with h1
  · simp only [List.mem_map] at h
    obtain ⟨e, he, hev⟩ := h
    have hrow : (rtRebuild s ids0).getD row [] ∈ rtRebuild s ids0 := by
      rw [List.getD_eq_getElem _ [] h1]
      exact List.getElem_mem h1
    have hv := rtRebuild_values s ids0 _ hrow e he
    rw [← hev]
    exact hv
  · simp at h

theorem closest_to_mem (leaves : List Nat) (selfId targetId : Nat) :
    closest_to leaves selfId targetId = selfId ∨
      closest_to leaves selfId targetId ∈ leaves :=
  pyMinBy_mem (fun nid => circ_dist nid targetId) selfId leaves

/-- The hop chosen by a `_route` iteration is always a live node. -/
theorem pastryStep_mem (L : Nat) (ids : List Nat) (t cur : Nat) (visited : List Nat)
    (hcur : cur ∈ ids) : pastryStep L ids t cur visited ∈ ids := by
  have hsortmem : ∀ z, z ∈ sortNat ids → z ∈ ids := by
    intro z hz
    exact (sortNat_perm ids).mem_iff.mp hz
  unfold pastryStep next_hop
  split_ifs with h1
  · rcases closest_to_mem (leafRebuild L cur (sortNat ids)) cur t with h | h
    · rw [h]; exact hcur
    · exact hsortmem _ (leafRebuild_subset L cur (sortNat ids) _ h)
  · cases hmatch : rtHit cur t (rtRebuild cur (sortNat ids)) visited with
    | some rt =>
        simp only [Option.getD_some]
        obtain ⟨_, row, col, hentry⟩ := rtHit_spec cur t _ visited rt hmatch
        exact hsortmem _ (rtEntry_values cur (sortNat ids) row col rt hentry).1
    | none =>
        simp only [Option.getD_none]
        rcases fallbackStep_spec cur t (common_prefix_len_hex cur t) visited
          (candidates_with_self cur (leafRebuild L cur (sortNat ids)) ++
            rtRowCandidates (rtRebuild cur (sortNat ids))
              (common_prefix_len_hex cur t)) with hf | hf
        · rw [hf]; exact hcur
        · rcases List.mem_append.mp hf.1 with hmem | hmem
          · rcases List.mem_cons.mp hmem with hmem2 | hmem2
            · rw [hmem2]; exact hcur
            · exact hsortmem _ (leafRebuild_subset L cur (sortNat ids) _ hmem2)
          · exact hsortmem _ (rtRowCandidates_values cur (sortNat ids) _ _ hmem).1

theorem succOf_cwCount_zero (ids : List Nat) (x : Nat)
    (hs : List.Sorted (· < ·) ids) (hb : ∀ w ∈ ids, w < MOD) (hx : x ∈ ids) :
    cwCloserCount ids x (succOf ids x) = 0 := by
  have hMOD : 0 < MOD := Nat.pos_pow_of_pos ID_BITS (by omega)
  unfold cwCloserCount
  rw [Finset.card_eq_zero, Finset.filter_eq_empty_iff]
  intro w hw
  simp only [List.mem_toFinset] at hw
  rintro ⟨hwx, hlt⟩
  exact absurd hlt (not_lt.mpr (succOf_min MOD ids x hMOD hs hb hx w hw hwx))

theorem predOf_ccwCount_zero (ids : List Nat) (x : Nat)
    (hs : List.Sorted (· < ·) ids) (hb : ∀ w ∈ ids, w < MOD) (hx : x ∈ ids) :
    ccwCloserCount ids x (predOf ids x) = 0 := by
  have hMOD : 0 < MOD := Nat.pos_pow_of_pos ID_BITS (by omega)
  unfold ccwCloserCount
  rw [Finset.card_eq_zero, Finset.filter_eq_empty_iff]
  intro w hw
  simp only [List.mem_toFinset] at hw
  rintro ⟨hwx, hlt⟩
  exact absurd hlt (not_lt.mpr (predOf_min MOD ids x hMOD hs hb hx w hw hwx))

theorem succOf_mem_leaf (L : Nat) (ids : List Nat) (x : Nat)
    (hs : List.Sorted (· < ·) ids) (hb : ∀ w ∈ ids, w < MOD) (hx : x ∈ ids)
    (hlen : 2 ≤ ids.length) (hL : 2 ≤ L) : succOf ids x ∈ leafRebuild L x ids := by
  rw [leafRebuild_mem_iff L x ids hs hb hx]
  refine ⟨succOf_mem ids x (by intro h; rw [h] at hx; simp at hx),
    succOf_ne ids x hs hlen hx, Or.inr ?_⟩
  rw [succOf_cwCount_zero ids x hs hb hx]
  omega

theorem predOf_mem_leaf (L : Nat) (ids : List Nat) (x : Nat)
    (hs : List.Sorted (· < ·) ids) (hb : ∀ w ∈ ids, w < MOD) (hx : x ∈ ids)
    (hlen : 2 ≤ ids.length) (hL : 2 ≤ L) : predOf ids x ∈ leafRebuild L x ids := by
  rw [leafRebuild_mem_iff L x ids hs hb hx]
  refine ⟨predOf_mem ids x (by intro h; rw [h] at hx; simp at hx),
    predOf_ne ids x hs hlen hx, Or.inl ?_⟩
  rw [predOf_ccwCount_zero ids x hs hb hx]
  omega

/-- Ring geometry: if some live node is strictly closer to the target than
`cur`, then one of `cur`'s two immediate ring neighbours is strictly closer
than `cur`. -/
theorem geo_step (ids : List Nat) (cur zstar t : Nat)
    (hs : List.Sorted (· < ·) ids) (hb : ∀ w ∈ ids, w < MOD) (ht : t < MOD)
    (hlen : 2 ≤ ids.length) (hcur : cur ∈ ids) (hzmem : zstar ∈ ids)
    (hne : cur ≠ zstar) (hd : circ_dist zstar t < circ_dist cur t) :
    circ_dist (succOf ids cur) t < circ_dist cur t ∨
      circ_dist (predOf ids cur) t < circ_dist cur t := by
  have hMOD : 0 < MOD := Nat.pos_pow_of_pos ID_BITS (by omega)
  have hne2 : ids ≠ [] := by intro h; rw [h] at hcur; simp at hcur
  have hcurM := hb cur hcur
  have hzM := hb zstar hzmem
  have hymem := succOf_mem ids cur hne2
  have hyne := succOf_ne ids cur hs hlen hcur
  have hyM := hb _ hymem
  have hpmem := predOf_mem ids cur hne2
  have hpne := predOf_ne ids cur hs hlen hcur
  have hpM := hb _ hpmem
  simp only [circ_dist] at hd ⊢
  rcases le_or_lt (cwM MOD cur t) (cwM MOD t cur) with hside | hside
  · refine Or.inl ?_
    have h0 : 0 < cwM MOD cur t := by
      rcases Nat.eq_zero_or_pos (cwM MOD cur t) with hz0 | hz0
      · exfalso
        have hct : cur = t := (cwM_eq_zero_iff MOD cur t hMOD hcurM ht).mp hz0
        rw [hct, cwM_self] at hd
        omega
      · exact hz0
    have hy0 : 0 < cwM MOD cur (succOf ids cur) :=
      cwM_pos_of_ne MOD cur _ hMOD hcurM hyM (fun h => hyne h.symm)
    rcases le_or_lt (cwM MOD cur (succOf ids cur)) (cwM MOD cur t) with hgap | hgap
    · have hsub := cwM_sub MOD cur (succOf ids cur) t hMOD hcurM hyM ht hgap
      omega
    · have hzs := succOf_min MOD ids cur hMOD hs hb hcur zstar hzmem (fun h => hne h.symm)
      have h1 : cwM MOD cur t ≤ cwM MOD cur zstar := by omega
      have h2 := cwM_sub MOD cur t zstar hMOD hcurM ht hzM h1
      have h4 : 0 < cwM MOD t zstar := by omega
      have h5 : t ≠ zstar := by
        intro h
        rw [h, cwM_self] at h4
        omega
      have h6 := cwM_add_rev MOD t zstar hMOD ht hzM h5
      have h7 := cwM_lt MOD cur zstar hMOD
      have h8 := cwM_sub MOD cur t (succOf ids cur) hMOD hcurM ht hyM (le_of_lt hgap)
      omega
  · refine Or.inr ?_
    have h0 : 0 < cwM MOD t cur := by
      rcases Nat.eq_zero_or_pos (cwM MOD t cur) with hz0 | hz0
      · exfalso
        have hct : t = cur := (cwM_eq_zero_iff MOD t cur hMOD ht hcurM).mp hz0
        rw [hct, cwM_self] at hside
        omega
      · exact hz0
    have hp0 : 0 < cwM MOD (predOf ids cur) cur :=
      cwM_pos_of_ne MOD _ cur hMOD hpM hcurM hpne
    rcases le_or_lt (cwM MOD (predOf ids cur) cur) (cwM MOD t cur) with hgap | hgap
    · have hsub := cwM_sub2 MOD t (predOf ids cur) cur hMOD ht hpM hcurM hgap
      omega
    · have hzs := predOf_min MOD ids cur hMOD hs hb hcur zstar hzmem (fun h => hne h.symm)
      have h1 : cwM MOD t cur ≤ cwM MOD zstar cur := by omega
      have h2 := cwM_sub2 MOD zstar t cur hMOD hzM ht hcurM h1
      have h4 : 0 < cwM MOD zstar t := by omega
      have h5 : zstar ≠ t := by
        intro h
        rw [h, cwM_self] at h4
        omega
      have h6 := cwM_add_rev MOD zstar t hMOD hzM ht h5
      have h7 := cwM_lt MOD zstar cur hMOD
      have h8 := cwM_sub2 MOD (predOf ids cur) t cur hMOD hpM ht hcurM (le_of_lt hgap)
      omega

theorem two_mem_length (l : List Nat) (a b : Nat) (ha : a ∈ l) (hb : b ∈ l)
    (hab : a ≠ b) : 2 ≤ l.length := by
  cases l with
  | nil => simp at ha
  | cons x rest =>
      cases rest with
      | nil =>
          simp only [List.mem_singleton] at ha hb
          rw [ha, hb] at hab
          exact absurd rfl hab
      | cons y rest2 => simp [List.length_cons]

/-- When the current node is not the closest live node to the target, the
leaf-set step of `next_hop` always finds a strictly closer hop. -/
theorem pastryStep_ne (L : Nat) (ids : List Nat) (t cur zstar : Nat)
    (visited : List Nat) (hnd : ids.Nodup) (hb : ∀ w ∈ ids, w < MOD) (ht : t < MOD)
    (hcur : cur ∈ ids) (hzmem : zstar ∈ ids) (hne : cur ≠ zstar) (hL : 2 ≤ L)
    (hd : circ_dist zstar t < circ_dist cur t) :
    pastryStep L ids t cur visited ≠ cur := by
  have hlen : 2 ≤ ids.length := two_mem_length ids cur zstar hcur hzmem hne
  have hsort : List.Sorted (· < ·) (sortNat ids) := sortNat_sorted_lt ids hnd
  have hb2 : ∀ w ∈ sortNat ids, w < MOD := fun w hw =>
    hb w ((sortNat_perm ids).mem_iff.mp hw)
  have hlen2 : 2 ≤ (sortNat ids).length := by
    rw [(sortNat_perm ids).length_eq]
    exact hlen
  have hcur2 : cur ∈ sortNat ids := (sortNat_perm ids).mem_iff.mpr hcur
  have hz2 : zstar ∈ sortNat ids := (sortNat_perm ids).mem_iff.mpr hzmem
  have hgeo := geo_step (sortNat ids) cur zstar t hsort hb2 ht hlen2 hcur2 hz2 hne hd
  have hleaf : ∃ y0 ∈ leafRebuild L cur (sortNat ids), circ_dist y0 t < circ_dist cur t := by
    rcases hgeo with hy | hp
    · exact ⟨succOf (sortNat ids) cur,
        succOf_mem_leaf L (sortNat ids) cur hsort hb2 hcur2 hlen2 hL, hy⟩
    · exact ⟨predOf (sortNat ids) cur,
        predOf_mem_leaf L (sortNat ids) cur hsort hb2 hcur2 hlen2 hL, hp⟩
  obtain ⟨y0, hy0mem, hy0lt⟩ := hleaf
  have hminle : circ_dist (closest_to (leafRebuild L cur (sortNat ids)) cur t) t ≤
      circ_dist y0 t :=
    pyMinBy_le_mem (fun nid => circ_dist nid t) cur (leafRebuild L cur (sortNat ids))
      y0 hy0mem
  have hbestlt : circ_dist (closest_to (leafRebuild L cur (sortNat ids)) cur t) t <
      circ_dist cur t := lt_of_le_of_lt hminle hy0lt
  have hbestne : closest_to (leafRebuild L cur (sortNat ids)) cur t ≠ cur := by
    intro h
    rw [h] at hbestlt
    omega
  unfold pastryStep next_hop
  rw [if_pos ⟨hbestne, hbestlt⟩]
  exact hbestne

/-- On a network whose target has a unique closest live node, `_route` can
only stop there: the destination is the circular-distance minimiser. -/
theorem pastryRouteGo_dest (L : Nat) (ids : List Nat) (t zstar : Nat)
    (hnd : ids.Nodup) (hb : ∀ w ∈ ids, w < MOD) (ht : t < MOD) (hL : 2 ≤ L)
    (hzmem : zstar ∈ ids)
    (huniq : ∀ w ∈ ids, w ≠ zstar → circ_dist zstar t < circ_dist w t) :
    ∀ fuel cur hops : Nat, ∀ visited : List Nat, ∀ dest h : Nat, cur ∈ ids →
      pastryRouteGo L ids t fuel cur hops visited = some (dest, h) → dest = zstar := by
  intro fuel
  induction fuel with
  | zero =>
      intro cur hops visited dest h hcur heq
      simp [pastryRouteGo] at heq
  | succ fuel ih =>
      intro cur hops visited dest h hcur heq
      rw [pastryRouteGo_succ] at heq
      by_cases hstep : pastryStep L ids t cur (cur :: visited) = cur
      · rw [if_pos hstep] at heq
        simp only [Option.some.injEq, Prod.mk.injEq] at heq
        by_cases hcz : cur = zstar
        · rw [← heq.1, hcz]
        · exact absurd hstep (pastryStep_ne L ids t cur zstar (cur :: visited) hnd hb ht
            hcur hzmem hcz hL (huniq cur hcur hcz))
      · rw [if_neg hstep] at heq
        have hmem := pastryStep_mem L ids t cur (cur :: visited) hcur
        rw [if_neg (by simpa using hmem)] at heq
        exact ih _ _ _ _ _ hmem heq

/-- `PastryNetwork._route` lands on the unique circular-distance minimiser of
the target, from any live start node. -/
theorem pastryRoute_dest (L : Nat) (ids : List Nat) (start t zstar : Nat)
    (hnd : ids.Nodup) (hb : ∀ w ∈ ids, w < MOD) (ht : t < MOD) (hL : 2 ≤ L)
    (hstart : start ∈ ids) (hzmem : zstar ∈ ids)
    (huniq : ∀ w ∈ ids, w ≠ zstar → circ_dist zstar t < circ_dist w t) :
    ∃ h, pastryRoute L ids start t = some (zstar, h) := by
  obtain ⟨dest, h, heq, _, _⟩ := pastryRoute_total L ids start t hstart
  have hdz := pastryRouteGo_dest L ids t zstar hnd hb ht hL hzmem huniq
    ids.length start 0 [] dest h hstart heq
  exact ⟨h, by rw [← hdz]; exact heq⟩

/-! ## Network state layer

Python dicts are embedded as insertion-ordered association lists; a
`random.Random` instance is a draw stream `f : Nat → Nat` plus a counter
(`getrandbits(m)` reads the next draw modulo `2 ^ m`, `choice(xs)` indexes
`xs` by the next draw modulo `xs.length`), and `random.Random(seed)` selects
the stream `mt seed` from an arbitrary family `mt`.  `hash_128` (SHA-1
truncated to 128 bits) is an arbitrary parameter `h : String → Nat`,
constrained to `< MOD` where needed.  Operations whose Python counterpart
raises, or whose while-loops are unbounded, return `Option` (with explicit
fuel for the unbounded draw loops). -/

def kvGet {α β : Type} [DecidableEq α] : List (α × β) → α → Option β
  | [], _ => none
  | (a, b) :: rest, k => if a = k then some b else kvGet rest k

def kvSet {α β : Type} [DecidableEq α] : List (α × β) → α → β → List (α × β)
  | [], k, v => [(k, v)]
  | (a, b) :: rest, k, v => if a = k then (a, v) :: rest else (a, b) :: kvSet rest k v

def kvPop {α β : Type} [DecidableEq α] : List (α × β) → α → List (α × β)
  | [], _ => []
  | (a, b) :: rest, k => if a = k then rest else (a, b) :: kvPop rest k

def kvKeys {α β : Type} (l : List (α × β)) : List α := l.map Prod.fst

/-- A stored record.  The simulator stores movie-metadata dicts; we model the
`title` field, which `ChordNode.get` filters on, plus an opaque payload. -/
structure Rec where
  title : String
  payload : Nat
deriving DecidableEq

/-! ### `src/common/metrics.py` -/

abbrev Metrics := List (String × List Nat)

/-- `Metrics.record`: `self.hops[op].append(int(hop_count))` on a
defaultdict(list). -/
def Metrics.record (ms : Metrics) (op : String) (hop_count : Nat) : Metrics :=
  match kvGet ms op with
  | some l => kvSet ms op (l ++ [hop_count])
  | none => ms ++ [(op, [hop_count])]

structure OpSummary where
  count : Nat
  mean : ℚ
  median : Nat
  p95 : Nat
deriving DecidableEq

/-- Index used for the 95th percentile.  The source computes
`int(0.95 * (n - 1))` in IEEE-double arithmetic; because the double nearest
0.95 is below 19/20 by only 0.4·2⁻⁵³, the rounded product truncates to
`⌊19 * (n - 1) / 20⌋` for every list length `n` below 2⁴⁹, which is the value
we embed. -/
def p95Index (n : Nat) : Nat := 19 * (n - 1) / 20

/-- `Metrics.summary`: per op with at least one observation, count, mean
(float division embedded as the exact rational), and the sorted values at the
median and p95 indices. -/
def Metrics.summary (ms : Metrics) : List (String × OpSummary) :=
  (ms.filter (fun p => decide (p.2 ≠ []))).map (fun p =>
    let values_sorted := sortNat p.2
    let n := values_sorted.length
    (p.1, { count := n
            mean := (values_sorted.sum : ℚ) / (n : ℚ)
            median := nth values_sorted (n / 2)
            p95 := nth values_sorted (p95Index n) }))

/-! ### RNG embedding -/

def getrandbits (f : Nat → Nat) (k m : Nat) : Nat × Nat := (f k % 2 ^ m, k + 1)

def rngChoice (f : Nat → Nat) (k : Nat) (xs : List Nat) : Nat × Nat :=
  (nth xs (f k % xs.length), k + 1)

/-- The fresh-id loop shared by `build` and `join`: draw `getrandbits(m)`
until the result avoids `avoid` (fuel-bounded). -/
def drawFresh (f : Nat → Nat) (m : Nat) (avoid : List Nat) :
    Nat → Nat → Option (Nat × Nat)
  | 0, _ => none
  | fuel + 1, k =>
      let r := getrandbits f k m
      if r.1 ∈ avoid then drawFresh f m avoid fuel r.2 else some r

/-- The id-generation loop of `build`: draw until `n_target` distinct ids
exist (fuel-bounded); returns the ids in insertion order plus the counter. -/
def buildIdsGo (f : Nat → Nat) (m n_target : Nat) :
    Nat → Nat → List Nat → Option (List Nat × Nat)
  | 0, k, acc => if acc.length < n_target then none else some (acc, k)
  | fuel + 1, k, acc =>
      if acc.length < n_target then
        let r := getrandbits f k m
        if r.1 ∈ acc then buildIdsGo f m n_target fuel r.2 acc
        else buildIdsGo f m n_target fuel r.2 (acc ++ [r.1])
      else some (acc, k)

/-- `count_changed(before, after)` (identical in both overlays' sources). -/
def count_changed {α : Type} [DecidableEq α] (before after : List (Nat × α)) : Nat :=
  before.foldl (fun acc p =>
    match kvGet after p.1 with
    | none => acc
    | some a => if a = p.2 then acc else acc + 1) 0

/-! ### `ChordNetwork`

Ring pointers and finger tables are rebuilt from `sorted_ids` by
`_rebuild_ring_and_fingers` after every membership change, so the embedding
derives them (`succOf`, `predOf`, `fingerOf`) instead of storing them. -/

structure ChordNet where
  m_bits : Nat
  nodes : List (Nat × List (Nat × List Rec))
  sorted_ids : List Nat
  metrics : Metrics
  rngF : Nat → Nat
  rngK : Nat

def chordRandomNode (net : ChordNet) : Nat × ChordNet :=
  let r := rngChoice net.rngF net.rngK net.sorted_ids
  (r.1, { net with rngK := r.2 })

/-- `_rebuild_ring_and_fingers` (the derived pointers need no storage). -/
def chordRebuild (net : ChordNet) : ChordNet :=
  { net with sorted_ids := sortNat (kvKeys net.nodes) }

/-- `snapshot_state(nodes)`: per node, (successor id, predecessor id, finger
id tuple). -/
def chordSnapshot (net : ChordNet) : List (Nat × (Nat × Nat × List Nat)) :=
  net.nodes.map (fun p =>
    (p.1, (succOf net.sorted_ids p.1, predOf net.sorted_ids p.1,
      (List.range net.m_bits).map (fingerOf net.m_bits net.sorted_ids p.1))))

/-- The reinsertion loop shared verbatim by `_rebalance_all_keys` and
`leave`: route each collected `key_id` from a random start and place its
record list at the destination, summing migration hops. -/
def chordReinsert : ChordNet → List (Nat × List Rec) → ChordNet × Nat
  | net, [] => (net, 0)
  | net, (key_id, vals) :: rest =>
      let r := chordRandomNode net
      let d := chordRoute r.2.m_bits r.2.sorted_ids r.1 key_id
      let net2 := { r.2 with
        nodes := kvSet r.2.nodes d.1
          (kvSet ((kvGet r.2.nodes d.1).getD []) key_id vals) }
      let res := chordReinsert net2 rest
      (res.1, d.2 + res.2)

/-- One `all_data.setdefault(key_id, []).extend(vals)` step of the
collection phase of `_rebalance_all_keys`. -/
def collectStep (acc2 : List (Nat × List Rec)) (q : Nat × List Rec) :
    List (Nat × List Rec) :=
  match kvGet acc2 q.1 with
  | some vs => kvSet acc2 q.1 (vs ++ q.2)
  | none => acc2 ++ [(q.1, q.2)]

/-- The collection phase of `_rebalance_all_keys` over every node's store. -/
def chordCollect (nodes : List (Nat × List (Nat × List Rec))) :
    List (Nat × List Rec) :=
  nodes.foldl (fun acc p => p.2.foldl collectStep acc) []

def chordClearStores (nodes : List (Nat × List (Nat × List Rec))) :
    List (Nat × List (Nat × List Rec)) :=
  nodes.map (fun p => (p.1, []))

/-- `ChordNetwork._rebalance_all_keys`. -/
def chordRebalance (net : ChordNet) : ChordNet × Nat :=
  if net.nodes = [] then (net, 0)
  else
    chordReinsert { net with nodes := chordClearStores net.nodes }
      (chordCollect net.nodes)

/-- `ChordNetwork.insert` (`none` when the network is empty: the random
start draw and `_route` both raise there). -/
def chordInsert (h : String → Nat) (net : ChordNet) (key : String)
    (value : Rec) : Option (ChordNet × Nat) :=
  if net.nodes = [] then none
  else
    let key_id := h key % 2 ^ net.m_bits
    let r := chordRandomNode net
    let d := chordRoute r.2.m_bits r.2.sorted_ids r.1 key_id
    some ({ r.2 with
      nodes := kvSet r.2.nodes d.1
        (kvSet ((kvGet r.2.nodes d.1).getD []) key_id [value])
      metrics := Metrics.record r.2.metrics "insert" d.2 }, d.2)

/-- `ChordNetwork.lookup`: `recs[0] if recs else None`. -/
def chordLookup (h : String → Nat) (net : ChordNet) (key : String) :
    Option (Option Rec × ChordNet × Nat) :=
  if net.nodes = [] then none
  else
    let key_id := h key % 2 ^ net.m_bits
    let r := chordRandomNode net
    let d := chordRoute r.2.m_bits r.2.sorted_ids r.1 key_id
    let val : Option Rec :=
      match kvGet ((kvGet r.2.nodes d.1).getD []) key_id with
      | some (v :: _) => some v
      | _ => none
    some (val, { r.2 with metrics := Metrics.record r.2.metrics "lookup" d.2 }, d.2)

/-- `ChordNetwork.update` (same store write as insert). -/
def chordUpdate (h : String → Nat) (net : ChordNet) (key : String)
    (value : Rec) : Option (ChordNet × Nat) :=
  if net.nodes = [] then none
  else
    let key_id := h key % 2 ^ net.m_bits
    let r := chordRandomNode net
    let d := chordRoute r.2.m_bits r.2.sorted_ids r.1 key_id
    some ({ r.2 with
      nodes := kvSet r.2.nodes d.1
        (kvSet ((kvGet r.2.nodes d.1).getD []) key_id [value])
      metrics := Metrics.record r.2.metrics "update" d.2 }, d.2)

/-- `ChordNetwork.delete`: `dest.data.pop(key_id, None)`. -/
def chordDelete (h : String → Nat) (net : ChordNet) (key : String) :
    Option (ChordNet × Nat) :=
  if net.nodes = [] then none
  else
    let key_id := h key % 2 ^ net.m_bits
    let r := chordRandomNode net
    let d := chordRoute r.2.m_bits r.2.sorted_ids r.1 key_id
    some ({ r.2 with
      nodes := kvSet r.2.nodes d.1 (kvPop ((kvGet r.2.nodes d.1).getD []) key_id)
      metrics := Metrics.record r.2.metrics "delete" d.2 }, d.2)

/-- `ChordNetwork.join` (fuel bounds the fresh-id draw loop). -/
def chordJoin (fuel : Nat) (net : ChordNet) : Option (ChordNet × Nat) :=
  if net.nodes = [] then
    let r := getrandbits net.rngF net.rngK net.m_bits
    let net1 := chordRebuild { net with nodes := [(r.1, [])], rngK := r.2 }
    some ({ net1 with metrics := Metrics.record net1.metrics "join" 0 }, 0)
  else
    let before := chordSnapshot net
    match drawFresh net.rngF net.m_bits (kvKeys net.nodes) fuel net.rngK with
    | none => none
    | some (new_id, k1) =>
        let r := chordRandomNode { net with rngK := k1 }
        let d := chordRoute r.2.m_bits r.2.sorted_ids r.1 new_id
        let net3 := chordRebuild { r.2 with nodes := r.2.nodes ++ [(new_id, [])] }
        let reb := chordRebalance net3
        let total := d.2 + count_changed before (chordSnapshot reb.1) + reb.2
        some ({ reb.1 with metrics := Metrics.record reb.1.metrics "join" total },
          total)

/-- The body of `ChordNetwork.leave` once `node_id` is fixed (after the
`node_id is None` random pick). -/
def chordLeaveAt (net : ChordNet) (node_id : Nat) : ChordNet × Nat :=
  if node_id ∈ kvKeys net.nodes then
    let all_data := chordCollect net.nodes
    let before := chordSnapshot net
    let net2 := { net with nodes := kvPop net.nodes node_id }
    let res : ChordNet × Nat :=
      if net2.nodes = [] then (net2, 0)
      else
        let net3 := chordRebuild net2
        chordReinsert { net3 with nodes := chordClearStores net3.nodes } all_data
    let total := count_changed before (chordSnapshot res.1) + res.2
    ({ res.1 with metrics := Metrics.record res.1.metrics "leave" total }, total)
  else
    ({ net with metrics := Metrics.record net.metrics "leave" 0 }, 0)

/-- `ChordNetwork.leave` (argument `none` = pick a random live node). -/
def chordLeave (net : ChordNet) (nodeIdArg : Option Nat) : ChordNet × Nat :=
  if net.nodes = [] then
    ({ net with metrics := Metrics.record net.metrics "leave" 0 }, 0)
  else
    match nodeIdArg with
    | none => chordLeaveAt (chordRandomNode net).2 (chordRandomNode net).1
    | some nid => chordLeaveAt net nid

/-- `ChordNetwork.build(n_nodes, seed)`. -/
def chordBuild (mt : Nat → Nat → Nat) (fuel : Nat) (net : ChordNet)
    (n_nodes seed : Nat) : Option ChordNet :=
  match buildIdsGo (mt seed) net.m_bits n_nodes fuel 0 [] with
  | none => none
  | some (ids, k) =>
      some (chordRebuild { net with
        nodes := ids.map (fun nid => (nid, []))
        metrics := []
        rngF := mt seed
        rngK := k })

/-! ### `PastryNetwork`

Leaf sets and routing tables are rebuilt by `_rebuild_structures` from the
sorted membership after every change, so the embedding derives them.  The
hex base is fixed at 16 as in the source default. -/

structure PastryNet where
  leaf_L : Nat
  nodes : List (Nat × List (String × Rec))
  metrics : Metrics
  rngF : Nat → Nat
  rngK : Nat

def pastryRandomNode (net : PastryNet) : Nat × PastryNet :=
  let r := rngChoice net.rngF net.rngK (kvKeys net.nodes)
  (r.1, { net with rngK := r.2 })

/-- Injective code for a routing-table item `(row, col, dest)`, so that a
sorted code list is equality-equivalent to the sorted tuple list built by
`snapshot_state`. -/
def rtItemCode (r c dest : Nat) : Nat := (r * 16 + c) * MOD + dest

/-- `snapshot_state(nodes)` of the prefix overlay: per node, the sorted leaf
list and the sorted routing-table items. -/
def pastrySnapshot (net : PastryNet) : List (Nat × (List Nat × List Nat)) :=
  let ids := sortNat (kvKeys net.nodes)
  net.nodes.map (fun p =>
    (p.1, (sortNat (leafRebuild net.leaf_L p.1 ids),
      sortNat ((rtRebuild p.1 ids).enum.bind (fun rc =>
        rc.2.map (fun cd => rtItemCode rc.1 cd.1 cd.2))))))

/-- The reinsertion loop shared by `_rebalance_all_keys` and `leave`. -/
def pastryReinsert (h : String → Nat) :
    PastryNet → List (String × Rec) → Option (PastryNet × Nat)
  | net, [] => some (net, 0)
  | net, (key, value) :: rest =>
      let r := pastryRandomNode net
      match pastryRoute r.2.leaf_L (kvKeys r.2.nodes) r.1 (h key) with
      | none => none
      | some (dest, hops) =>
          match pastryReinsert h { r.2 with
              nodes := kvSet r.2.nodes dest
                (kvSet ((kvGet r.2.nodes dest).getD []) key value) } rest with
          | none => none
          | some (net3, mig) => some (net3, hops + mig)

/-- The collection phase: `all_items.extend(node.kv_store.items())`. -/
def pastryCollect (nodes : List (Nat × List (String × Rec))) :
    List (String × Rec) :=
  nodes.bind (fun p => p.2)

def pastryClearStores (nodes : List (Nat × List (String × Rec))) :
    List (Nat × List (String × Rec)) :=
  nodes.map (fun p => (p.1, []))

/-- `PastryNetwork._rebalance_all_keys`. -/
def pastryRebalance (h : String → Nat) (net : PastryNet) :
    Option (PastryNet × Nat) :=
  if net.nodes = [] then some (net, 0)
  else
    pastryReinsert h { net with nodes := pastryClearStores net.nodes }
      (pastryCollect net.nodes)

/-- `PastryNetwork.insert`: `insert_at` sets `kv_store[key] = value` at the
route destination. -/
def pastryInsert (h : String → Nat) (net : PastryNet) (key : String)
    (value : Rec) : Option (PastryNet × Nat) :=
  if net.nodes = [] then none
  else
    let r := pastryRandomNode net
    match pastryRoute r.2.leaf_L (kvKeys r.2.nodes) r.1 (h key) with
    | none => none
    | some (dest, hops) =>
        some ({ r.2 with
          nodes := kvSet r.2.nodes dest
            (kvSet ((kvGet r.2.nodes dest).getD []) key value)
          metrics := Metrics.record r.2.metrics "insert" hops }, hops)

/-- `PastryNetwork.lookup`: `lookup_at` reads `kv_store.get(key)` at the
route destination. -/
def pastryLookup (h : String → Nat) (net : PastryNet) (key : String) :
    Option (Option Rec × PastryNet × Nat) :=
  if net.nodes = [] then none
  else
    let r := pastryRandomNode net
    match pastryRoute r.2.leaf_L (kvKeys r.2.nodes) r.1 (h key) with
    | none => none
    | some (dest, hops) =>
        some (kvGet ((kvGet r.2.nodes dest).getD []) key,
          { r.2 with metrics := Metrics.record r.2.metrics "lookup" hops }, hops)

/-- `PastryNetwork.update` (`update_at` has the same body as `insert_at`). -/
def pastryUpdate (h : String → Nat) (net : PastryNet) (key : String)
    (value : Rec) : Option (PastryNet × Nat) :=
  if net.nodes = [] then none
  else
    let r := pastryRandomNode net
    match pastryRoute r.2.leaf_L (kvKeys r.2.nodes) r.1 (h key) with
    | none => none
    | some (dest, hops) =>
        some ({ r.2 with
          nodes := kvSet r.2.nodes dest
            (kvSet ((kvGet r.2.nodes dest).getD []) key value)
          metrics := Metrics.record r.2.metrics "update" hops }, hops)

/-- `PastryNetwork.delete`: `delete_at` pops the key. -/
def pastryDelete (h : String → Nat) (net : PastryNet) (key : String) :
    Option (PastryNet × Nat) :=
  if net.nodes = [] then none
  else
    let r := pastryRandomNode net
    match pastryRoute r.2.leaf_L (kvKeys r.2.nodes) r.1 (h key) with
    | none => none
    | some (dest, hops) =>
        some ({ r.2 with
          nodes := kvSet r.2.nodes dest
            (kvPop ((kvGet r.2.nodes dest).getD []) key)
          metrics := Metrics.record r.2.metrics "delete" hops }, hops)

/-- `PastryNetwork.join`. -/
def pastryJoin (h : String → Nat) (fuel : Nat) (net : PastryNet) :
    Option (PastryNet × Nat) :=
  if net.nodes = [] then
    let r := getrandbits net.rngF net.rngK ID_BITS
    let net1 := { net with nodes := [(r.1, [])], rngK := r.2 }
    some ({ net1 with metrics := Metrics.record net1.metrics "join" 0 }, 0)
  else
    let before := pastrySnapshot net
    match drawFresh net.rngF ID_BITS (kvKeys net.nodes) fuel net.rngK with
    | none => none
    | some (new_id, k1) =>
        let r := pastryRandomNode { net with rngK := k1 }
        match pastryRoute r.2.leaf_L (kvKeys r.2.nodes) r.1 new_id with
        | none => none
        | some (_, route_hops) =>
            let net3 := { r.2 with nodes := r.2.nodes ++ [(new_id, [])] }
            match pastryRebalance h net3 with
            | none => none
            | some (net4, migration_hops) =>
                let total := route_hops +
                  count_changed before (pastrySnapshot net4) + migration_hops
                some ({ net4 with
                  metrics := Metrics.record net4.metrics "join" total }, total)

/-- The body of `PastryNetwork.leave` once `node_id` is fixed. -/
def pastryLeaveAt (h : String → Nat) (net : PastryNet) (node_id : Nat) :
    Option (PastryNet × Nat) :=
  if node_id ∈ kvKeys net.nodes then
    let all_items := pastryCollect net.nodes
    let before := pastrySnapshot net
    let net2 := { net with nodes := kvPop net.nodes node_id }
    let res : Option (PastryNet × Nat) :=
      if net2.nodes = [] then some (net2, 0)
      else
        pastryReinsert h { net2 with nodes := pastryClearStores net2.nodes }
          all_items
    match res with
    | none => none
    | some (net5, migration_hops) =>
        let total := count_changed before (pastrySnapshot net5) + migration_hops
        some ({ net5 with
          metrics := Metrics.record net5.metrics "leave" total }, total)
  else
    some ({ net with metrics := Metrics.record net.metrics "leave" 0 }, 0)

/-- `PastryNetwork.leave` (argument `none` = pick a random live node). -/
def pastryLeave (h : String → Nat) (net : PastryNet) (nodeIdArg : Option Nat) :
    Option (PastryNet × Nat) :=
  if net.nodes = [] then
    some ({ net with metrics := Metrics.record net.metrics "leave" 0 }, 0)
  else
    match nodeIdArg with
    | none => pastryLeaveAt h (pastryRandomNode net).2 (pastryRandomNode net).1
    | some nid => pastryLeaveAt h net nid

/-- `PastryNetwork.build(n_nodes, seed)`. -/
def pastryBuild (mt : Nat → Nat → Nat) (fuel : Nat) (net : PastryNet)
    (n_nodes seed : Nat) : Option PastryNet :=
  match buildIdsGo (mt seed) ID_BITS n_nodes fuel 0 [] with
  | none => none
  | some (ids, k) =>
      some { net with
        nodes := ids.map (fun nid => (nid, []))
        metrics := []
        rngF := mt seed
        rngK := k }

/-! ### Bare `ChordNode` put/get (single-node ring)

A node created by `join(None)` has `successor = predecessor = self`; on such
a node `find_predecessor`'s guard `in_interval(key, id, id, True)` holds for
every key (proved below), so `find_successor` returns the node itself and
`put`/`get` act on the local store.  `ChordNode.hash_key` (full SHA-1 digest
mod `2 ^ m`) is an arbitrary parameter `hk` reduced mod `2 ^ m`. -/

structure BareNode where
  id : Nat
  m : Nat
  data : List (Nat × List Rec)

def nodeHashKey (hk : String → Nat) (m : Nat) (key : String) : Nat :=
  hk key % 2 ^ m

/-- `ChordNode.put`: append `value` to the record list under the hashed
key. -/
def nodePut (hk : String → Nat) (nd : BareNode) (key : String) (value : Rec) :
    BareNode :=
  let key_id := nodeHashKey hk nd.m key
  { nd with
    data := kvSet nd.data key_id (((kvGet nd.data key_id).getD []) ++ [value]) }

/-- `ChordNode.get`: the stored record list filtered by exact title. -/
def nodeGet (hk : String → Nat) (nd : BareNode) (key : String) :
    Option (List Rec) :=
  match kvGet nd.data (nodeHashKey hk nd.m key) with
  | none => none
  | some records => some (records.filter (fun r => r.title == key))

/-! ### Association-list (dict) lemmas -/

theorem kvGet_kvSet_self {α β : Type} [DecidableEq α] (l : List (α × β)) (k : α)
    (v : β) : kvGet (kvSet l k v) k = some v := by
  induction l with
  | nil => simp [kvSet, kvGet]
  | cons p rest ih =>
      obtain ⟨a, b⟩ := p
      by_cases hak : a = k
      · simp [kvSet, kvGet, hak]
      · simp [kvSet, kvGet, hak, ih]

theorem kvGet_kvSet_ne {α β : Type} [DecidableEq α] (l : List (α × β)) (k k' : α)
    (v : β) (h : k' ≠ k) : kvGet (kvSet l k v) k' = kvGet l k' := by
  induction l with
  | nil => simp [kvSet, kvGet, Ne.symm h]
  | cons p rest ih =>
      obtain ⟨a, b⟩ := p
      by_cases hak : a = k
      · subst hak
        simp [kvSet, kvGet, Ne.symm h]
      · simp only [kvSet, if_neg hak]
        by_cases hak' : a = k'
        · simp [kvGet, hak']
        · simp [kvGet, hak', ih]

theorem kvKeys_kvSet {α β : Type} [DecidableEq α] (l : List (α × β)) (k : α)
    (v : β) : kvKeys (kvSet l k v) =
      if k ∈ kvKeys l then kvKeys l else kvKeys l ++ [k] := by
  induction l with
  | nil => simp [kvSet, kvKeys]
  | cons p rest ih =>
      obtain ⟨a, b⟩ := p
      by_cases hak : a = k
      · subst hak
        simp [kvSet, kvKeys]
      · simp only [kvSet, if_neg hak, kvKeys, List.map_cons] at ih ⊢
        rw [ih]
        by_cases hk : k ∈ List.map Prod.fst rest
        · simp [hk, Ne.symm hak]
        · simp [hk, Ne.symm hak]

theorem kvGet_eq_none {α β : Type} [DecidableEq α] (l : List (α × β)) (k : α) :
    kvGet l k = none ↔ k ∉ kvKeys l := by
  induction l with
  | nil => simp [kvGet, kvKeys]
  | cons p rest ih =>
      obtain ⟨a, b⟩ := p
      by_cases hak : a = k
      · simp [kvGet, kvKeys, hak]
      · simp [kvGet, kvKeys, hak, ih, Ne.symm hak]

theorem kvKeys_kvPop {α β : Type} [DecidableEq α] (l : List (α × β)) (k : α) :
    kvKeys (kvPop l k) = (kvKeys l).erase k := by
  induction l with
  | nil => simp [kvPop, kvKeys]
  | cons p rest ih =>
      obtain ⟨a, b⟩ := p
      by_cases hak : a = k
      · subst hak
        simp [kvPop, kvKeys, List.erase_cons_head]
      · simp only [kvPop, if_neg hak, kvKeys, List.map_cons] at ih ⊢
        rw [List.erase_cons_tail, ih]
        simp [hak]

theorem kvKeys_kvSet_of_mem {α β : Type} [DecidableEq α] (l : List (α × β))
    (k : α) (v : β) (h : k ∈ kvKeys l) : kvKeys (kvSet l k v) = kvKeys l := by
  rw [kvKeys_kvSet, if_pos h]

/-! ### Random draw helpers -/

theorem rngChoice_mem (f : Nat → Nat) (k : Nat) (xs : List Nat) (hne : xs ≠ []) :
    (rngChoice f k xs).1 ∈ xs :=
  nth_mem xs _ (Nat.mod_lt _ (List.length_pos.mpr hne))

theorem drawFresh_spec (f : Nat → Nat) (m : Nat) (avoid : List Nat) :
    ∀ fuel k nid k', drawFresh f m avoid fuel k = some (nid, k') →
      nid ∉ avoid ∧ nid < 2 ^ m := by
  intro fuel
  induction fuel with
  | zero => intro k nid k' h; simp [drawFresh] at h
  | succ fuel ih =>
      intro k nid k' h
      unfold drawFresh at h
      by_cases hm : f k % 2 ^ m ∈ avoid
      · rw [if_pos (by simpa [getrandbits] using hm)] at h
        exact ih _ _ _ h
      · rw [if_neg (by simpa [getrandbits] using hm)] at h
        simp only [getrandbits, Option.some.injEq, Prod.mk.injEq] at h
        refine ⟨h.1 ▸ hm, h.1 ▸ Nat.mod_lt _ (Nat.pos_pow_of_pos m (by omega))⟩

theorem buildIdsGo_spec (f : Nat → Nat) (m n_target : Nat) :
    ∀ fuel k acc ids k', acc.Nodup → (∀ x ∈ acc, x < 2 ^ m) →
      buildIdsGo f m n_target fuel k acc = some (ids, k') →
      ids.Nodup ∧ ∀ x ∈ ids, x < 2 ^ m := by
  intro fuel
  induction fuel with
  | zero =>
      intro k acc ids k' hnd hb h
      unfold buildIdsGo at h
      split_ifs at h
      simp only [Option.some.injEq, Prod.mk.injEq] at h
      exact ⟨h.1 ▸ hnd, h.1 ▸ hb⟩
  | succ fuel ih =>
      intro k acc ids k' hnd hb h
      unfold buildIdsGo at h
      by_cases h1 : acc.length < n_target
      · rw [if_pos h1] at h
        simp only [getrandbits] at h
        by_cases h2 : f k % 2 ^ m ∈ acc
        · rw [if_pos h2] at h
          exact ih _ _ _ _ hnd hb h
        · rw [if_neg h2] at h
          refine ih _ _ _ _ ?_ ?_ h
          · refine List.Nodup.append hnd (List.nodup_singleton _) ?_
            intro a ha hmem
            simp only [List.mem_singleton] at hmem
            exact h2 (hmem ▸ ha)
          · intro x hx
            rcases List.mem_append.mp hx with hx | hx
            · exact hb x hx
            · simp only [List.mem_singleton] at hx
              subst hx
              exact Nat.mod_lt _ (Nat.pos_pow_of_pos m (by omega))
      · rw [if_neg h1] at h
        simp only [Option.some.injEq, Prod.mk.injEq] at h
        exact ⟨h.1 ▸ hnd, h.1 ▸ hb⟩

/-! ### Consistency invariants

The sources rebuild the derived structures immediately after every
membership change, so a network reachable through the contract API always
satisfies these. -/

/-- `ChordNetwork` state consistency: `sorted_ids` is the sorted key list,
node ids are distinct and live in the id space. -/
def ChordConsistent (net : ChordNet) : Prop :=
  net.sorted_ids = sortNat (kvKeys net.nodes) ∧
  (kvKeys net.nodes).Nodup ∧
  ∀ x ∈ kvKeys net.nodes, x < 2 ^ net.m_bits

/-- `PastryNetwork` state consistency: node ids are distinct and live in the
id space (the prefix overlay stores no derived ring fields). -/
def PastryConsistent (net : PastryNet) : Prop :=
  (kvKeys net.nodes).Nodup ∧ ∀ x ∈ kvKeys net.nodes, x < MOD

theorem chordConsistent_sorted (net : ChordNet) (h : ChordConsistent net) :
    List.Sorted (· < ·) net.sorted_ids := by
  rw [h.1]
  exact sortNat_sorted_lt _ h.2.1

theorem chordConsistent_mem_iff (net : ChordNet) (h : ChordConsistent net)
    (x : Nat) : x ∈ net.sorted_ids ↔ x ∈ kvKeys net.nodes := by
  rw [h.1]
  exact (sortNat_perm _).mem_iff

theorem chordConsistent_bounds (net : ChordNet) (h : ChordConsistent net) :
    ∀ x ∈ net.sorted_ids, x < 2 ^ net.m_bits := fun x hx =>
  h.2.2 x ((chordConsistent_mem_iff net h x).mp hx)

theorem chordConsistent_ids_ne (net : ChordNet) (h : ChordConsistent net)
    (hne : net.nodes ≠ []) : net.sorted_ids ≠ [] := by
  intro h0
  apply hne
  cases hn : net.nodes with
  | nil => rfl
  | cons p rest =>
      exfalso
      have : p.1 ∈ net.sorted_ids := by
        rw [chordConsistent_mem_iff net h, hn]
        exact List.mem_map_of_mem Prod.fst (List.mem_cons_self p rest)
      rw [h0] at this
      simp at this

theorem kvKeys_chordClearStores (nodes : List (Nat × List (Nat × List Rec))) :
    kvKeys (chordClearStores nodes) = kvKeys nodes := by
  unfold chordClearStores kvKeys
  rw [List.map_map]
  rfl

theorem kvKeys_pastryClearStores (nodes : List (Nat × List (String × Rec))) :
    kvKeys (pastryClearStores nodes) = kvKeys nodes := by
  unfold pastryClearStores kvKeys
  rw [List.map_map]
  rfl

theorem chordRoute_dest_mem (m : Nat) (ids : List Nat) (start t : Nat)
    (hne : ids ≠ []) (hstart : start ∈ ids) : (chordRoute m ids start t).1 ∈ ids :=
  chordRouteGo_dest_mem m ids t hne _ _ _ _ hstart

theorem chordReinsert_fields : ∀ (entries : List (Nat × List Rec)) (net : ChordNet),
    (chordReinsert net entries).1.sorted_ids = net.sorted_ids ∧
    (chordReinsert net entries).1.m_bits = net.m_bits ∧
    (chordReinsert net entries).1.metrics = net.metrics := by
  intro entries
  induction entries with
  | nil => intro net; exact ⟨rfl, rfl, rfl⟩
  | cons e rest ih =>
      obtain ⟨key_id, vals⟩ := e
      intro net
      exact ih _

theorem chordReinsert_keys : ∀ (entries : List (Nat × List Rec)) (net : ChordNet),
    net.sorted_ids ≠ [] → (∀ x, x ∈ net.sorted_ids → x ∈ kvKeys net.nodes) →
    kvKeys (chordReinsert net entries).1.nodes = kvKeys net.nodes := by
  intro entries
  induction entries with
  | nil => intro net _ _; rfl
  | cons e rest ih =>
      obtain ⟨key_id, vals⟩ := e
      intro net hne hsub
      have hdest : (chordRoute net.m_bits net.sorted_ids
          (rngChoice net.rngF net.rngK net.sorted_ids).1 key_id).1 ∈ net.sorted_ids :=
        chordRoute_dest_mem _ _ _ _ hne (rngChoice_mem _ _ _ hne)
      have hkeys : kvKeys (kvSet net.nodes
          (chordRoute net.m_bits net.sorted_ids
            (rngChoice net.rngF net.rngK net.sorted_ids).1 key_id).1
          (kvSet ((kvGet net.nodes (chordRoute net.m_bits net.sorted_ids
            (rngChoice net.rngF net.rngK net.sorted_ids).1 key_id).1).getD [])
            key_id vals)) = kvKeys net.nodes :=
        kvKeys_kvSet_of_mem _ _ _ (hsub _ hdest)
      refine Eq.trans (ih _ ?_ ?_) hkeys
      · exact hne
      · exact fun x hx => hkeys.symm ▸ hsub x hx

theorem chordRebalance_consistent (net : ChordNet) (hc : ChordConsistent net)
    (hne : net.nodes ≠ []) :
    ChordConsistent (chordRebalance net).1 ∧
      (chordRebalance net).1.sorted_ids = net.sorted_ids ∧
      (chordRebalance net).1.m_bits = net.m_bits ∧
      kvKeys (chordRebalance net).1.nodes = kvKeys net.nodes := by
  unfold chordRebalance
  rw [if_neg hne]
  have hids : net.sorted_ids ≠ [] := chordConsistent_ids_ne net hc hne
  have hclear : kvKeys (chordClearStores net.nodes) = kvKeys net.nodes :=
    kvKeys_chordClearStores net.nodes
  have hsub : ∀ x, x ∈ net.sorted_ids → x ∈ kvKeys (chordClearStores net.nodes) :=
    fun x hx => hclear.symm ▸ (chordConsistent_mem_iff net hc x).mp hx
  have hkeys := chordReinsert_keys (chordCollect net.nodes)
    { net with nodes := chordClearStores net.nodes } hids hsub
  have hflds := chordReinsert_fields (chordCollect net.nodes)
    { net with nodes := chordClearStores net.nodes }
  rw [hclear] at hkeys
  refine ⟨⟨?_, ?_, ?_⟩, hflds.1, hflds.2.1, hkeys⟩
  · rw [hflds.1, hkeys]
    exact hc.1
  · rw [hkeys]
    exact hc.2.1
  · rw [hkeys, hflds.2.1]
    exact hc.2.2

theorem chordInsert_consistent (h : String → Nat) (net : ChordNet) (key : String)
    (v : Rec) (net' : ChordNet) (hops : Nat) (hc : ChordConsistent net)
    (heq : chordInsert h net key v = some (net', hops)) :
    ChordConsistent net' ∧ net'.m_bits = net.m_bits ∧
      kvKeys net'.nodes = kvKeys net.nodes ∧ net'.sorted_ids = net.sorted_ids := by
  unfold chordInsert at heq
  by_cases hne : net.nodes = []
  · rw [if_pos hne] at heq
    exact absurd heq (by simp)
  · rw [if_neg hne] at heq
    have hids : net.sorted_ids ≠ [] := chordConsistent_ids_ne net hc hne
    have hdest : (chordRoute net.m_bits net.sorted_ids
        (rngChoice net.rngF net.rngK net.sorted_ids).1 (h key % 2 ^ net.m_bits)).1 ∈
          net.sorted_ids :=
      chordRoute_dest_mem _ _ _ _ hids (rngChoice_mem _ _ _ hids)
    have hkeys : kvKeys (kvSet net.nodes
        (chordRoute net.m_bits net.sorted_ids
          (rngChoice net.rngF net.rngK net.sorted_ids).1 (h key % 2 ^ net.m_bits)).1
        (kvSet ((kvGet net.nodes (chordRoute net.m_bits net.sorted_ids
          (rngChoice net.rngF net.rngK net.sorted_ids).1
          (h key % 2 ^ net.m_bits)).1).getD []) (h key % 2 ^ net.m_bits) [v])) =
        kvKeys net.nodes :=
      kvKeys_kvSet_of_mem _ _ _ ((chordConsistent_mem_iff net hc _).mp hdest)
    simp only [Option.some.injEq, Prod.mk.injEq] at heq
    obtain ⟨hnet, _⟩ := heq
    subst hnet
    exact ⟨⟨hc.1.trans (congrArg sortNat hkeys.symm), hkeys.symm ▸ hc.2.1,
      fun x hx => hc.2.2 x (hkeys ▸ hx)⟩, rfl, hkeys, rfl⟩

theorem chordConsistent_of_keys_eq (net net' : ChordNet) (hc : ChordConsistent net)
    (hkeys : kvKeys net'.nodes = kvKeys net.nodes)
    (hsid : net'.sorted_ids = net.sorted_ids) (hm : net'.m_bits = net.m_bits) :
    ChordConsistent net' := by
  refine ⟨?_, hkeys ▸ hc.2.1, ?_⟩
  · rw [hsid, hkeys]
    exact hc.1
  · intro x hx
    rw [hm]
    exact hc.2.2 x (hkeys ▸ hx)

theorem chordRebuild_consistent (net : ChordNet) (hnd : (kvKeys net.nodes).Nodup)
    (hb : ∀ x ∈ kvKeys net.nodes, x < 2 ^ net.m_bits) :
    ChordConsistent (chordRebuild net) := ⟨rfl, hnd, hb⟩

theorem chordLookup_consistent (h : String → Nat) (net : ChordNet) (key : String)
    (res : Option Rec) (net' : ChordNet) (hops : Nat) (hc : ChordConsistent net)
    (heq : chordLookup h net key = some (res, net', hops)) :
    ChordConsistent net' ∧ net'.m_bits = net.m_bits ∧
      kvKeys net'.nodes = kvKeys net.nodes ∧ net'.sorted_ids = net.sorted_ids := by
  unfold chordLookup at heq
  by_cases hne : net.nodes = []
  · rw [if_pos hne] at heq
    exact absurd heq (by simp)
  · rw [if_neg hne] at heq
    simp only [Option.some.injEq, Prod.mk.injEq] at heq
    obtain ⟨-, hnet, -⟩ := heq
    subst hnet
    exact ⟨hc, rfl, rfl, rfl⟩

theorem chordUpdate_consistent (h : String → Nat) (net : ChordNet) (key : String)
    (v : Rec) (net' : ChordNet) (hops : Nat) (hc : ChordConsistent net)
    (heq : chordUpdate h net key v = some (net', hops)) :
    ChordConsistent net' ∧ net'.m_bits = net.m_bits ∧
      kvKeys net'.nodes = kvKeys net.nodes ∧ net'.sorted_ids = net.sorted_ids := by
  unfold chordUpdate at heq
  by_cases hne : net.nodes = []
  · rw [if_pos hne] at heq
    exact absurd heq (by simp)
  · rw [if_neg hne] at heq
    have hids : net.sorted_ids ≠ [] := chordConsistent_ids_ne net hc hne
    have hdest : (chordRoute net.m_bits net.sorted_ids
        (rngChoice net.rngF net.rngK net.sorted_ids).1 (h key % 2 ^ net.m_bits)).1 ∈
          net.sorted_ids :=
      chordRoute_dest_mem _ _ _ _ hids (rngChoice_mem _ _ _ hids)
    have hkeys : kvKeys (kvSet net.nodes
        (chordRoute net.m_bits net.sorted_ids
          (rngChoice net.rngF net.rngK net.sorted_ids).1 (h key % 2 ^ net.m_bits)).1
        (kvSet ((kvGet net.nodes (chordRoute net.m_bits net.sorted_ids
          (rngChoice net.rngF net.rngK net.sorted_ids).1
          (h key % 2 ^ net.m_bits)).1).getD []) (h key % 2 ^ net.m_bits) [v])) =
        kvKeys net.nodes :=
      kvKeys_kvSet_of_mem _ _ _ ((chordConsistent_mem_iff net hc _).mp hdest)
    simp only [Option.some.injEq, Prod.mk.injEq] at heq
    obtain ⟨hnet, -⟩ := heq
    subst hnet
    exact ⟨⟨hc.1.trans (congrArg sortNat hkeys.symm), hkeys.symm ▸ hc.2.1,
      fun x hx => hc.2.2 x (hkeys ▸ hx)⟩, rfl, hkeys, rfl⟩

theorem chordDelete_consistent (h : String → Nat) (net : ChordNet) (key : String)
    (net' : ChordNet) (hops : Nat) (hc : ChordConsistent net)
    (heq : chordDelete h net key = some (net', hops)) :
    ChordConsistent net' ∧ net'.m_bits = net.m_bits ∧
      kvKeys net'.nodes = kvKeys net.nodes ∧ net'.sorted_ids = net.sorted_ids := by
  unfold chordDelete at heq
  by_cases hne : net.nodes = []
  · rw [if_pos hne] at heq
    exact absurd heq (by simp)
  · rw [if_neg hne] at heq
    have hids : net.sorted_ids ≠ [] := chordConsistent_ids_ne net hc hne
    have hdest : (chordRoute net.m_bits net.sorted_ids
        (rngChoice net.rngF net.rngK net.sorted_ids).1 (h key % 2 ^ net.m_bits)).1 ∈
          net.sorted_ids :=
      chordRoute_dest_mem _ _ _ _ hids (rngChoice_mem _ _ _ hids)
    have hkeys : kvKeys (kvSet net.nodes
        (chordRoute net.m_bits net.sorted_ids
          (rngChoice net.rngF net.rngK net.sorted_ids).1 (h key % 2 ^ net.m_bits)).1
        (kvPop ((kvGet net.nodes (chordRoute net.m_bits net.sorted_ids
          (rngChoice net.rngF net.rngK net.sorted_ids).1
          (h key % 2 ^ net.m_bits)).1).getD []) (h key % 2 ^ net.m_bits))) =
        kvKeys net.nodes :=
      kvKeys_kvSet_of_mem _ _ _ ((chordConsistent_mem_iff net hc _).mp hdest)
    simp only [Option.some.injEq, Prod.mk.injEq] at heq
    obtain ⟨hnet, -⟩ := heq
    subst hnet
    exact ⟨⟨hc.1.trans (congrArg sortNat hkeys.symm), hkeys.symm ▸ hc.2.1,
      fun x hx => hc.2.2 x (hkeys ▸ hx)⟩, rfl, hkeys, rfl⟩

theorem chordJoin_consistent (fuel : Nat) (net : ChordNet) (net' : ChordNet)
    (cost : Nat) (hc : ChordConsistent net)
    (heq : chordJoin fuel net = some (net', cost)) :
    ChordConsistent net' ∧ net'.m_bits = net.m_bits := by
  unfold chordJoin at heq
  by_cases hne : net.nodes = []
  · rw [if_pos hne] at heq
    simp only [Option.some.injEq, Prod.mk.injEq] at heq
    obtain ⟨hnet, -⟩ := heq
    subst hnet
    refine ⟨⟨rfl, ?_, ?_⟩, rfl⟩
    · simp [kvKeys, chordRebuild]
    · intro x hx
      simp only [chordRebuild, kvKeys, List.map_cons, List.map_nil,
        List.mem_singleton] at hx
      subst hx
      exact Nat.mod_lt _ (Nat.pos_pow_of_pos _ (by omega))
  · rw [if_neg hne] at heq
    cases hdraw : drawFresh net.rngF net.m_bits (kvKeys net.nodes) fuel net.rngK with
    | none =>
        rw [hdraw] at heq
        exact absurd heq (by simp)
    | some pr =>
        obtain ⟨new_id, k1⟩ := pr
        rw [hdraw] at heq
        obtain ⟨hnotin, hlt⟩ := drawFresh_spec net.rngF net.m_bits (kvKeys net.nodes)
          fuel net.rngK new_id k1 hdraw
        simp only [Option.some.injEq, Prod.mk.injEq] at heq
        obtain ⟨hnet, -⟩ := heq
        subst hnet
        have hkeys3 : kvKeys (net.nodes ++ [(new_id, ([] : List (Nat × List Rec)))]) =
            kvKeys net.nodes ++ [new_id] := by
          simp [kvKeys]
        have hnd3 : (kvKeys (net.nodes ++ [(new_id, ([] : List (Nat × List Rec)))])).Nodup := by
          rw [hkeys3]
          refine List.Nodup.append hc.2.1 (List.nodup_singleton _) ?_
          intro a ha hmem
          simp only [List.mem_singleton] at hmem
          exact hnotin (hmem ▸ ha)
        have hb3 : ∀ x ∈ kvKeys (net.nodes ++ [(new_id, ([] : List (Nat × List Rec)))]),
            x < 2 ^ net.m_bits := by
          rw [hkeys3]
          intro x hx
          rcases List.mem_append.mp hx with hx | hx
          · exact hc.2.2 x hx
          · simp only [List.mem_singleton] at hx
            exact hx ▸ hlt
        have hc3 : ChordConsistent (chordRebuild
            { (chordRandomNode { net with rngK := k1 }).2 with
              nodes := (chordRandomNode { net with rngK := k1 }).2.nodes ++
                [(new_id, [])] }) :=
          chordRebuild_consistent _ hnd3 hb3
        have hne3 : (chordRebuild
            { (chordRandomNode { net with rngK := k1 }).2 with
              nodes := (chordRandomNode { net with rngK := k1 }).2.nodes ++
                [(new_id, [])] }).nodes ≠ [] := by
          simp [chordRebuild]
        have hreb := chordRebalance_consistent _ hc3 hne3
        exact ⟨hreb.1, hreb.2.2.1⟩

theorem chordLeaveAt_consistent (netp : ChordNet) (node_id : Nat)
    (hc : ChordConsistent netp)
    (hres : (chordLeaveAt netp node_id).1.nodes ≠ []) :
    ChordConsistent (chordLeaveAt netp node_id).1 ∧
      (chordLeaveAt netp node_id).1.m_bits = netp.m_bits := by
  unfold chordLeaveAt at hres ⊢
  by_cases hmem : node_id ∈ kvKeys netp.nodes
  · rw [if_pos hmem] at hres ⊢
    dsimp only at hres ⊢
    by_cases hnil : kvPop netp.nodes node_id = []
    · rw [if_pos hnil] at hres
      exact absurd hnil hres
    · rw [if_neg hnil] at hres ⊢
      have hkeyspop : kvKeys (kvPop netp.nodes node_id) =
          (kvKeys netp.nodes).erase node_id := kvKeys_kvPop _ _
      have hnd2 : (kvKeys (kvPop netp.nodes node_id)).Nodup := by
        rw [hkeyspop]
        exact List.Nodup.erase _ hc.2.1
      have hb2 : ∀ x ∈ kvKeys (kvPop netp.nodes node_id), x < 2 ^ netp.m_bits := by
        rw [hkeyspop]
        intro x hx
        exact hc.2.2 x (List.mem_of_mem_erase hx)
      have hc3 : ChordConsistent (chordRebuild
          { netp with nodes := kvPop netp.nodes node_id }) :=
        chordRebuild_consistent _ hnd2 hb2
      have hids3 : (chordRebuild
          { netp with nodes := kvPop netp.nodes node_id }).sorted_ids ≠ [] :=
        chordConsistent_ids_ne _ hc3 hnil
      have hclear : kvKeys (chordClearStores (kvPop netp.nodes node_id)) =
          kvKeys (kvPop netp.nodes node_id) := kvKeys_chordClearStores _
      have hkeysr := chordReinsert_keys (chordCollect netp.nodes)
        { chordRebuild { netp with nodes := kvPop netp.nodes node_id } with
          nodes := chordClearStores (kvPop netp.nodes node_id) } hids3
        (fun x hx => by
          rw [show kvKeys (chordClearStores _) = _ from hclear]
          exact (chordConsistent_mem_iff _ hc3 x).mp hx)
      have hfldsr := chordReinsert_fields (chordCollect netp.nodes)
        { chordRebuild { netp with nodes := kvPop netp.nodes node_id } with
          nodes := chordClearStores (kvPop netp.nodes node_id) }
      rw [hclear] at hkeysr
      exact ⟨chordConsistent_of_keys_eq _ _ hc3 hkeysr hfldsr.1 hfldsr.2.1,
        hfldsr.2.1⟩
  · rw [if_neg hmem] at hres ⊢
    exact ⟨hc, rfl⟩

theorem chordLeave_consistent (net : ChordNet) (arg : Option Nat)
    (hc : ChordConsistent net) (hres : (chordLeave net arg).1.nodes ≠ []) :
    ChordConsistent (chordLeave net arg).1 ∧
      (chordLeave net arg).1.m_bits = net.m_bits := by
  unfold chordLeave at hres ⊢
  by_cases hne : net.nodes = []
  · rw [if_pos hne] at hres
    exact absurd hne hres
  · rw [if_neg hne] at hres ⊢
    cases arg with
    | none => exact chordLeaveAt_consistent _ _ hc hres
    | some nid => exact chordLeaveAt_consistent _ _ hc hres

theorem chordBuild_consistent (mt : Nat → Nat → Nat) (fuel : Nat) (net : ChordNet)
    (n seed : Nat) (net' : ChordNet) (heq : chordBuild mt fuel net n seed = some net') :
    ChordConsistent net' ∧ net'.m_bits = net.m_bits := by
  unfold chordBuild at heq
  cases hb : buildIdsGo (mt seed) net.m_bits n fuel 0 [] with
  | none =>
      rw [hb] at heq
      exact absurd heq (by simp)
  | some pr =>
      obtain ⟨ids, k⟩ := pr
      rw [hb] at heq
      obtain ⟨hnd, hbd⟩ := buildIdsGo_spec (mt seed) net.m_bits n fuel 0 [] ids k
        List.nodup_nil (by simp) hb
      simp only [Option.some.injEq] at heq
      subst heq
      have hkeys : kvKeys (ids.map (fun nid => (nid, ([] : List (Nat × List Rec))))) =
          ids := by
        unfold kvKeys
        rw [List.map_map]
        exact List.map_id'' (fun nid => rfl) ids
      refine ⟨chordRebuild_consistent _ ?_ ?_, rfl⟩
      · rw [hkeys]
        exact hnd
      · rw [hkeys]
        exact hbd

theorem kvSet_ne_nil {α β : Type} [DecidableEq α] (l : List (α × β)) (k : α)
    (v : β) : kvSet l k v ≠ [] := by
  cases l with
  | nil => simp [kvSet]
  | cons p rest =>
      obtain ⟨a, b⟩ := p
      unfold kvSet
      split_ifs <;> simp

theorem pastryRoute_mem_of_eq (L : Nat) (ids : List Nat) (start t dest hops : Nat)
    (hstart : start ∈ ids) (heq : pastryRoute L ids start t = some (dest, hops)) :
    dest ∈ ids := by
  obtain ⟨d, h2, heq2, -, hmem⟩ := pastryRoute_total L ids start t hstart
  rw [heq] at heq2
  simp only [Option.some.injEq, Prod.mk.injEq] at heq2
  rw [heq2.1]
  exact hmem

theorem kvKeys_ne_nil {α β : Type} (l : List (α × β)) (hne : l ≠ []) :
    kvKeys l ≠ [] := by
  cases l with
  | nil => exact absurd rfl hne
  | cons p rest => simp [kvKeys]

theorem pastryReinsert_state (h : String → Nat) :
    ∀ (entries : List (String × Rec)) (net net' : PastryNet) (mig : Nat),
      net.nodes ≠ [] → pastryReinsert h net entries = some (net', mig) →
      kvKeys net'.nodes = kvKeys net.nodes ∧ net'.leaf_L = net.leaf_L ∧
        net'.metrics = net.metrics := by
  intro entries
  induction entries with
  | nil =>
      intro net net' mig hne heq
      simp only [pastryReinsert, Option.some.injEq, Prod.mk.injEq] at heq
      obtain ⟨h1, -⟩ := heq
      subst h1
      exact ⟨rfl, rfl, rfl⟩
  | cons e rest ih =>
      obtain ⟨key, value⟩ := e
      intro net net' mig hne heq
      unfold pastryReinsert at heq
      dsimp only [pastryRandomNode, rngChoice] at heq
      have hlen : 0 < (kvKeys net.nodes).length := by
        rcases List.length_pos.mpr (kvKeys_ne_nil net.nodes hne) with h0
        exact h0
      have hstart : nth (kvKeys net.nodes)
          (net.rngF net.rngK % (kvKeys net.nodes).length) ∈ kvKeys net.nodes :=
        nth_mem _ _ (Nat.mod_lt _ hlen)
      split at heq
      · exact absurd heq (by simp)
      · rename_i dest hops hroute
        have hdest : dest ∈ kvKeys net.nodes :=
          pastryRoute_mem_of_eq _ _ _ _ _ _ hstart hroute
        have hkeys : kvKeys (kvSet net.nodes dest
            (kvSet ((kvGet net.nodes dest).getD []) key value)) = kvKeys net.nodes :=
          kvKeys_kvSet_of_mem _ _ _ hdest
        split at heq
        · exact absurd heq (by simp)
        · rename_i net3 mig2 hrec
          simp only [Option.some.injEq, Prod.mk.injEq] at heq
          obtain ⟨h1, -⟩ := heq
          subst h1
          obtain ⟨ha, hb, hm⟩ := ih _ net3 mig2 (kvSet_ne_nil _ _ _) hrec
          exact ⟨ha.trans hkeys, hb, hm⟩

theorem pastryConsistent_of_keys_eq (net net' : PastryNet)
    (hc : PastryConsistent net) (hkeys : kvKeys net'.nodes = kvKeys net.nodes) :
    PastryConsistent net' :=
  ⟨hkeys ▸ hc.1, fun x hx => hc.2 x (hkeys ▸ hx)⟩

theorem pastryRebalance_consistent (h : String → Nat) (net net' : PastryNet)
    (mig : Nat) (hc : PastryConsistent net) (hne : net.nodes ≠ [])
    (heq : pastryRebalance h net = some (net', mig)) :
    PastryConsistent net' ∧ kvKeys net'.nodes = kvKeys net.nodes ∧
      net'.leaf_L = net.leaf_L := by
  unfold pastryRebalance at heq
  rw [if_neg hne] at heq
  have hclear : kvKeys (pastryClearStores net.nodes) = kvKeys net.nodes :=
    kvKeys_pastryClearStores net.nodes
  have hne2 : pastryClearStores net.nodes ≠ [] := by
    unfold pastryClearStores
    simpa using hne
  obtain ⟨ha, hb, -⟩ := pastryReinsert_state h (pastryCollect net.nodes)
    { net with nodes := pastryClearStores net.nodes } net' mig hne2 heq
  rw [hclear] at ha
  exact ⟨pastryConsistent_of_keys_eq net net' hc ha, ha, hb⟩

theorem pastryInsert_consistent (h : String → Nat) (net : PastryNet) (key : String)
    (v : Rec) (net' : PastryNet) (hops : Nat) (hc : PastryConsistent net)
    (heq : pastryInsert h net key v = some (net', hops)) :
    PastryConsistent net' ∧ net'.leaf_L = net.leaf_L ∧
      kvKeys net'.nodes = kvKeys net.nodes := by
  unfold pastryInsert at heq
  by_cases hne : net.nodes = []
  · rw [if_pos hne] at heq
    exact absurd heq (by simp)
  · rw [if_neg hne] at heq
    dsimp only [pastryRandomNode, rngChoice] at heq
    have hlen : 0 < (kvKeys net.nodes).length :=
      List.length_pos.mpr (kvKeys_ne_nil net.nodes hne)
    have hstart : nth (kvKeys net.nodes)
        (net.rngF net.rngK % (kvKeys net.nodes).length) ∈ kvKeys net.nodes :=
      nth_mem _ _ (Nat.mod_lt _ hlen)
    split at heq
    · exact absurd heq (by simp)
    · rename_i dest hops2 hroute
      have hdest : dest ∈ kvKeys net.nodes :=
        pastryRoute_mem_of_eq _ _ _ _ _ _ hstart hroute
      have hkeys : kvKeys (kvSet net.nodes dest
          (kvSet ((kvGet net.nodes dest).getD []) key v)) = kvKeys net.nodes :=
        kvKeys_kvSet_of_mem _ _ _ hdest
      simp only [Option.some.injEq, Prod.mk.injEq] at heq
      obtain ⟨h1, -⟩ := heq
      subst h1
      exact ⟨⟨hkeys.symm ▸ hc.1, fun x hx => hc.2 x (hkeys ▸ hx)⟩, rfl, hkeys⟩

theorem pastryUpdate_consistent (h : String → Nat) (net : PastryNet) (key : String)
    (v : Rec) (net' : PastryNet) (hops : Nat) (hc : PastryConsistent net)
    (heq : pastryUpdate h net key v = some (net', hops)) :
    PastryConsistent net' ∧ net'.leaf_L = net.leaf_L ∧
      kvKeys net'.nodes = kvKeys net.nodes := by
  unfold pastryUpdate at heq
  by_cases hne : net.nodes = []
  · rw [if_pos hne] at heq
    exact absurd heq (by simp)
  · rw [if_neg hne] at heq
    dsimp only [pastryRandomNode, rngChoice] at heq
    have hlen : 0 < (kvKeys net.nodes).length :=
      List.length_pos.mpr (kvKeys_ne_nil net.nodes hne)
    have hstart : nth (kvKeys net.nodes)
        (net.rngF net.rngK % (kvKeys net.nodes).length) ∈ kvKeys net.nodes :=
      nth_mem _ _ (Nat.mod_lt _ hlen)
    split at heq
    · exact absurd heq (by simp)
    · rename_i dest hops2 hroute
      have hdest : dest ∈ kvKeys net.nodes :=
        pastryRoute_mem_of_eq _ _ _ _ _ _ hstart hroute
      have hkeys : kvKeys (kvSet net.nodes dest
          (kvSet ((kvGet net.nodes dest).getD []) key v)) = kvKeys net.nodes :=
        kvKeys_kvSet_of_mem _ _ _ hdest
      simp only [Option.some.injEq, Prod.mk.injEq] at heq
      obtain ⟨h1, -⟩ := heq
      subst h1
      exact ⟨⟨hkeys.symm ▸ hc.1, fun x hx => hc.2 x (hkeys ▸ hx)⟩, rfl, hkeys⟩

theorem pastryDelete_consistent (h : String → Nat) (net : PastryNet) (key : String)
    (net' : PastryNet) (hops : Nat) (hc : PastryConsistent net)
    (heq : pastryDelete h net key = some (net', hops)) :
    PastryConsistent net' ∧ net'.leaf_L = net.leaf_L ∧
      kvKeys net'.nodes = kvKeys net.nodes := by
  unfold pastryDelete at heq
  by_cases hne : net.nodes = []
  · rw [if_pos hne] at heq
    exact absurd heq (by simp)
  · rw [if_neg hne] at heq
    dsimp only [pastryRandomNode, rngChoice] at heq
    have hlen : 0 < (kvKeys net.nodes).length :=
      List.length_pos.mpr (kvKeys_ne_nil net.nodes hne)
    have hstart : nth (kvKeys net.nodes)
        (net.rngF net.rngK % (kvKeys net.nodes).length) ∈ kvKeys net.nodes :=
      nth_mem _ _ (Nat.mod_lt _ hlen)
    split at heq
    · exact absurd heq (by simp)
    · rename_i dest hops2 hroute
      have hdest : dest ∈ kvKeys net.nodes :=
        pastryRoute_mem_of_eq _ _ _ _ _ _ hstart hroute
      have hkeys : kvKeys (kvSet net.nodes dest
          (kvPop ((kvGet net.nodes dest).getD []) key)) = kvKeys net.nodes :=
        kvKeys_kvSet_of_mem _ _ _ hdest
      simp only [Option.some.injEq, Prod.mk.injEq] at heq
      obtain ⟨h1, -⟩ := heq
      subst h1
      exact ⟨⟨hkeys.symm ▸ hc.1, fun x hx => hc.2 x (hkeys ▸ hx)⟩, rfl, hkeys⟩

theorem pastryLookup_consistent (h : String → Nat) (net : PastryNet) (key : String)
    (res : Option Rec) (net' : PastryNet) (hops : Nat) (hc : PastryConsistent net)
    (heq : pastryLookup h net key = some (res, net', hops)) :
    PastryConsistent net' ∧ net'.leaf_L = net.leaf_L ∧
      kvKeys net'.nodes = kvKeys net.nodes := by
  unfold pastryLookup at heq
  by_cases hne : net.nodes = []
  · rw [if_pos hne] at heq
    exact absurd heq (by simp)
  · rw [if_neg hne] at heq
    dsimp only [pastryRandomNode, rngChoice] at heq
    split at heq
    · exact absurd heq (by simp)
    · rename_i dest hops2 hroute
      simp only [Option.some.injEq, Prod.mk.injEq] at heq
      obtain ⟨-, h1, -⟩ := heq
      subst h1
      exact ⟨hc, rfl, rfl⟩

theorem pastryJoin_consistent (h : String → Nat) (fuel : Nat) (net net' : PastryNet)
    (cost : Nat) (hc : PastryConsistent net)
    (heq : pastryJoin h fuel net = some (net', cost)) :
    PastryConsistent net' ∧ net'.leaf_L = net.leaf_L := by
  unfold pastryJoin at heq
  by_cases hne : net.nodes = []
  · rw [if_pos hne] at heq
    simp only [Option.some.injEq, Prod.mk.injEq] at heq
    obtain ⟨h1, -⟩ := heq
    subst h1
    refine ⟨⟨?_, ?_⟩, rfl⟩
    · simp [kvKeys]
    · intro x hx
      simp only [kvKeys, List.map_cons, List.map_nil, List.mem_singleton, getrandbits] at hx
      subst hx
      exact Nat.mod_lt _ (Nat.pos_pow_of_pos _ (by omega))
  · rw [if_neg hne] at heq
    cases hdraw : drawFresh net.rngF ID_BITS (kvKeys net.nodes) fuel net.rngK with
    | none =>
        rw [hdraw] at heq
        exact absurd heq (by simp)
    | some pr =>
        obtain ⟨new_id, k1⟩ := pr
        rw [hdraw] at heq
        obtain ⟨hnotin, hlt⟩ := drawFresh_spec net.rngF ID_BITS (kvKeys net.nodes)
          fuel net.rngK new_id k1 hdraw
        dsimp only [pastryRandomNode, rngChoice] at heq
        split at heq
        · exact absurd heq (by simp)
        · rename_i dest route_hops hroute
          split at heq
          · exact absurd heq (by simp)
          · rename_i net4 migration_hops hreb
            simp only [Option.some.injEq, Prod.mk.injEq] at heq
            obtain ⟨h1, -⟩ := heq
            subst h1
            have hkeys3 : kvKeys ((pastryRandomNode
                { net with rngK := k1 }).2.nodes ++ [(new_id, [])]) =
                kvKeys net.nodes ++ [new_id] := by
              simp [kvKeys, pastryRandomNode, rngChoice]
            have hc3 : PastryConsistent { (pastryRandomNode
                { net with rngK := k1 }).2 with
                nodes := (pastryRandomNode { net with rngK := k1 }).2.nodes ++
                  [(new_id, [])] } := by
              constructor
              · rw [show kvKeys _ = kvKeys net.nodes ++ [new_id] from hkeys3]
                refine List.Nodup.append hc.1 (List.nodup_singleton _) ?_
                intro a ha hmem
                simp only [List.mem_singleton] at hmem
                exact hnotin (hmem ▸ ha)
              · intro x hx
                rw [show kvKeys _ = kvKeys net.nodes ++ [new_id] from hkeys3] at hx
                rcases List.mem_append.mp hx with hx | hx
                · exact hc.2 x hx
                · simp only [List.mem_singleton] at hx
                  exact hx ▸ hlt
            have hne3 : ({ (pastryRandomNode { net with rngK := k1 }).2 with
                nodes := (pastryRandomNode { net with rngK := k1 }).2.nodes ++
                  [(new_id, [])] } : PastryNet).nodes ≠ [] := by
              simp
            obtain ⟨hcons, -, hL⟩ := pastryRebalance_consistent h _ net4
              migration_hops hc3 hne3 hreb
            exact ⟨hcons, hL⟩

theorem pastryLeaveAt_consistent (h : String → Nat) (netp : PastryNet)
    (node_id : Nat) (net' : PastryNet) (cost : Nat) (hc : PastryConsistent netp)
    (heq : pastryLeaveAt h netp node_id = some (net', cost))
    (hres : net'.nodes ≠ []) :
    PastryConsistent net' ∧ net'.leaf_L = netp.leaf_L := by
  unfold pastryLeaveAt at heq
  by_cases hmem : node_id ∈ kvKeys netp.nodes
  · rw [if_pos hmem] at heq
    dsimp only at heq
    have hkeyspop : kvKeys (kvPop netp.nodes node_id) =
        (kvKeys netp.nodes).erase node_id := kvKeys_kvPop _ _
    have hc2 : PastryConsistent { netp with nodes := kvPop netp.nodes node_id } := by
      constructor
      · rw [show kvKeys ({ netp with nodes := kvPop netp.nodes node_id } :
            PastryNet).nodes = _ from hkeyspop]
        exact List.Nodup.erase _ hc.1
      · intro x hx
        rw [show kvKeys ({ netp with nodes := kvPop netp.nodes node_id } :
            PastryNet).nodes = _ from hkeyspop] at hx
        exact hc.2 x (List.mem_of_mem_erase hx)
    by_cases hnil : kvPop netp.nodes node_id = []
    · rw [if_pos hnil] at heq
      simp only [Option.some.injEq, Prod.mk.injEq] at heq
      obtain ⟨h1, -⟩ := heq
      subst h1
      exact ⟨hc2, rfl⟩
    · rw [if_neg hnil] at heq
      split at heq
      · exact absurd heq (by simp)
      · rename_i net5 migration_hops hrei
        simp only [Option.some.injEq, Prod.mk.injEq] at heq
        obtain ⟨h1, -⟩ := heq
        subst h1
        have hne2 : pastryClearStores (kvPop netp.nodes node_id) ≠ [] := by
          unfold pastryClearStores
          simpa using hnil
        obtain ⟨ha, hb, -⟩ := pastryReinsert_state h (pastryCollect netp.nodes)
          { netp with nodes := pastryClearStores (kvPop netp.nodes node_id) }
          net5 migration_hops hne2 hrei
        have hclear : kvKeys (pastryClearStores (kvPop netp.nodes node_id)) =
            kvKeys (kvPop netp.nodes node_id) := kvKeys_pastryClearStores _
        rw [hclear] at ha
        refine ⟨⟨?_, ?_⟩, hb⟩
        · rw [show kvKeys net5.nodes = _ from ha, hkeyspop]
          exact List.Nodup.erase _ hc.1
        · intro x hx
          rw [show kvKeys net5.nodes = _ from ha, hkeyspop] at hx
          exact hc.2 x (List.mem_of_mem_erase hx)
  · rw [if_neg hmem] at heq
    simp only [Option.some.injEq, Prod.mk.injEq] at heq
    obtain ⟨h1, -⟩ := heq
    subst h1
    exact ⟨hc, rfl⟩

theorem pastryLeave_consistent (h : String → Nat) (net : PastryNet)
    (arg : Option Nat) (net' : PastryNet) (cost : Nat) (hc : PastryConsistent net)
    (heq : pastryLeave h net arg = some (net', cost)) (hres : net'.nodes ≠ []) :
    PastryConsistent net' ∧ net'.leaf_L = net.leaf_L := by
  unfold pastryLeave at heq
  by_cases hne : net.nodes = []
  · rw [if_pos hne] at heq
    simp only [Option.some.injEq, Prod.mk.injEq] at heq
    obtain ⟨h1, -⟩ := heq
    subst h1
    exact absurd hne hres
  · rw [if_neg hne] at heq
    cases arg with
    | none =>
        exact pastryLeaveAt_consistent h (pastryRandomNode net).2
          (pastryRandomNode net).1 net' cost hc heq hres
    | some nid => exact pastryLeaveAt_consistent h net nid net' cost hc heq hres

theorem pastryBuild_consistent (mt : Nat → Nat → Nat) (fuel : Nat)
    (net : PastryNet) (n seed : Nat) (net' : PastryNet)
    (heq : pastryBuild mt fuel net n seed = some net') :
    PastryConsistent net' ∧ net'.leaf_L = net.leaf_L := by
  unfold pastryBuild at heq
  cases hb : buildIdsGo (mt seed) ID_BITS n fuel 0 [] with
  | none =>
      rw [hb] at heq
      exact absurd heq (by simp)
  | some pr =>
      obtain ⟨ids, k⟩ := pr
      rw [hb] at heq
      obtain ⟨hnd, hbd⟩ := buildIdsGo_spec (mt seed) ID_BITS n fuel 0 [] ids k
        List.nodup_nil (by simp) hb
      simp only [Option.some.injEq] at heq
      subst heq
      have hkeys : kvKeys (ids.map (fun nid => (nid, ([] : List (String × Rec))))) =
          ids := by
        unfold kvKeys
        rw [List.map_map]
        exact List.map_id'' (fun nid => rfl) ids
      refine ⟨⟨?_, ?_⟩, rfl⟩
      · rw [show kvKeys _ = ids from hkeys]
        exact hnd
      · intro x hx
        rw [show kvKeys _ = ids from hkeys] at hx
        exact hbd x hx

theorem fingerOf_minimal (m : Nat) (ids : List Nat) (nid i : Nat)
    (hs : List.Sorted (· < ·) ids) (hb : ∀ w ∈ ids, w < 2 ^ m) (hne : ids ≠ []) :
    fingerOf m ids nid i ∈ ids ∧
      ∀ w ∈ ids, cwM (2 ^ m) ((nid + 2 ^ i) % 2 ^ m) (fingerOf m ids nid i) ≤
        cwM (2 ^ m) ((nid + 2 ^ i) % 2 ^ m) w := by
  have hM : 0 < 2 ^ m := Nat.pos_pow_of_pos m (by omega)
  exact ⟨fingerOf_mem m ids nid i hne,
    fun w hw => successorIdOf_min (2 ^ m) ids _ hM hs hb hne (Nat.mod_lt _ hM) w hw⟩

theorem leafRebuild_nodup (L selfId : Nat) (allIds : List Nat) :
    (leafRebuild L selfId allIds).Nodup := by
  unfold leafRebuild
  split_ifs with h
  · exact List.Nodup.sublist (List.take_sublist _ _) (buildOut_nodup _ _)
  · exact List.nodup_nil

/-- C1: every route through either Network over a fixed non-empty node set
reports a nonnegative hop count at most `|nodes| + 5` (part 1: ring overlay
over a consistent ring; part 2: prefix overlay), and the ring loop's fuse
returns the current position with the accumulated hops as soon as the
incremented count exceeds `|nodes| + 5` (part 3). -/
theorem claim_C1 :
    (∀ m ids start t, List.Sorted (· < ·) ids → (∀ x ∈ ids, x < 2 ^ m) →
      t < 2 ^ m → ids ≠ [] → start ∈ ids →
      (chordRoute m ids start t).2 ≤ ids.length + 5) ∧
    (∀ L ids start t, start ∈ ids →
      ∃ dest h, pastryRoute L ids start t = some (dest, h) ∧ h ≤ ids.length + 5) ∧
    (∀ m ids target fuel current hops visited,
      succOf ids current ≠ current →
      in_interval target current (succOf ids current) true = false →
      ids.length + 5 < hops + 1 →
      chordRouteGo m ids target (fuel + 1) current hops visited =
        (chordNext m ids visited current target, hops + 1)) := by
  refine ⟨?_, ?_, ?_⟩
  · intro m ids start t hs hb ht hne hstart
    exact (chordRoute_spec m ids start t hs hb ht hne hstart).2
  · intro L ids start t hstart
    obtain ⟨dest, h, heq, hle, -⟩ := pastryRoute_total L ids start t hstart
    exact ⟨dest, h, heq, by omega⟩
  · intro m ids target fuel current hops visited h1 h2 h3
    rw [chordRouteGo_succ, if_neg h1, if_neg (by simp [h2]), if_pos h3]

theorem claim_C1_witness :
    (chordRoute 3 [1, 4] 1 6).2 ≤ [1, 4].length + 5 ∧
    (∃ dest hh, pastryRoute 2 [5] 5 9 = some (dest, hh) ∧ hh ≤ [5].length + 5) :=
  ⟨claim_C1.1 3 [1, 4] 1 6 (by decide) (by decide) (by decide) (by decide)
    (by decide),
   claim_C1.2.1 2 [5] 5 9 (by decide)⟩

/-- C5: every Ring-DHT contract call yields (or preserves) a consistent
state, and on a consistent state every finger `finger[i]` of every live node
is the live node clockwise-closest to `(nid + 2^i) mod 2^m`, i.e. the ring
successor of that point. -/
theorem claim_C5 :
    (∀ mt fuel net n seed net', chordBuild mt fuel net n seed = some net' →
      ChordConsistent net') ∧
    (∀ h net key v net' hops, ChordConsistent net →
      chordInsert h net key v = some (net', hops) → ChordConsistent net') ∧
    (∀ h net key res net' hops, ChordConsistent net →
      chordLookup h net key = some (res, net', hops) → ChordConsistent net') ∧
    (∀ h net key v net' hops, ChordConsistent net →
      chordUpdate h net key v = some (net', hops) → ChordConsistent net') ∧
    (∀ h net key net' hops, ChordConsistent net →
      chordDelete h net key = some (net', hops) → ChordConsistent net') ∧
    (∀ fuel net net' cost, ChordConsistent net →
      chordJoin fuel net = some (net', cost) → ChordConsistent net') ∧
    (∀ net arg, ChordConsistent net → (chordLeave net arg).1.nodes ≠ [] →
      ChordConsistent (chordLeave net arg).1) ∧
    (∀ net, ChordConsistent net → net.nodes ≠ [] →
      ∀ nid, nid ∈ net.sorted_ids → ∀ i : Nat, i < net.m_bits →
        fingerOf net.m_bits net.sorted_ids nid i ∈ net.sorted_ids ∧
        ∀ w ∈ net.sorted_ids,
          cwM (2 ^ net.m_bits) ((nid + 2 ^ i) % 2 ^ net.m_bits)
            (fingerOf net.m_bits net.sorted_ids nid i) ≤
          cwM (2 ^ net.m_bits) ((nid + 2 ^ i) % 2 ^ net.m_bits) w) := by
  refine ⟨?_, ?_, ?_, ?_, ?_, ?_, ?_, ?_⟩
  · exact fun mt fuel net n seed net' heq =>
      (chordBuild_consistent mt fuel net n seed net' heq).1
  · exact fun h net key v net' hops hc heq =>
      (chordInsert_consistent h net key v net' hops hc heq).1
  · exact fun h net key res net' hops hc heq =>
      (chordLookup_consistent h net key res net' hops hc heq).1
  · exact fun h net key v net' hops hc heq =>
      (chordUpdate_consistent h net key v net' hops hc heq).1
  · exact fun h net key net' hops hc heq =>
      (chordDelete_consistent h net key net' hops hc heq).1
  · exact fun fuel net net' cost hc heq =>
      (chordJoin_consistent fuel net net' cost hc heq).1
  · exact fun net arg hc hres => (chordLeave_consistent net arg hc hres).1
  · intro net hc hne nid hnid i hi
    exact fingerOf_minimal net.m_bits net.sorted_ids nid i
      (chordConsistent_sorted net hc) (chordConsistent_bounds net hc)
      (chordConsistent_ids_ne net hc hne)

def C5net : ChordNet :=
  { m_bits := 3, nodes := [(1, []), (4, [])], sorted_ids := [1, 4], metrics := [],
    rngF := fun _ => 0, rngK := 0 }

theorem claim_C5_witness :
    fingerOf C5net.m_bits C5net.sorted_ids 1 1 ∈ C5net.sorted_ids ∧
    ∀ w ∈ C5net.sorted_ids,
      cwM (2 ^ C5net.m_bits) ((1 + 2 ^ 1) % 2 ^ C5net.m_bits)
        (fingerOf C5net.m_bits C5net.sorted_ids 1 1) ≤
      cwM (2 ^ C5net.m_bits) ((1 + 2 ^ 1) % 2 ^ C5net.m_bits) w :=
  claim_C5.2.2.2.2.2.2.2 C5net ⟨by decide, by decide, by decide⟩ (by decide) 1
    (by decide) 1 (by decide)

/-- C6: every Prefix-DHT contract call yields (or preserves) a consistent
state, and on a consistent state every node's rebuilt leaf set is duplicate
free and holds exactly the live nodes other than self whose rank among the
ring neighbours below (counter-clockwise) or above (clockwise) self is
within `L/2` — the `L` numerically-closest ids, `L/2` per side, saturating
when fewer exist. -/
theorem claim_C6 :
    (∀ mt fuel net n seed net', pastryBuild mt fuel net n seed = some net' →
      PastryConsistent net') ∧
    (∀ h net key v net' hops, PastryConsistent net →
      pastryInsert h net key v = some (net', hops) → PastryConsistent net') ∧
    (∀ h net key res net' hops, PastryConsistent net →
      pastryLookup h net key = some (res, net', hops) → PastryConsistent net') ∧
    (∀ h net key v net' hops, PastryConsistent net →
      pastryUpdate h net key v = some (net', hops) → PastryConsistent net') ∧
    (∀ h net key net' hops, PastryConsistent net →
      pastryDelete h net key = some (net', hops) → PastryConsistent net') ∧
    (∀ h fuel net net' cost, PastryConsistent net →
      pastryJoin h fuel net = some (net', cost) → PastryConsistent net') ∧
    (∀ h net arg net' cost, PastryConsistent net →
      pastryLeave h net arg = some (net', cost) → net'.nodes ≠ [] →
      PastryConsistent net') ∧
    (∀ net, PastryConsistent net → ∀ nid, nid ∈ kvKeys net.nodes →
      (leafRebuild net.leaf_L nid (sortNat (kvKeys net.nodes))).Nodup ∧
      ∀ z, z ∈ leafRebuild net.leaf_L nid (sortNat (kvKeys net.nodes)) ↔
        z ∈ kvKeys net.nodes ∧ z ≠ nid ∧
          (ccwCloserCount (sortNat (kvKeys net.nodes)) nid z < net.leaf_L / 2 ∨
           cwCloserCount (sortNat (kvKeys net.nodes)) nid z < net.leaf_L / 2)) := by
  refine ⟨?_, ?_, ?_, ?_, ?_, ?_, ?_, ?_⟩
  · exact fun mt fuel net n seed net' heq =>
      (pastryBuild_consistent mt fuel net n seed net' heq).1
  · exact fun h net key v net' hops hc heq =>
      (pastryInsert_consistent h net key v net' hops hc heq).1
  · exact fun h net key res net' hops hc heq =>
      (pastryLookup_consistent h net key res net' hops hc heq).1
  · exact fun h net key v net' hops hc heq =>
      (pastryUpdate_consistent h net key v net' hops hc heq).1
  · exact fun h net key net' hops hc heq =>
      (pastryDelete_consistent h net key net' hops hc heq).1
  · exact fun h fuel net net' cost hc heq =>
      (pastryJoin_consistent h fuel net net' cost hc heq).1
  · exact fun h net arg net' cost hc heq hres =>
      (pastryLeave_consistent h net arg net' cost hc heq hres).1
  · intro net hc nid hnid
    have hs : List.Sorted (· < ·) (sortNat (kvKeys net.nodes)) :=
      sortNat_sorted_lt _ hc.1
    have hb : ∀ w ∈ sortNat (kvKeys net.nodes), w < MOD := fun w hw =>
      hc.2 w ((sortNat_perm _).mem_iff.mp hw)
    have hself : nid ∈ sortNat (kvKeys net.nodes) :=
      (sortNat_perm _).mem_iff.mpr hnid
    refine ⟨leafRebuild_nodup _ _ _, fun z => ?_⟩
    rw [leafRebuild_mem_iff _ _ _ hs hb hself z, (sortNat_perm _).mem_iff]

def C6net : PastryNet :=
  { leaf_L := 4, nodes := [(1, []), (4, [])], metrics := [],
    rngF := fun _ => 0, rngK := 0 }

theorem claim_C6_witness :
    (leafRebuild C6net.leaf_L 1 (sortNat (kvKeys C6net.nodes))).Nodup ∧
    ∀ z, z ∈ leafRebuild C6net.leaf_L 1 (sortNat (kvKeys C6net.nodes)) ↔
      z ∈ kvKeys C6net.nodes ∧ z ≠ 1 ∧
        (ccwCloserCount (sortNat (kvKeys C6net.nodes)) 1 z < C6net.leaf_L / 2 ∨
         cwCloserCount (sortNat (kvKeys C6net.nodes)) 1 z < C6net.leaf_L / 2) :=
  claim_C6.2.2.2.2.2.2.2 C6net ⟨by decide, by decide⟩ 1 (by decide)

/-- C10: every hop `next_hop` accepts (leaf-set step, routing-table step or
fallback) is strictly closer to the target by circular distance than the
current node; hence each `_route` iteration strictly decreases the distance
and the route returns, with no hop fuse, within `|nodes|` iterations. -/
theorem claim_C10 :
    (∀ selfId leaves table targetId neighborhood visited,
      next_hop selfId leaves table targetId neighborhood visited ≠ selfId →
      circ_dist (next_hop selfId leaves table targetId neighborhood visited)
          targetId < circ_dist selfId targetId) ∧
    (∀ L ids target current visited,
      pastryStep L ids target current visited ≠ current →
      circ_dist (pastryStep L ids target current visited) target <
        circ_dist current target) ∧
    (∀ L ids start t, start ∈ ids →
      ∃ dest h, pastryRoute L ids start t = some (dest, h) ∧
        h + 1 ≤ ids.length ∧ dest ∈ ids) := by
  refine ⟨?_, ?_, ?_⟩
  · exact fun selfId leaves table targetId neighborhood visited hne =>
      next_hop_strict selfId targetId leaves table neighborhood visited hne
  · exact fun L ids target current visited hne =>
      next_hop_strict current target _ _ _ visited hne
  · exact pastryRoute_total

theorem claim_C10_witness :
    circ_dist (next_hop 0 [1] [] 1 [] []) 1 < circ_dist 0 1 ∧
    (∃ dest hh, pastryRoute 4 [2, 9] 2 8 = some (dest, hh) ∧
      hh + 1 ≤ [2, 9].length ∧ dest ∈ [2, 9]) :=
  ⟨claim_C10.1 0 [1] [] 1 [] [] (by decide), claim_C10.2.2 4 [2, 9] 2 8 (by decide)⟩

/-! ### Insert-then-lookup round trips -/

theorem chordInsertLookup (h : String → Nat) (net : ChordNet) (key key' : String)
    (v : Rec) (net1 : ChordNet) (hops1 : Nat) (hc : ChordConsistent net)
    (hkk : h key' % 2 ^ net.m_bits = h key % 2 ^ net.m_bits)
    (hins : chordInsert h net key v = some (net1, hops1)) :
    (chordLookup h net1 key').map (fun q => q.1) = some (some v) := by
  unfold chordInsert at hins
  by_cases hne : net.nodes = []
  · rw [if_pos hne] at hins
    exact absurd hins (by simp)
  · rw [if_neg hne] at hins
    dsimp only [chordRandomNode, rngChoice] at hins
    simp only [Option.some.injEq, Prod.mk.injEq] at hins
    obtain ⟨hnet1, -⟩ := hins
    have hids : net.sorted_ids ≠ [] := chordConsistent_ids_ne net hc hne
    have hpos : 0 < net.sorted_ids.length := List.length_pos.mpr hids
    have hM : 0 < 2 ^ net.m_bits := Nat.pos_pow_of_pos _ (by omega)
    have hd1 : (chordRoute net.m_bits net.sorted_ids
        (nth net.sorted_ids (net.rngF net.rngK % net.sorted_ids.length))
        (h key % 2 ^ net.m_bits)).1 =
        successorIdOf net.sorted_ids (h key % 2 ^ net.m_bits) :=
      (chordRoute_spec net.m_bits net.sorted_ids _ _
        (chordConsistent_sorted net hc) (chordConsistent_bounds net hc)
        (Nat.mod_lt _ hM) hids (nth_mem _ _ (Nat.mod_lt _ hpos))).1
    have hd2 : (chordRoute net.m_bits net.sorted_ids
        (nth net.sorted_ids (net.rngF (net.rngK + 1) % net.sorted_ids.length))
        (h key' % 2 ^ net.m_bits)).1 =
        successorIdOf net.sorted_ids (h key % 2 ^ net.m_bits) := by
      rw [hkk]
      exact (chordRoute_spec net.m_bits net.sorted_ids _ _
        (chordConsistent_sorted net hc) (chordConsistent_bounds net hc)
        (Nat.mod_lt _ hM) hids (nth_mem _ _ (Nat.mod_lt _ hpos))).1
    unfold chordLookup
    rw [if_neg (show ¬net1.nodes = [] from hnet1 ▸ kvSet_ne_nil _ _ _)]
    dsimp only [chordRandomNode, rngChoice]
    subst hnet1
    dsimp only [Option.map_some']
    rw [hd2, hd1, kvGet_kvSet_self]
    dsimp only [Option.getD_some]
    rw [hkk, kvGet_kvSet_self]

theorem pastryInsertLookup (h : String → Nat) (net : PastryNet) (key : String)
    (v : Rec) (net1 : PastryNet) (hops1 : Nat) (zstar : Nat)
    (hc : PastryConsistent net) (hL : 2 ≤ net.leaf_L) (ht : h key < MOD)
    (hzmem : zstar ∈ kvKeys net.nodes)
    (huniq : ∀ w ∈ kvKeys net.nodes, w ≠ zstar →
      circ_dist zstar (h key) < circ_dist w (h key))
    (hins : pastryInsert h net key v = some (net1, hops1)) :
    (pastryLookup h net1 key).map (fun q => q.1) = some (some v) := by
  unfold pastryInsert at hins
  by_cases hne : net.nodes = []
  · rw [if_pos hne] at hins
    exact absurd hins (by simp)
  · rw [if_neg hne] at hins
    dsimp only [pastryRandomNode, rngChoice] at hins
    have hpos : 0 < (kvKeys net.nodes).length :=
      List.length_pos.mpr (kvKeys_ne_nil net.nodes hne)
    have hstart1 : nth (kvKeys net.nodes)
        (net.rngF net.rngK % (kvKeys net.nodes).length) ∈ kvKeys net.nodes :=
      nth_mem _ _ (Nat.mod_lt _ hpos)
    obtain ⟨hh1, heq1⟩ := pastryRoute_dest net.leaf_L (kvKeys net.nodes) _ (h key)
      zstar hc.1 hc.2 ht hL hstart1 hzmem huniq
    rw [heq1] at hins
    simp only [Option.some.injEq, Prod.mk.injEq] at hins
    obtain ⟨hnet1, -⟩ := hins
    have hkeys : kvKeys (kvSet net.nodes zstar
        (kvSet ((kvGet net.nodes zstar).getD []) key v)) = kvKeys net.nodes :=
      kvKeys_kvSet_of_mem _ _ _ hzmem
    obtain ⟨hh2, heq2⟩ := pastryRoute_dest net.leaf_L (kvKeys net.nodes)
      (nth (kvKeys net.nodes) (net.rngF (net.rngK + 1) % (kvKeys net.nodes).length))
      (h key) zstar hc.1 hc.2 ht hL (nth_mem _ _ (Nat.mod_lt _ hpos)) hzmem huniq
    unfold pastryLookup
    rw [if_neg (show ¬net1.nodes = [] from hnet1 ▸ kvSet_ne_nil _ _ _)]
    dsimp only [pastryRandomNode, rngChoice]
    subst hnet1
    dsimp only
    rw [show kvKeys (kvSet net.nodes zstar
      (kvSet ((kvGet net.nodes zstar).getD []) key v)) = kvKeys net.nodes from
      hkeys]
    rw [heq2]
    dsimp only [Option.map_some']
    rw [kvGet_kvSet_self]
    dsimp only [Option.getD_some]
    rw [kvGet_kvSet_self]

/-- C2 (amended): on the ring overlay, after `insert(k, v)` a `lookup(k)`
returns `v` from any independently chosen random start; on the prefix
overlay the same holds whenever the key's hash has a unique circular-distance
closest live node.  (With a distance tie, insert and lookup can stop at
different tied nodes; see the counterexample.) -/
theorem claim_C2 :
    (∀ h net key v net1 hops1, ChordConsistent net →
      chordInsert h net key v = some (net1, hops1) →
      (chordLookup h net1 key).map (fun q => q.1) = some (some v)) ∧
    (∀ h net key v net1 hops1 zstar, PastryConsistent net → 2 ≤ net.leaf_L →
      h key < MOD → zstar ∈ kvKeys net.nodes →
      (∀ w ∈ kvKeys net.nodes, w ≠ zstar →
        circ_dist zstar (h key) < circ_dist w (h key)) →
      pastryInsert h net key v = some (net1, hops1) →
      (pastryLookup h net1 key).map (fun q => q.1) = some (some v)) :=
  ⟨fun h net key v net1 hops1 hc hins =>
      chordInsertLookup h net key key v net1 hops1 hc rfl hins,
   fun h net key v net1 hops1 zstar hc hL ht hz hu hins =>
      pastryInsertLookup h net key v net1 hops1 zstar hc hL ht hz hu hins⟩

def hC2 : String → Nat := fun _ => 30

/-- A prefix network whose ids 10 and 50 are equally distant from the hash
value 30; the random starts send the insert to one tied node and the lookup
to the other. -/
def C2net : PastryNet :=
  { leaf_L := 16, nodes := [(0, []), (10, []), (50, [])], metrics := [],
    rngF := fun k => 1 - k, rngK := 0 }

theorem claim_C2_counterexample :
    PastryConsistent C2net ∧
    ((pastryInsert hC2 C2net "k" ⟨"k", 7⟩).bind (fun p =>
      (pastryLookup hC2 p.1 "k").map (fun q => q.1))) = some none :=
  ⟨⟨by decide, by decide⟩, by decide⟩

def C2cnet : ChordNet :=
  { m_bits := 4, nodes := [(2, []), (9, [])], sorted_ids := [2, 9], metrics := [],
    rngF := fun _ => 0, rngK := 0 }

def C2pnet : PastryNet :=
  { leaf_L := 4, nodes := [(0, []), (10, []), (50, [])], metrics := [],
    rngF := fun _ => 0, rngK := 0 }

theorem claim_C2_witness :
    (chordLookup (fun _ => 6) ((chordInsert (fun _ => 6) C2cnet "k"
        ⟨"k", 7⟩).getD (C2cnet, 0)).1 "k").map (fun q => q.1) =
      some (some ⟨"k", 7⟩) ∧
    (pastryLookup (fun _ => 20) ((pastryInsert (fun _ => 20) C2pnet "k"
        ⟨"k", 8⟩).getD (C2pnet, 0)).1 "k").map (fun q => q.1) =
      some (some ⟨"k", 8⟩) :=
  ⟨claim_C2.1 (fun _ => 6) C2cnet "k" ⟨"k", 7⟩
      ((chordInsert (fun _ => 6) C2cnet "k" ⟨"k", 7⟩).getD (C2cnet, 0)).1
      ((chordInsert (fun _ => 6) C2cnet "k" ⟨"k", 7⟩).getD (C2cnet, 0)).2
      ⟨by decide, by decide, by decide⟩ rfl,
   claim_C2.2 (fun _ => 20) C2pnet "k" ⟨"k", 8⟩
      ((pastryInsert (fun _ => 20) C2pnet "k" ⟨"k", 8⟩).getD (C2pnet, 0)).1
      ((pastryInsert (fun _ => 20) C2pnet "k" ⟨"k", 8⟩).getD (C2pnet, 0)).2
      10 ⟨by decide, by decide⟩ (by decide) (by decide) (by decide) (by decide)
      rfl⟩

/-- On a solitary node the `find_predecessor` loop guard
`in_interval(key, id, id, True)` holds for every key, so `find_successor`
resolves to the node itself. -/
theorem in_interval_self_true (x a : Nat) : in_interval x a a true = true := by
  unfold in_interval
  simp only [lt_irrefl, if_neg, if_false, if_true]
  simp
  omega

theorem pastryInsert_stores (h : String → Nat) (net : PastryNet) (key : String)
    (v : Rec) (net1 : PastryNet) (hops1 : Nat)
    (heq : pastryInsert h net key v = some (net1, hops1)) :
    ∃ nid store, kvGet net1.nodes nid = some store ∧ kvGet store key = some v := by
  unfold pastryInsert at heq
  by_cases hne : net.nodes = []
  · rw [if_pos hne] at heq
    exact absurd heq (by simp)
  · rw [if_neg hne] at heq
    dsimp only [pastryRandomNode, rngChoice] at heq
    split at heq
    · exact absurd heq (by simp)
    · rename_i dest hops hroute
      simp only [Option.some.injEq, Prod.mk.injEq] at heq
      obtain ⟨h1, -⟩ := heq
      subst h1
      exact ⟨dest, _, kvGet_kvSet_self _ _ _, kvGet_kvSet_self _ _ _⟩

theorem pastryInsert_preserves (h : String → Nat) (net : PastryNet) (key : String)
    (v : Rec) (net1 : PastryNet) (hops1 : Nat) (keyA : String) (vA : Rec)
    (nidA : Nat) (hAB : keyA ≠ key)
    (hprev : ∃ store, kvGet net.nodes nidA = some store ∧
      kvGet store keyA = some vA)
    (heq : pastryInsert h net key v = some (net1, hops1)) :
    ∃ store, kvGet net1.nodes nidA = some store ∧ kvGet store keyA = some vA := by
  obtain ⟨storeA, hga, hgk⟩ := hprev
  unfold pastryInsert at heq
  by_cases hne : net.nodes = []
  · rw [if_pos hne] at heq
    exact absurd heq (by simp)
  · rw [if_neg hne] at heq
    dsimp only [pastryRandomNode, rngChoice] at heq
    split at heq
    · exact absurd heq (by simp)
    · rename_i dest hops hroute
      simp only [Option.some.injEq, Prod.mk.injEq] at heq
      obtain ⟨h1, -⟩ := heq
      subst h1
      by_cases hd : nidA = dest
      · subst hd
        refine ⟨kvSet ((kvGet net.nodes nidA).getD []) key v,
          kvGet_kvSet_self _ _ _, ?_⟩
        rw [kvGet_kvSet_ne _ _ _ _ hAB, hga]
        exact hgk
      · refine ⟨storeA, ?_, hgk⟩
        rw [kvGet_kvSet_ne _ _ _ _ hd]
        exact hga

/-- C7 (amended): on a hash collision of two distinct titles, the bare ring
node appends and keeps both records, each retrievable through `get`'s exact
title filter; the ring Network's insert overwrites `data[key_id]`, so a
later lookup of either title sees only the last writer's value; the prefix
Network keys its stores by the title string, so both colliding inserts are
retained.  (The original claim asserted last-writer-wins for both Network
overlays; the prefix overlay refutes it — see the counterexample.) -/
theorem claim_C7 :
    (∀ hk : String → Nat, ∀ nd : BareNode, ∀ keyA keyB : String, ∀ vA vB : Rec,
      hk keyA % 2 ^ nd.m = hk keyB % 2 ^ nd.m → keyA ≠ keyB →
      vA.title = keyA → vB.title = keyB →
      kvGet nd.data (nodeHashKey hk nd.m keyA) = none →
      kvGet (nodePut hk (nodePut hk nd keyA vA) keyB vB).data
          (nodeHashKey hk nd.m keyA) = some [vA, vB] ∧
      nodeGet hk (nodePut hk (nodePut hk nd keyA vA) keyB vB) keyA = some [vA] ∧
      nodeGet hk (nodePut hk (nodePut hk nd keyA vA) keyB vB) keyB = some [vB]) ∧
    (∀ h net keyA keyB vA vB net1 hops1 net2 hops2, ChordConsistent net →
      h keyA % 2 ^ net.m_bits = h keyB % 2 ^ net.m_bits →
      chordInsert h net keyA vA = some (net1, hops1) →
      chordInsert h net1 keyB vB = some (net2, hops2) →
      (chordLookup h net2 keyA).map (fun q => q.1) = some (some vB)) ∧
    (∀ h net keyA keyB vA vB net1 hops1 net2 hops2, keyA ≠ keyB →
      pastryInsert h net keyA vA = some (net1, hops1) →
      pastryInsert h net1 keyB vB = some (net2, hops2) →
      (∃ nid store, kvGet net2.nodes nid = some store ∧
        kvGet store keyA = some vA) ∧
      (∃ nid store, kvGet net2.nodes nid = some store ∧
        kvGet store keyB = some vB)) := by
  refine ⟨?_, ?_, ?_⟩
  · intro hk nd keyA keyB vA vB hcol hAB htA htB hempty
    have hkidB : nodeHashKey hk nd.m keyB = nodeHashKey hk nd.m keyA := by
      unfold nodeHashKey
      exact hcol.symm
    have hdata1 : (nodePut hk nd keyA vA).data =
        kvSet nd.data (nodeHashKey hk nd.m keyA) [vA] := by
      unfold nodePut
      dsimp only
      rw [hempty]
      rfl
    have hdata2 : (nodePut hk (nodePut hk nd keyA vA) keyB vB).data =
        kvSet (kvSet nd.data (nodeHashKey hk nd.m keyA) [vA])
          (nodeHashKey hk nd.m keyA) [vA, vB] := by
      unfold nodePut
      dsimp only
      rw [hkidB, hempty, kvGet_kvSet_self]
      rfl
    have hget2 : kvGet (nodePut hk (nodePut hk nd keyA vA) keyB vB).data
        (nodeHashKey hk nd.m keyA) = some [vA, vB] := by
      rw [hdata2, kvGet_kvSet_self]
    have hbA : (vA.title == keyA) = true := by
      rw [htA]
      exact beq_self_eq_true keyA
    have hbB : (vB.title == keyA) = false := by
      rw [htB]
      exact beq_eq_false_iff_ne.mpr (Ne.symm hAB)
    have hbA2 : (vA.title == keyB) = false := by
      rw [htA]
      exact beq_eq_false_iff_ne.mpr hAB
    have hbB2 : (vB.title == keyB) = true := by
      rw [htB]
      exact beq_self_eq_true keyB
    refine ⟨hget2, ?_, ?_⟩
    · unfold nodeGet
      rw [show nodeHashKey hk (nodePut hk (nodePut hk nd keyA vA) keyB vB).m keyA =
            nodeHashKey hk nd.m keyA from rfl, hget2]
      simp [List.filter, hbA, hbB]
    · unfold nodeGet
      rw [show nodeHashKey hk (nodePut hk (nodePut hk nd keyA vA) keyB vB).m keyB =
            nodeHashKey hk nd.m keyA from hkidB, hget2]
      simp [List.filter, hbA2, hbB2]
  · intro h net keyA keyB vA vB net1 hops1 net2 hops2 hc hcol hins1 hins2
    obtain ⟨hc1, hm1, -, -⟩ := chordInsert_consistent h net keyA vA net1 hops1 hc hins1
    refine chordInsertLookup h net1 keyB keyA vB net2 hops2 hc1 ?_ hins2
    rw [hm1]
    exact hcol
  · intro h net keyA keyB vA vB net1 hops1 net2 hops2 hAB hins1 hins2
    obtain ⟨nidA, storeA, hga, hgk⟩ :=
      pastryInsert_stores h net keyA vA net1 hops1 hins1
    obtain ⟨store', hga', hgk'⟩ := pastryInsert_preserves h net1 keyB vB net2 hops2
      keyA vA nidA hAB ⟨storeA, hga, hgk⟩ hins2
    exact ⟨⟨nidA, store', hga', hgk'⟩,
      pastryInsert_stores h net1 keyB vB net2 hops2 hins2⟩

def hC7 : String → Nat := fun _ => 9

def C7net : PastryNet :=
  { leaf_L := 16, nodes := [(5, [])], metrics := [], rngF := fun _ => 0, rngK := 0 }

theorem claim_C7_counterexample :
    hC7 "A" = hC7 "B" ∧
    ((pastryInsert hC7 C7net "A" ⟨"A", 1⟩).bind (fun p =>
      (pastryInsert hC7 p.1 "B" ⟨"B", 2⟩).bind (fun q =>
        (pastryLookup hC7 q.1 "A").map (fun r => r.1)))) = some (some ⟨"A", 1⟩) :=
  ⟨rfl, by decide⟩

def C7node : BareNode := { id := 5, m := 4, data := [] }

theorem claim_C7_witness :
    kvGet (nodePut (fun _ => 3) (nodePut (fun _ => 3) C7node "A" ⟨"A", 1⟩) "B"
        ⟨"B", 2⟩).data (nodeHashKey (fun _ => 3) C7node.m "A") =
      some [⟨"A", 1⟩, ⟨"B", 2⟩] ∧
    nodeGet (fun _ => 3) (nodePut (fun _ => 3) (nodePut (fun _ => 3) C7node "A"
        ⟨"A", 1⟩) "B" ⟨"B", 2⟩) "A" = some [⟨"A", 1⟩] ∧
    nodeGet (fun _ => 3) (nodePut (fun _ => 3) (nodePut (fun _ => 3) C7node "A"
        ⟨"A", 1⟩) "B" ⟨"B", 2⟩) "B" = some [⟨"B", 2⟩] :=
  claim_C7.1 (fun _ => 3) C7node "A" "B" ⟨"A", 1⟩ ⟨"B", 2⟩ rfl (by decide) rfl rfl
    (by decide)

/-! ### Single-node routing -/

theorem chordRoute_singleton (m nid t : Nat) : chordRoute m [nid] nid t = (nid, 0) := by
  unfold chordRoute
  rw [show ([nid] : List Nat).length + 6 = 6 + 1 from rfl, chordRouteGo_succ,
    if_pos (succOf_singleton nid nid)]

theorem getD_replicate_nil {γ : Type} (n row : Nat) :
    (List.replicate n ([] : List γ)).getD row [] = [] := by
  rcases Nat.lt_or_ge row n with hr | hr
  · rw [List.getD_eq_getElem _ _ (by simpa using hr)]
    simp
  · rw [List.getD_eq_default _ _ (by simpa using hr)]

theorem pastryStep_singleton (L t nid : Nat) (visited : List Nat)
    (hnid : nid < MOD) : pastryStep L [nid] t nid visited = nid := by
  have hsort : sortNat [nid] = [nid] := rfl
  have hleaf : leafRebuild L nid [nid] = [] := by
    refine List.eq_nil_iff_forall_not_mem.mpr (fun z hz => ?_)
    rw [leafRebuild_mem_iff L nid [nid] (List.sorted_singleton nid)
      (fun w hw => by simp only [List.mem_singleton] at hw; exact hw ▸ hnid)
      (by simp) z] at hz
    obtain ⟨h1, h2, -⟩ := hz
    simp only [List.mem_singleton] at h1
    exact h2 h1
  have hrt : rtRebuild nid [nid] = List.replicate ID_HEX_LEN [] := by
    unfold rtRebuild
    simp [rtInsert]
  have hhit : rtHit nid t (List.replicate ID_HEX_LEN []) visited = none := by
    unfold rtHit rtEntry
    split_ifs with h1 h2
    · rw [getD_replicate_nil]
      rfl
    · rfl
    · rfl
  have hrow : ∀ p, rtRowCandidates (List.replicate ID_HEX_LEN []) p = [] := by
    intro p
    unfold rtRowCandidates
    split_ifs with h1
    · rw [getD_replicate_nil]
      rfl
    · rfl
  unfold pastryStep
  rw [hsort, hleaf, hrt]
  unfold next_hop
  rw [if_neg (by simp [closest_to, pyMinBy])]
  rw [hhit]
  rw [hrow]
  unfold fallbackStep candidates_with_self
  simp

theorem pastryRoute_singleton (L nid t : Nat) (hnid : nid < MOD) :
    pastryRoute L [nid] nid t = some (nid, 0) := by
  unfold pastryRoute
  rw [show ([nid] : List Nat).length = 0 + 1 from rfl, pastryRouteGo_succ,
    if_pos (pastryStep_singleton L t nid _ hnid)]

/-- C9: `join()` on an empty network of either overlay creates exactly one
node, returns 0 and records 0 under "join"; the data operations on an empty
network fault (`none`); on the resulting one-node network, insert and lookup
succeed with 0 hops. -/
theorem claim_C9 :
    (∀ fuel net, net.nodes = [] → ∃ net' : ChordNet, ∃ nid,
      chordJoin fuel net = some (net', 0) ∧ net'.nodes = [(nid, [])] ∧
      net'.metrics = Metrics.record net.metrics "join" 0) ∧
    (∀ h fuel net, net.nodes = [] → ∃ net' : PastryNet, ∃ nid,
      pastryJoin h fuel net = some (net', 0) ∧ net'.nodes = [(nid, [])] ∧
      net'.metrics = Metrics.record net.metrics "join" 0) ∧
    (∀ h net key v, net.nodes = [] →
      chordInsert h net key v = none ∧ chordLookup h net key = none ∧
      chordUpdate h net key v = none ∧ chordDelete h net key = none) ∧
    (∀ h net key v, net.nodes = [] →
      pastryInsert h net key v = none ∧ pastryLookup h net key = none ∧
      pastryUpdate h net key v = none ∧ pastryDelete h net key = none) ∧
    (∀ h net nid st key v, ChordConsistent net → net.nodes = [(nid, st)] →
      (chordInsert h net key v).map (fun p => p.2) = some 0 ∧
      (chordLookup h net key).map (fun q => q.2.2) = some 0) ∧
    (∀ h net nid st key v, PastryConsistent net → net.nodes = [(nid, st)] →
      (pastryInsert h net key v).map (fun p => p.2) = some 0 ∧
      (pastryLookup h net key).map (fun q => q.2.2) = some 0) := by
  refine ⟨?_, ?_, ?_, ?_, ?_, ?_⟩
  · intro fuel net hne
    unfold chordJoin
    rw [if_pos hne]
    exact ⟨_, _, rfl, rfl, rfl⟩
  · intro h fuel net hne
    unfold pastryJoin
    rw [if_pos hne]
    exact ⟨_, _, rfl, rfl, rfl⟩
  · intro h net key v hne
    refine ⟨?_, ?_, ?_, ?_⟩
    · unfold chordInsert
      rw [if_pos hne]
    · unfold chordLookup
      rw [if_pos hne]
    · unfold chordUpdate
      rw [if_pos hne]
    · unfold chordDelete
      rw [if_pos hne]
  · intro h net key v hne
    refine ⟨?_, ?_, ?_, ?_⟩
    · unfold pastryInsert
      rw [if_pos hne]
    · unfold pastryLookup
      rw [if_pos hne]
    · unfold pastryUpdate
      rw [if_pos hne]
    · unfold pastryDelete
      rw [if_pos hne]
  · intro h net nid st key v hc hnodes
    have hsid : net.sorted_ids = [nid] := by
      rw [hc.1, hnodes]
      rfl
    have hne : net.nodes ≠ [] := by
      rw [hnodes]
      simp
    have hstart : nth [nid] (net.rngF net.rngK % ([nid] : List Nat).length) = nid := by
      simp [nth, Nat.mod_one]
    constructor
    · unfold chordInsert
      rw [if_neg hne]
      dsimp only [chordRandomNode, rngChoice]
      rw [hsid, hstart, chordRoute_singleton]
      rfl
    · unfold chordLookup
      rw [if_neg hne]
      dsimp only [chordRandomNode, rngChoice]
      rw [hsid, hstart, chordRoute_singleton]
      rfl
  · intro h net nid st key v hc hnodes
    have hkeys : kvKeys net.nodes = [nid] := by
      rw [hnodes]
      rfl
    have hnid : nid < MOD := hc.2 nid (by rw [hkeys]; simp)
    have hne : net.nodes ≠ [] := by
      rw [hnodes]
      simp
    have hstart : nth [nid] (net.rngF net.rngK % ([nid] : List Nat).length) = nid := by
      simp [nth, Nat.mod_one]
    constructor
    · unfold pastryInsert
      rw [if_neg hne]
      dsimp only [pastryRandomNode, rngChoice]
      rw [hkeys, hstart, pastryRoute_singleton _ _ _ hnid]
      rfl
    · unfold pastryLookup
      rw [if_neg hne]
      dsimp only [pastryRandomNode, rngChoice]
      rw [hkeys, hstart, pastryRoute_singleton _ _ _ hnid]
      rfl

def C9cnet : ChordNet :=
  { m_bits := 4, nodes := [], sorted_ids := [], metrics := [],
    rngF := fun _ => 3, rngK := 0 }

def C9snet : ChordNet :=
  { m_bits := 4, nodes := [(3, [])], sorted_ids := [3], metrics := [],
    rngF := fun _ => 0, rngK := 0 }

theorem claim_C9_witness :
    (∃ net' : ChordNet, ∃ nid, chordJoin 5 C9cnet = some (net', 0) ∧
      net'.nodes = [(nid, [])] ∧
      net'.metrics = Metrics.record C9cnet.metrics "join" 0) ∧
    ((chordInsert (fun _ => 6) C9snet "k" ⟨"k", 1⟩).map (fun p => p.2) = some 0 ∧
     (chordLookup (fun _ => 6) C9snet "k").map (fun q => q.2.2) = some 0) :=
  ⟨claim_C9.1 5 C9cnet rfl,
   claim_C9.2.2.2.2.1 (fun _ => 6) C9snet 3 [] "k" ⟨"k", 1⟩
     ⟨by decide, by decide, by decide⟩ rfl⟩

/-! ### Workloads and determinism -/

/-- One contract operation of a workload (`leave` carries the optional
explicit node id, `none` = random). -/
inductive NetOp where
  | insertOp (key : String) (value : Rec)
  | lookupOp (key : String)
  | updateOp (key : String) (value : Rec)
  | deleteOp (key : String)
  | joinOp
  | leaveOp (arg : Option Nat)

def chordRunOp (h : String → Nat) (fuel : Nat) (net : ChordNet) :
    NetOp → Option (ChordNet × Nat)
  | .insertOp key v => chordInsert h net key v
  | .lookupOp key => (chordLookup h net key).map (fun q => (q.2.1, q.2.2))
  | .updateOp key v => chordUpdate h net key v
  | .deleteOp key => chordDelete h net key
  | .joinOp => chordJoin fuel net
  | .leaveOp arg => some (chordLeave net arg)

/-- Run a workload, reporting each operation's hop count (an unhandled
exception, modelled `none`, ends the run). -/
def chordRun (h : String → Nat) (fuel : Nat) : ChordNet → List NetOp → List (Option Nat)
  | _, [] => []
  | net, op :: ops =>
      match chordRunOp h fuel net op with
      | none => [none]
      | some (net', hops) => some hops :: chordRun h fuel net' ops

def pastryRunOp (h : String → Nat) (fuel : Nat) (net : PastryNet) :
    NetOp → Option (PastryNet × Nat)
  | .insertOp key v => pastryInsert h net key v
  | .lookupOp key => (pastryLookup h net key).map (fun q => (q.2.1, q.2.2))
  | .updateOp key v => pastryUpdate h net key v
  | .deleteOp key => pastryDelete h net key
  | .joinOp => pastryJoin h fuel net
  | .leaveOp arg => pastryLeave h net arg

def pastryRun (h : String → Nat) (fuel : Nat) :
    PastryNet → List NetOp → List (Option Nat)
  | _, [] => []
  | net, op :: ops =>
      match pastryRunOp h fuel net op with
      | none => [none]
      | some (net', hops) => some hops :: pastryRun h fuel net' ops

theorem chordBuild_eq (mt : Nat → Nat → Nat) (fuel : Nat) (net : ChordNet)
    (n seed : Nat) :
    chordBuild mt fuel net n seed =
      (buildIdsGo (mt seed) net.m_bits n fuel 0 []).map (fun p =>
        { m_bits := net.m_bits
          nodes := p.1.map (fun nid => (nid, []))
          sorted_ids := sortNat (kvKeys (p.1.map (fun nid =>
            (nid, ([] : List (Nat × List Rec))))))
          metrics := []
          rngF := mt seed
          rngK := p.2 }) := by
  unfold chordBuild
  cases buildIdsGo (mt seed) net.m_bits n fuel 0 [] with
  | none => rfl
  | some p => rfl

theorem pastryBuild_eq (mt : Nat → Nat → Nat) (fuel : Nat) (net : PastryNet)
    (n seed : Nat) :
    pastryBuild mt fuel net n seed =
      (buildIdsGo (mt seed) ID_BITS n fuel 0 []).map (fun p =>
        { leaf_L := net.leaf_L
          nodes := p.1.map (fun nid => (nid, []))
          metrics := []
          rngF := mt seed
          rngK := p.2 }) := by
  unfold pastryBuild
  cases buildIdsGo (mt seed) ID_BITS n fuel 0 [] with
  | none => rfl
  | some p => rfl

/-- C8: two independent Network instances of the same overlay (same
construction parameters), given the same seed in `build()` and the same
workload, report identical hop counts for every operation. -/
theorem claim_C8 :
    (∀ h fuel mt n seed ops, ∀ netA netB : ChordNet,
      netA.m_bits = netB.m_bits →
      (chordBuild mt fuel netA n seed).map (fun net => chordRun h fuel net ops) =
      (chordBuild mt fuel netB n seed).map (fun net => chordRun h fuel net ops)) ∧
    (∀ h fuel mt n seed ops, ∀ netA netB : PastryNet,
      netA.leaf_L = netB.leaf_L →
      (pastryBuild mt fuel netA n seed).map (fun net => pastryRun h fuel net ops) =
      (pastryBuild mt fuel netB n seed).map (fun net => pastryRun h fuel net ops)) := by
  constructor
  · intro h fuel mt n seed ops netA netB hm
    rw [chordBuild_eq, chordBuild_eq, hm]
  · intro h fuel mt n seed ops netA netB hm
    rw [pastryBuild_eq, pastryBuild_eq, hm]

def C8netA : ChordNet :=
  { m_bits := 4, nodes := [(7, [(3, [⟨"x", 0⟩])])], sorted_ids := [7],
    metrics := [("insert", [2])], rngF := fun _ => 5, rngK := 9 }

def C8netB : ChordNet :=
  { m_bits := 4, nodes := [], sorted_ids := [], metrics := [],
    rngF := fun _ => 0, rngK := 0 }

theorem claim_C8_witness :
    (chordBuild (fun _ k => k) 8 C8netA 2 0).map (fun net =>
      chordRun (fun _ => 6) 8 net [NetOp.joinOp, NetOp.insertOp "k" ⟨"k", 1⟩]) =
    (chordBuild (fun _ k => k) 8 C8netB 2 0).map (fun net =>
      chordRun (fun _ => 6) 8 net [NetOp.joinOp, NetOp.insertOp "k" ⟨"k", 1⟩]) :=
  claim_C8.1 (fun _ => 6) 8 (fun _ k => k) 2 0
    [NetOp.joinOp, NetOp.insertOp "k" ⟨"k", 1⟩] C8netA C8netB rfl

/-! ### `Metrics.summary` -/

theorem summary_cons (a : String) (vs : List Nat) (rest : Metrics) :
    Metrics.summary ((a, vs) :: rest) =
      if vs = [] then Metrics.summary rest
      else (a, { count := (sortNat vs).length
                 mean := ((sortNat vs).sum : ℚ) / ((sortNat vs).length : ℚ)
                 median := nth (sortNat vs) ((sortNat vs).length / 2)
                 p95 := nth (sortNat vs) (p95Index (sortNat vs).length) }) ::
        Metrics.summary rest := by
  unfold Metrics.summary
  by_cases hvs : vs = []
  · rw [if_pos hvs, List.filter_cons_of_neg (by simp [hvs])]
  · rw [if_neg hvs, List.filter_cons_of_pos (by simp [hvs])]
    rfl

theorem kvGet_summary_none (ms : Metrics) (op : String) (hop : op ∉ kvKeys ms) :
    kvGet (Metrics.summary ms) op = none := by
  rw [kvGet_eq_none]
  intro hmem
  apply hop
  unfold Metrics.summary kvKeys at hmem
  rw [List.map_map] at hmem
  obtain ⟨p, hp, hpe⟩ := List.mem_map.mp hmem
  have hp2 := List.mem_of_mem_filter hp
  have hp1 : p.1 = op := hpe
  exact hp1 ▸ List.mem_map_of_mem Prod.fst hp2

/-- C4: `Metrics.summary` has an entry exactly for each op with at least one
observation; the entry holds the count, the arithmetic mean (exact rational),
and the sorted observations at indices `⌊n/2⌋` (median) and `⌊0.95·(n−1)⌋`
(p95, equal to `⌊19(n−1)/20⌋`), both raw observed integers. -/
theorem claim_C4 (ms : Metrics) (hnd : (kvKeys ms).Nodup) (op : String) :
    (∀ values, kvGet ms op = some values → values ≠ [] →
      kvGet (Metrics.summary ms) op = some
        { count := values.length
          mean := (values.sum : ℚ) / (values.length : ℚ)
          median := nth (sortNat values) (values.length / 2)
          p95 := nth (sortNat values) (19 * (values.length - 1) / 20) }) ∧
    (kvGet ms op = none → kvGet (Metrics.summary ms) op = none) ∧
    (kvGet ms op = some [] → kvGet (Metrics.summary ms) op = none) := by
  induction ms with
  | nil =>
      refine ⟨?_, ?_, ?_⟩
      · intro values hv
        simp [kvGet] at hv
      · intro hv
        rfl
      · intro hv
        simp [kvGet] at hv
  | cons p rest ih =>
      obtain ⟨a, vs⟩ := p
      have hnd2 : (kvKeys rest).Nodup := (List.nodup_cons.mp hnd).2
      have hanotin : a ∉ kvKeys rest := (List.nodup_cons.mp hnd).1
      obtain ⟨ih1, ih2, ih3⟩ := ih hnd2
      by_cases hak : a = op
      · subst hak
        refine ⟨?_, ?_, ?_⟩
        · intro values hv hvne
          have hveq : vs = values := by
            simpa [kvGet] using hv
          subst hveq
          rw [summary_cons, if_neg hvne]
          simp only [kvGet, if_pos rfl, Option.some.injEq]
          have hlen : (sortNat vs).length = vs.length := (sortNat_perm vs).length_eq
          have hsum : (sortNat vs).sum = vs.sum := (sortNat_perm vs).sum_eq
          rw [hlen, hsum]
          rfl
        · intro hv
          simp [kvGet] at hv
        · intro hv
          have hveq : vs = [] := by
            simpa [kvGet] using hv
          rw [summary_cons, if_pos hveq]
          exact kvGet_summary_none rest a hanotin
      · have hget : kvGet ((a, vs) :: rest) op = kvGet rest op := by
          simp [kvGet, hak]
        refine ⟨?_, ?_, ?_⟩
        · intro values hv hvne
          rw [hget] at hv
          rw [summary_cons]
          split_ifs with hvs
          · exact ih1 values hv hvne
          · simp only [kvGet, if_neg hak]
            exact ih1 values hv hvne
        · intro hv
          rw [hget] at hv
          rw [summary_cons]
          split_ifs with hvs
          · exact ih2 hv
          · simp only [kvGet, if_neg hak]
            exact ih2 hv
        · intro hv
          rw [hget] at hv
          rw [summary_cons]
          split_ifs with hvs
          · exact ih3 hv
          · simp only [kvGet, if_neg hak]
            exact ih3 hv

def C4ms : Metrics := [("insert", [3, 1, 2]), ("lookup", [])]

theorem claim_C4_witness :
    kvGet (Metrics.summary C4ms) "insert" = some
      { count := ([3, 1, 2] : List Nat).length
        mean := (([3, 1, 2] : List Nat).sum : ℚ) / (([3, 1, 2] : List Nat).length : ℚ)
        median := nth (sortNat [3, 1, 2]) (([3, 1, 2] : List Nat).length / 2)
        p95 := nth (sortNat [3, 1, 2]) (19 * (([3, 1, 2] : List Nat).length - 1) / 20) } ∧
    kvGet (Metrics.summary C4ms) "lookup" = none ∧
    kvGet (Metrics.summary C4ms) "delete" = none :=
  ⟨(claim_C4 C4ms (by decide) "insert").1 [3, 1, 2] rfl (by decide),
   (claim_C4 C4ms (by decide) "lookup").2.2 rfl,
   (claim_C4 C4ms (by decide) "delete").2.1 rfl⟩

/-! ### Stored-key multisets (claim C3)

For the ring overlay the unit of storage is one record under a numeric
`key_id` (a store maps `key_id` to a record list), so the stored-key
multiset counts each `key_id` once per record.  For the prefix overlay the
unit is one string key per node store. -/

def entryKeys (st : List (Nat × List Rec)) : List Nat :=
  st.bind (fun q => List.replicate q.2.length q.1)

def chordKeyList (nodes : List (Nat × List (Nat × List Rec))) : List Nat :=
  nodes.bind (fun p => entryKeys p.2)

def pastryKeyList (nodes : List (Nat × List (String × Rec))) : List String :=
  nodes.bind (fun p => kvKeys p.2)

/-- One topology-change call of a join/leave workload. -/
inductive JLOp where
  | join
  | leave (arg : Option Nat)

/-- Run a join/leave workload on the ring overlay, stopping (`none`) if a
join exhausts its draw fuel or a leave empties the network. -/
def chordRunJLSafe (fuel : Nat) : ChordNet → List JLOp → Option ChordNet
  | net, [] => some net
  | net, .join :: ops =>
      match chordJoin fuel net with
      | none => none
      | some (net', _) => chordRunJLSafe fuel net' ops
  | net, .leave arg :: ops =>
      if (chordLeave net arg).1.nodes = [] then none
      else chordRunJLSafe fuel (chordLeave net arg).1 ops

/-- Run a join/leave workload on the prefix overlay, stopping (`none`) if a
join exhausts its draw fuel or a leave empties the network. -/
def pastryRunJLSafe (h : String → Nat) (fuel : Nat) :
    PastryNet → List JLOp → Option PastryNet
  | net, [] => some net
  | net, .join :: ops =>
      match pastryJoin h fuel net with
      | none => none
      | some (net', _) => pastryRunJLSafe h fuel net' ops
  | net, .leave arg :: ops =>
      match pastryLeave h net arg with
      | none => none
      | some (net', _) =>
          if net'.nodes = [] then none else pastryRunJLSafe h fuel net' ops

theorem kvGet_some_of_mem {α β : Type} [DecidableEq α] (l : List (α × β)) (k : α)
    (h : k ∈ kvKeys l) : ∃ v, kvGet l k = some v := by
  cases hg : kvGet l k with
  | some v => exact ⟨v, rfl⟩
  | none => exact absurd h ((kvGet_eq_none l k).mp hg)

theorem kvSet_mem {α β : Type} [DecidableEq α] (l : List (α × β)) (k : α) (v : β)
    (p : α × β) (hp : p ∈ kvSet l k v) : p ∈ l ∨ p = (k, v) := by
  induction l with
  | nil =>
      unfold kvSet at hp
      rw [List.mem_singleton] at hp
      exact Or.inr hp
  | cons q rest ih =>
      obtain ⟨a, b⟩ := q
      unfold kvSet at hp
      by_cases hak : a = k
      · rw [if_pos hak, List.mem_cons] at hp
        rcases hp with hp1 | hp1
        · subst hak
          exact Or.inr hp1
        · exact Or.inl (List.mem_cons_of_mem _ hp1)
      · rw [if_neg hak, List.mem_cons] at hp
        rcases hp with hp1 | hp1
        · exact Or.inl (by rw [hp1]; exact List.mem_cons_self _ _)
        · rcases ih hp1 with h1 | h1
          · exact Or.inl (List.mem_cons_of_mem _ h1)
          · exact Or.inr h1

theorem entryKeys_cons (a : Nat) (b : List Rec) (rest : List (Nat × List Rec)) :
    entryKeys ((a, b) :: rest) = List.replicate b.length a ++ entryKeys rest := rfl

theorem chordKeyList_cons (a : Nat) (b : List (Nat × List Rec))
    (rest : List (Nat × List (Nat × List Rec))) :
    chordKeyList ((a, b) :: rest) = entryKeys b ++ chordKeyList rest := rfl

theorem pastryKeyList_cons (a : Nat) (b : List (String × Rec))
    (rest : List (Nat × List (String × Rec))) :
    pastryKeyList ((a, b) :: rest) = kvKeys b ++ pastryKeyList rest := rfl

theorem multiset_coe_append {γ : Type} (l1 l2 : List γ) :
    ((l1 ++ l2 : List γ) : Multiset γ) = (l1 : Multiset γ) + (l2 : Multiset γ) := rfl

theorem entryKeys_append (s t : List (Nat × List Rec)) :
    entryKeys (s ++ t) = entryKeys s ++ entryKeys t := by
  induction s with
  | nil => rfl
  | cons q rest ih =>
      obtain ⟨a, b⟩ := q
      rw [List.cons_append, entryKeys_cons, entryKeys_cons, ih, List.append_assoc]

theorem entryKeys_kvSet_some (st : List (Nat × List Rec)) (k : Nat)
    (vs w : List Rec) (hg : kvGet st k = some vs) :
    (entryKeys (kvSet st k w) : Multiset Nat) + (List.replicate vs.length k) =
      (entryKeys st : Multiset Nat) + (List.replicate w.length k) := by
  induction st with
  | nil => simp [kvGet] at hg
  | cons q rest ih =>
      obtain ⟨a, b⟩ := q
      by_cases hak : a = k
      · subst hak
        have hb : b = vs := by simpa [kvGet] using hg
        subst hb
        rw [show kvSet ((a, b) :: rest) a w = (a, w) :: rest from by simp [kvSet]]
        rw [entryKeys_cons, entryKeys_cons, multiset_coe_append,
          multiset_coe_append]
        abel
      · have hg2 : kvGet rest k = some vs := by simpa [kvGet, hak] using hg
        rw [show kvSet ((a, b) :: rest) k w = (a, b) :: kvSet rest k w from by
          simp [kvSet, hak]]
        rw [entryKeys_cons, entryKeys_cons, multiset_coe_append,
          multiset_coe_append, add_assoc, add_assoc, ih hg2]

theorem entryKeys_kvSet_none (st : List (Nat × List Rec)) (k : Nat)
    (w : List Rec) (hg : kvGet st k = none) :
    (entryKeys (kvSet st k w) : Multiset Nat) =
      (entryKeys st : Multiset Nat) + (List.replicate w.length k) := by
  induction st with
  | nil => simp [kvSet, entryKeys]
  | cons q rest ih =>
      obtain ⟨a, b⟩ := q
      by_cases hak : a = k
      · subst hak
        simp [kvGet] at hg
      · have hg2 : kvGet rest k = none := by simpa [kvGet, hak] using hg
        rw [show kvSet ((a, b) :: rest) k w = (a, b) :: kvSet rest k w from by
          simp [kvSet, hak]]
        rw [entryKeys_cons, entryKeys_cons, multiset_coe_append,
          multiset_coe_append, ih hg2, add_assoc]

theorem chordKeyList_kvSet (nodes : List (Nat × List (Nat × List Rec))) (d : Nat)
    (st st2 : List (Nat × List Rec)) (hg : kvGet nodes d = some st) :
    (chordKeyList (kvSet nodes d st2) : Multiset Nat) + (entryKeys st) =
      (chordKeyList nodes : Multiset Nat) + (entryKeys st2) := by
  induction nodes with
  | nil => simp [kvGet] at hg
  | cons q rest ih =>
      obtain ⟨a, b⟩ := q
      by_cases hak : a = d
      · subst hak
        have hb : b = st := by simpa [kvGet] using hg
        subst hb
        rw [show kvSet ((a, b) :: rest) a st2 = (a, st2) :: rest from by
          simp [kvSet]]
        rw [chordKeyList_cons, chordKeyList_cons, multiset_coe_append,
          multiset_coe_append]
        abel
      · have hg2 : kvGet rest d = some st := by simpa [kvGet, hak] using hg
        rw [show kvSet ((a, b) :: rest) d st2 = (a, b) :: kvSet rest d st2 from by
          simp [kvSet, hak]]
        rw [chordKeyList_cons, chordKeyList_cons, multiset_coe_append,
          multiset_coe_append, add_assoc, add_assoc, ih hg2]

theorem pastryKeyList_kvSet (nodes : List (Nat × List (String × Rec))) (d : Nat)
    (st st2 : List (String × Rec)) (hg : kvGet nodes d = some st) :
    (pastryKeyList (kvSet nodes d st2) : Multiset String) + (kvKeys st) =
      (pastryKeyList nodes : Multiset String) + (kvKeys st2) := by
  induction nodes with
  | nil => simp [kvGet] at hg
  | cons q rest ih =>
      obtain ⟨a, b⟩ := q
      by_cases hak : a = d
      · subst hak
        have hb : b = st := by simpa [kvGet] using hg
        subst hb
        rw [show kvSet ((a, b) :: rest) a st2 = (a, st2) :: rest from by
          simp [kvSet]]
        rw [pastryKeyList_cons, pastryKeyList_cons, multiset_coe_append,
          multiset_coe_append]
        abel
      · have hg2 : kvGet rest d = some st := by simpa [kvGet, hak] using hg
        rw [show kvSet ((a, b) :: rest) d st2 = (a, b) :: kvSet rest d st2 from by
          simp [kvSet, hak]]
        rw [pastryKeyList_cons, pastryKeyList_cons, multiset_coe_append,
          multiset_coe_append, add_assoc, add_assoc, ih hg2]

theorem chordKeyList_clear (nodes : List (Nat × List (Nat × List Rec))) :
    chordKeyList (chordClearStores nodes) = [] := by
  induction nodes with
  | nil => rfl
  | cons q rest ih =>
      obtain ⟨a, b⟩ := q
      show chordKeyList ((a, []) :: chordClearStores rest) = []
      rw [chordKeyList_cons, ih]
      rfl

theorem pastryKeyList_clear (nodes : List (Nat × List (String × Rec))) :
    pastryKeyList (pastryClearStores nodes) = [] := by
  induction nodes with
  | nil => rfl
  | cons q rest ih =>
      obtain ⟨a, b⟩ := q
      show pastryKeyList ((a, []) :: pastryClearStores rest) = []
      rw [pastryKeyList_cons, ih]
      rfl

theorem kvKeys_pastryCollect (nodes : List (Nat × List (String × Rec))) :
    kvKeys (pastryCollect nodes) = pastryKeyList nodes := by
  induction nodes with
  | nil => rfl
  | cons q rest ih =>
      obtain ⟨a, b⟩ := q
      show kvKeys (b ++ pastryCollect rest) = pastryKeyList ((a, b) :: rest)
      rw [pastryKeyList_cons, ← ih]
      unfold kvKeys
      rw [List.map_append]

theorem kvGet_mem_pair {α β : Type} [DecidableEq α] (l : List (α × β)) (k : α)
    (v : β) (hg : kvGet l k = some v) : (k, v) ∈ l := by
  induction l with
  | nil => simp [kvGet] at hg
  | cons q rest ih =>
      obtain ⟨a, b⟩ := q
      by_cases hak : a = k
      · subst hak
        have hb : b = v := by simpa [kvGet] using hg
        subst hb
        exact List.mem_cons_self _ _
      · have hg2 : kvGet rest k = some v := by simpa [kvGet, hak] using hg
        exact List.mem_cons_of_mem _ (ih hg2)

theorem kvGet_mem_key {α β : Type} [DecidableEq α] (l : List (α × β)) (k : α)
    (v : β) (hg : kvGet l k = some v) : k ∈ kvKeys l := by
  by_contra hmem
  rw [← kvGet_eq_none l k] at hmem
  rw [hmem] at hg
  exact absurd hg (by simp)

theorem collectStep_some (acc : List (Nat × List Rec)) (k : Nat)
    (vals vs : List Rec) (hg : kvGet acc k = some vs) :
    collectStep acc (k, vals) = kvSet acc k (vs ++ vals) := by
  unfold collectStep
  dsimp only
  rw [hg]

theorem collectStep_none (acc : List (Nat × List Rec)) (k : Nat)
    (vals : List Rec) (hg : kvGet acc k = none) :
    collectStep acc (k, vals) = acc ++ [(k, vals)] := by
  unfold collectStep
  dsimp only
  rw [hg]

theorem collectInner_multiset (st : List (Nat × List Rec)) :
    ∀ acc : List (Nat × List Rec),
      (entryKeys (st.foldl collectStep acc) : Multiset Nat) =
      (entryKeys acc : Multiset Nat) + (entryKeys st) := by
  induction st with
  | nil =>
      intro acc
      show (entryKeys acc : Multiset Nat) = (entryKeys acc : Multiset Nat) + ↑([] : List Nat)
      simp
  | cons q rest ih =>
      obtain ⟨k, vals⟩ := q
      intro acc
      rw [List.foldl_cons]
      rw [entryKeys_cons, multiset_coe_append]
      cases hg : kvGet acc k with
      | some vs =>
          rw [collectStep_some acc k vals vs hg, ih]
          have h1 := entryKeys_kvSet_some acc k vs (vs ++ vals) hg
          have h2 : (List.replicate (vs ++ vals).length k : Multiset Nat) =
              (List.replicate vs.length k : Multiset Nat) +
                (List.replicate vals.length k : Multiset Nat) := by
            rw [List.length_append, List.replicate_add, multiset_coe_append]
          rw [h2] at h1
          have h3 : (entryKeys (kvSet acc k (vs ++ vals)) : Multiset Nat) =
              (entryKeys acc : Multiset Nat) +
                (List.replicate vals.length k : Multiset Nat) := by
            have h4 : (entryKeys (kvSet acc k (vs ++ vals)) : Multiset Nat) +
                (List.replicate vs.length k : Multiset Nat) =
                ((entryKeys acc : Multiset Nat) +
                  (List.replicate vals.length k : Multiset Nat)) +
                (List.replicate vs.length k : Multiset Nat) := by
              rw [h1]
              abel
            exact add_right_cancel h4
          rw [h3]
          abel
      | none =>
          rw [collectStep_none acc k vals hg, ih, entryKeys_append,
            multiset_coe_append]
          have h5 : (entryKeys [(k, vals)] : Multiset Nat) =
              (List.replicate vals.length k : Multiset Nat) := by
            show ((List.replicate vals.length k ++ [] : List Nat) : Multiset Nat) = _
            simp
          rw [h5]
          abel

theorem collectInner_nodup (st : List (Nat × List Rec)) :
    ∀ acc : List (Nat × List Rec), (kvKeys acc).Nodup →
      (kvKeys (st.foldl collectStep acc)).Nodup := by
  induction st with
  | nil => intro acc hnd; exact hnd
  | cons q rest ih =>
      obtain ⟨k, vals⟩ := q
      intro acc hnd
      rw [List.foldl_cons]
      cases hg : kvGet acc k with
      | some vs =>
          rw [collectStep_some acc k vals vs hg]
          refine ih _ ?_
          rw [kvKeys_kvSet_of_mem _ _ _ (kvGet_mem_key acc k vs hg)]
          exact hnd
      | none =>
          rw [collectStep_none acc k vals hg]
          refine ih _ ?_
          rw [show kvKeys (acc ++ [(k, vals)]) = kvKeys acc ++ [k] from by
            simp [kvKeys]]
          refine List.Nodup.append hnd (List.nodup_singleton _) ?_
          intro a ha hmem
          simp only [List.mem_singleton] at hmem
          subst hmem
          exact ((kvGet_eq_none acc a).mp hg) ha

theorem chordCollect_multiset (nodes : List (Nat × List (Nat × List Rec))) :
    (entryKeys (chordCollect nodes) : Multiset Nat) =
      (chordKeyList nodes : Multiset Nat) := by
  unfold chordCollect
  suffices h : ∀ acc : List (Nat × List Rec),
      (entryKeys (nodes.foldl (fun acc p => p.2.foldl collectStep acc) acc) :
        Multiset Nat) =
      (entryKeys acc : Multiset Nat) + (chordKeyList nodes : Multiset Nat) by
    have h0 := h []
    simpa using h0
  induction nodes with
  | nil =>
      intro acc
      show (entryKeys acc : Multiset Nat) = _ + ↑(chordKeyList [])
      simp [chordKeyList]
  | cons p rest ih =>
      obtain ⟨nid, st⟩ := p
      intro acc
      rw [List.foldl_cons]
      dsimp only
      rw [ih, collectInner_multiset, chordKeyList_cons, multiset_coe_append]
      abel

theorem chordCollect_nodup (nodes : List (Nat × List (Nat × List Rec))) :
    (kvKeys (chordCollect nodes)).Nodup := by
  unfold chordCollect
  suffices h : ∀ acc : List (Nat × List Rec), (kvKeys acc).Nodup →
      (kvKeys (nodes.foldl (fun acc p => p.2.foldl collectStep acc) acc)).Nodup by
    exact h [] (by simp [kvKeys])
  induction nodes with
  | nil => intro acc hnd; exact hnd
  | cons p rest ih =>
      obtain ⟨nid, st⟩ := p
      intro acc hnd
      rw [List.foldl_cons]
      dsimp only
      exact ih _ (collectInner_nodup st acc hnd)

theorem chordClearStores_mem (nodes : List (Nat × List (Nat × List Rec)))
    (p : Nat × List (Nat × List Rec)) (hp : p ∈ chordClearStores nodes) :
    p.2 = [] := by
  unfold chordClearStores at hp
  obtain ⟨q, -, hq⟩ := List.mem_map.mp hp
  rw [← hq]

theorem pastryClearStores_mem (nodes : List (Nat × List (String × Rec)))
    (p : Nat × List (String × Rec)) (hp : p ∈ pastryClearStores nodes) :
    p.2 = [] := by
  unfold pastryClearStores at hp
  obtain ⟨q, -, hq⟩ := List.mem_map.mp hp
  rw [← hq]

theorem chordReinsert_multiset : ∀ (entries : List (Nat × List Rec))
    (net : ChordNet), net.sorted_ids ≠ [] →
    (∀ x, x ∈ net.sorted_ids → x ∈ kvKeys net.nodes) →
    (kvKeys entries).Nodup →
    (∀ k, k ∈ kvKeys entries → ∀ p, p ∈ net.nodes → kvGet p.2 k = none) →
    (chordKeyList (chordReinsert net entries).1.nodes : Multiset Nat) =
      (chordKeyList net.nodes : Multiset Nat) + (entryKeys entries) := by
  intro entries
  induction entries with
  | nil =>
      intro net _ _ _ _
      show (chordKeyList net.nodes : Multiset Nat) = _ + ↑(entryKeys [])
      simp [entryKeys]
  | cons e rest ih =>
      obtain ⟨key_id, vals⟩ := e
      intro net hne hsub hnd hfresh
      have hknotin : key_id ∉ kvKeys rest := (List.nodup_cons.mp hnd).1
      have hndrest : (kvKeys rest).Nodup := (List.nodup_cons.mp hnd).2
      have hktop : key_id ∈ kvKeys ((key_id, vals) :: rest) :=
        List.mem_cons_self key_id (kvKeys rest)
      have hdest : (chordRoute net.m_bits net.sorted_ids
          (rngChoice net.rngF net.rngK net.sorted_ids).1 key_id).1 ∈
            net.sorted_ids :=
        chordRoute_dest_mem _ _ _ _ hne (rngChoice_mem _ _ _ hne)
      have hdmem := hsub _ hdest
      obtain ⟨st0, hst0⟩ := kvGet_some_of_mem net.nodes _ hdmem
      have hMN : ∀ dest st1, kvGet net.nodes dest = some st1 →
          kvGet st1 key_id = none →
          (chordKeyList (kvSet net.nodes dest
            (kvSet ((kvGet net.nodes dest).getD []) key_id vals)) : Multiset Nat) =
          (chordKeyList net.nodes : Multiset Nat) +
            (List.replicate vals.length key_id : Multiset Nat) := by
        intro dest st1 hst1 hfr
        have hgetd : (kvGet net.nodes dest).getD [] = st1 := by
          rw [hst1]
          rfl
        have hEK2 : (entryKeys (kvSet ((kvGet net.nodes dest).getD [])
            key_id vals) : Multiset Nat) =
            (entryKeys st1 : Multiset Nat) +
              (List.replicate vals.length key_id : Multiset Nat) := by
          rw [hgetd]
          exact entryKeys_kvSet_none st1 key_id vals hfr
        have h1 := chordKeyList_kvSet net.nodes dest st1
          (kvSet ((kvGet net.nodes dest).getD []) key_id vals) hst1
        rw [hEK2] at h1
        have h2 : ((chordKeyList net.nodes : Multiset Nat) +
            (List.replicate vals.length key_id : Multiset Nat)) +
            (entryKeys st1 : Multiset Nat) =
            (chordKeyList net.nodes : Multiset Nat) +
            ((entryKeys st1 : Multiset Nat) +
              (List.replicate vals.length key_id : Multiset Nat)) := by
          abel
        exact add_right_cancel (h1.trans h2.symm)
      have hfin : ∀ dest st1, kvGet net.nodes dest = some st1 →
          kvGet st1 key_id = none →
          (chordKeyList (kvSet net.nodes dest
            (kvSet ((kvGet net.nodes dest).getD []) key_id vals)) : Multiset Nat) +
            (entryKeys rest : Multiset Nat) =
          (chordKeyList net.nodes : Multiset Nat) +
            (entryKeys ((key_id, vals) :: rest) : Multiset Nat) := by
        intro dest st1 hst1 hfr
        rw [hMN dest st1 hst1 hfr, entryKeys_cons, multiset_coe_append]
        abel
      have hfresh2 : ∀ dest st1, kvGet net.nodes dest = some st1 →
          ∀ k, k ∈ kvKeys rest → ∀ p, p ∈ kvSet net.nodes dest
            (kvSet ((kvGet net.nodes dest).getD []) key_id vals) →
            kvGet p.2 k = none := by
        intro dest st1 hst1 k hk p hp
        have hgetd : (kvGet net.nodes dest).getD [] = st1 := by
          rw [hst1]
          rfl
        have hkne : k ≠ key_id := fun hkk => hknotin (by rw [← hkk]; exact hk)
        rcases kvSet_mem _ _ _ p hp with hpold | hpnew
        · exact hfresh k (List.mem_cons_of_mem _ hk) p hpold
        · rw [hpnew]
          dsimp only
          rw [kvGet_kvSet_ne _ _ _ _ hkne, hgetd]
          exact hfresh k (List.mem_cons_of_mem _ hk) _ (kvGet_mem_pair _ _ _ hst1)
      have hfresh0 : kvGet st0 key_id = none :=
        hfresh key_id hktop _ (kvGet_mem_pair _ _ _ hst0)
      refine Eq.trans (ih _ ?_ ?_ ?_ ?_) (hfin _ st0 hst0 hfresh0)
      · exact hne
      · exact fun x hx =>
          (kvKeys_kvSet_of_mem net.nodes _ _ hdmem).symm ▸ hsub x hx
      · exact hndrest
      · exact hfresh2 _ st0 hst0

theorem pastryReinsert_multiset (h : String → Nat) :
    ∀ (entries : List (String × Rec)) (net net' : PastryNet) (mig : Nat),
      net.nodes ≠ [] → (kvKeys entries).Nodup →
      (∀ k, k ∈ kvKeys entries → ∀ p, p ∈ net.nodes → kvGet p.2 k = none) →
      pastryReinsert h net entries = some (net', mig) →
      (pastryKeyList net'.nodes : Multiset String) =
        (pastryKeyList net.nodes : Multiset String) + (kvKeys entries) := by
  intro entries
  induction entries with
  | nil =>
      intro net net' mig hne hnd hfresh heq
      simp only [pastryReinsert, Option.some.injEq, Prod.mk.injEq] at heq
      obtain ⟨h1, -⟩ := heq
      subst h1
      show (pastryKeyList net.nodes : Multiset String) = _ + ↑(kvKeys ([] : List (String × Rec)))
      simp [kvKeys]
  | cons e rest ih =>
      obtain ⟨key, value⟩ := e
      intro net net' mig hne hnd hfresh heq
      unfold pastryReinsert at heq
      dsimp only [pastryRandomNode, rngChoice] at heq
      have hlen : 0 < (kvKeys net.nodes).length :=
        List.length_pos.mpr (kvKeys_ne_nil net.nodes hne)
      have hstart : nth (kvKeys net.nodes)
          (net.rngF net.rngK % (kvKeys net.nodes).length) ∈ kvKeys net.nodes :=
        nth_mem _ _ (Nat.mod_lt _ hlen)
      have hknotin : key ∉ kvKeys rest := (List.nodup_cons.mp hnd).1
      have hndrest : (kvKeys rest).Nodup := (List.nodup_cons.mp hnd).2
      have hktop : key ∈ kvKeys ((key, value) :: rest) :=
        List.mem_cons_self key (kvKeys rest)
      split at heq
      · exact absurd heq (by simp)
      · rename_i dest hops hroute
        have hdmem : dest ∈ kvKeys net.nodes :=
          pastryRoute_mem_of_eq _ _ _ _ _ _ hstart hroute
        obtain ⟨st0, hst0⟩ := kvGet_some_of_mem net.nodes _ hdmem
        have hpair := kvGet_mem_pair net.nodes _ st0 hst0
        have hfresh0 : kvGet st0 key = none := hfresh key hktop _ hpair
        have hgetd : (kvGet net.nodes dest).getD [] = st0 := by
          rw [hst0]
          rfl
        split at heq
        · exact absurd heq (by simp)
        · rename_i net3 mig2 hrec
          simp only [Option.some.injEq, Prod.mk.injEq] at heq
          obtain ⟨h1, -⟩ := heq
          subst h1
          have hkeys2 : kvKeys (kvSet ((kvGet net.nodes dest).getD []) key value) =
              kvKeys st0 ++ [key] := by
            rw [hgetd, kvKeys_kvSet,
              if_neg ((kvGet_eq_none st0 key).mp hfresh0)]
          have hMN : (pastryKeyList (kvSet net.nodes dest
              (kvSet ((kvGet net.nodes dest).getD []) key value)) :
                Multiset String) =
              (pastryKeyList net.nodes : Multiset String) + ({key} : Multiset String) := by
            have h1 := pastryKeyList_kvSet net.nodes dest st0
              (kvSet ((kvGet net.nodes dest).getD []) key value) hst0
            rw [hkeys2, multiset_coe_append] at h1
            have h2 : ((pastryKeyList net.nodes : Multiset String) +
                (([key] : List String) : Multiset String)) +
                (kvKeys st0 : Multiset String) =
                (pastryKeyList net.nodes : Multiset String) +
                ((kvKeys st0 : Multiset String) +
                  (([key] : List String) : Multiset String)) := by
              abel
            have h3 := add_right_cancel (h1.trans h2.symm)
            rw [h3]
            rfl
          have hrest := ih _ net3 mig2 (kvSet_ne_nil _ _ _) hndrest ?_ hrec
          · rw [hrest]
            have hMN2 : (pastryKeyList (kvSet net.nodes dest
                (kvSet ((kvGet net.nodes dest).getD []) key value)) :
                  Multiset String) + (kvKeys rest : Multiset String) =
                (pastryKeyList net.nodes : Multiset String) +
                  (kvKeys ((key, value) :: rest) : Multiset String) := by
              rw [hMN]
              rw [show kvKeys ((key, value) :: rest) = key :: kvKeys rest from rfl]
              rw [show ((key :: kvKeys rest : List String) : Multiset String) =
                ({key} : Multiset String) + (kvKeys rest : Multiset String) from rfl]
              abel
            exact hMN2
          · intro k hk p hp
            rcases kvSet_mem _ _ _ p hp with hpold | hpnew
            · exact hfresh k (List.mem_cons_of_mem _ hk) p hpold
            · rw [hpnew]
              dsimp only
              rw [kvGet_kvSet_ne _ _ _ _
                (fun hkk => hknotin (by rw [← hkk]; exact hk)), hgetd]
              exact hfresh k (List.mem_cons_of_mem _ hk) _ hpair

theorem chordKeyList_append (s t : List (Nat × List (Nat × List Rec))) :
    chordKeyList (s ++ t) = chordKeyList s ++ chordKeyList t := by
  induction s with
  | nil => rfl
  | cons q rest ih =>
      obtain ⟨a, b⟩ := q
      rw [List.cons_append, chordKeyList_cons, chordKeyList_cons, ih,
        List.append_assoc]

theorem pastryKeyList_append (s t : List (Nat × List (String × Rec))) :
    pastryKeyList (s ++ t) = pastryKeyList s ++ pastryKeyList t := by
  induction s with
  | nil => rfl
  | cons q rest ih =>
      obtain ⟨a, b⟩ := q
      rw [List.cons_append, pastryKeyList_cons, pastryKeyList_cons, ih,
        List.append_assoc]

theorem chordRebalance_multiset (net : ChordNet) (hc : ChordConsistent net)
    (hne : net.nodes ≠ []) :
    (chordKeyList (chordRebalance net).1.nodes : Multiset Nat) =
      (chordKeyList net.nodes : Multiset Nat) := by
  unfold chordRebalance
  rw [if_neg hne]
  have hids := chordConsistent_ids_ne net hc hne
  have h := chordReinsert_multiset (chordCollect net.nodes)
    { net with nodes := chordClearStores net.nodes } hids
    (fun x hx => (kvKeys_chordClearStores net.nodes).symm ▸
      (chordConsistent_mem_iff net hc x).mp hx)
    (chordCollect_nodup net.nodes)
    (fun k hk p hp => by rw [chordClearStores_mem net.nodes p hp]; rfl)
  rw [h]
  rw [show chordKeyList ({ net with nodes := chordClearStores net.nodes } :
    ChordNet).nodes = chordKeyList (chordClearStores net.nodes) from rfl,
    chordKeyList_clear, chordCollect_multiset]
  simp

theorem chordJoin_multiset (fuel : Nat) (net net' : ChordNet) (cost : Nat)
    (hc : ChordConsistent net) (heq : chordJoin fuel net = some (net', cost)) :
    (chordKeyList net'.nodes : Multiset Nat) =
      (chordKeyList net.nodes : Multiset Nat) := by
  unfold chordJoin at heq
  by_cases hne : net.nodes = []
  · rw [if_pos hne] at heq
    simp only [Option.some.injEq, Prod.mk.injEq] at heq
    obtain ⟨hnet, -⟩ := heq
    subst hnet
    rw [hne]
    rfl
  · rw [if_neg hne] at heq
    cases hdraw : drawFresh net.rngF net.m_bits (kvKeys net.nodes) fuel net.rngK with
    | none =>
        rw [hdraw] at heq
        exact absurd heq (by simp)
    | some pr =>
        obtain ⟨new_id, k1⟩ := pr
        rw [hdraw] at heq
        obtain ⟨hnotin, hlt⟩ := drawFresh_spec net.rngF net.m_bits (kvKeys net.nodes)
          fuel net.rngK new_id k1 hdraw
        simp only [Option.some.injEq, Prod.mk.injEq] at heq
        obtain ⟨hnet, -⟩ := heq
        subst hnet
        have hkeys3 : kvKeys ((net.nodes ++ [(new_id, [])] :
            List (Nat × List (Nat × List Rec)))) = kvKeys net.nodes ++ [new_id] := by
          simp [kvKeys]
        have hnd3 : (kvKeys ((net.nodes ++ [(new_id, [])] :
            List (Nat × List (Nat × List Rec))))).Nodup := by
          rw [hkeys3]
          refine List.Nodup.append hc.2.1 (List.nodup_singleton _) ?_
          intro a ha hmem
          simp only [List.mem_singleton] at hmem
          exact hnotin (hmem ▸ ha)
        have hb3 : ∀ x ∈ kvKeys ((net.nodes ++ [(new_id, [])] :
            List (Nat × List (Nat × List Rec)))), x < 2 ^ net.m_bits := by
          rw [hkeys3]
          intro x hx
          rcases List.mem_append.mp hx with hx | hx
          · exact hc.2.2 x hx
          · simp only [List.mem_singleton] at hx
            exact hx ▸ hlt
        have hc3 : ChordConsistent (chordRebuild
            { (chordRandomNode { net with rngK := k1 }).2 with
              nodes := (chordRandomNode { net with rngK := k1 }).2.nodes ++
                [(new_id, [])] }) := chordRebuild_consistent _ hnd3 hb3
        have hne3 : (chordRebuild
            { (chordRandomNode { net with rngK := k1 }).2 with
              nodes := (chordRandomNode { net with rngK := k1 }).2.nodes ++
                [(new_id, [])] }).nodes ≠ [] := by
          simp [chordRebuild]
        have hM := chordRebalance_multiset _ hc3 hne3
        refine Eq.trans hM ?_
        rw [show (chordRebuild
            { (chordRandomNode { net with rngK := k1 }).2 with
              nodes := (chordRandomNode { net with rngK := k1 }).2.nodes ++
                [(new_id, [])] }).nodes = net.nodes ++ [(new_id, [])] from rfl,
          chordKeyList_append]
        rw [show chordKeyList [((new_id : Nat), ([] : List (Nat × List Rec)))] =
          [] from rfl]
        simp

theorem chordLeaveAt_multiset (netp : ChordNet) (node_id : Nat)
    (hc : ChordConsistent netp)
    (hres : (chordLeaveAt netp node_id).1.nodes ≠ []) :
    (chordKeyList (chordLeaveAt netp node_id).1.nodes : Multiset Nat) =
      (chordKeyList netp.nodes : Multiset Nat) := by
  unfold chordLeaveAt at hres ⊢
  by_cases hmem : node_id ∈ kvKeys netp.nodes
  · rw [if_pos hmem] at hres ⊢
    dsimp only at hres ⊢
    by_cases hnil : kvPop netp.nodes node_id = []
    · rw [if_pos hnil] at hres
      exact absurd hnil hres
    · rw [if_neg hnil] at hres ⊢
      have hkeyspop : kvKeys (kvPop netp.nodes node_id) =
          (kvKeys netp.nodes).erase node_id := kvKeys_kvPop _ _
      have hnd2 : (kvKeys (kvPop netp.nodes node_id)).Nodup := by
        rw [hkeyspop]
        exact List.Nodup.erase _ hc.2.1
      have hb2 : ∀ x ∈ kvKeys (kvPop netp.nodes node_id), x < 2 ^ netp.m_bits := by
        rw [hkeyspop]
        intro x hx
        exact hc.2.2 x (List.mem_of_mem_erase hx)
      have hc3 : ChordConsistent (chordRebuild
          { netp with nodes := kvPop netp.nodes node_id }) :=
        chordRebuild_consistent _ hnd2 hb2
      have hids3 : (chordRebuild
          { netp with nodes := kvPop netp.nodes node_id }).sorted_ids ≠ [] :=
        chordConsistent_ids_ne _ hc3 hnil
      have h := chordReinsert_multiset (chordCollect netp.nodes)
        { chordRebuild { netp with nodes := kvPop netp.nodes node_id } with
          nodes := chordClearStores (kvPop netp.nodes node_id) } hids3
        (fun x hx => (kvKeys_chordClearStores _).symm ▸
          (chordConsistent_mem_iff _ hc3 x).mp hx)
        (chordCollect_nodup netp.nodes)
        (fun k hk p hp => by rw [chordClearStores_mem _ p hp]; rfl)
      refine Eq.trans h ?_
      rw [show chordKeyList ({ chordRebuild
          { netp with nodes := kvPop netp.nodes node_id } with
          nodes := chordClearStores (kvPop netp.nodes node_id) } :
          ChordNet).nodes = chordKeyList (chordClearStores
            (kvPop netp.nodes node_id)) from rfl,
        chordKeyList_clear, chordCollect_multiset]
      simp
  · rw [if_neg hmem] at hres ⊢

theorem chordLeave_multiset (net : ChordNet) (arg : Option Nat)
    (hc : ChordConsistent net) (hres : (chordLeave net arg).1.nodes ≠ []) :
    (chordKeyList (chordLeave net arg).1.nodes : Multiset Nat) =
      (chordKeyList net.nodes : Multiset Nat) := by
  unfold chordLeave at hres ⊢
  by_cases hne : net.nodes = []
  · rw [if_pos hne] at hres
    exact absurd hne hres
  · rw [if_neg hne] at hres ⊢
    cases arg with
    | none => exact chordLeaveAt_multiset _ _ hc hres
    | some nid => exact chordLeaveAt_multiset _ _ hc hres

theorem pastryRebalance_multiset (h : String → Nat) (net net' : PastryNet)
    (mig : Nat) (hne : net.nodes ≠ []) (hnd : (pastryKeyList net.nodes).Nodup)
    (heq : pastryRebalance h net = some (net', mig)) :
    (pastryKeyList net'.nodes : Multiset String) =
      (pastryKeyList net.nodes : Multiset String) := by
  unfold pastryRebalance at heq
  rw [if_neg hne] at heq
  have hne2 : pastryClearStores net.nodes ≠ [] := by
    unfold pastryClearStores
    simpa using hne
  have hndk : (kvKeys (pastryCollect net.nodes)).Nodup := by
    rw [kvKeys_pastryCollect]
    exact hnd
  have hM := pastryReinsert_multiset h (pastryCollect net.nodes)
    { net with nodes := pastryClearStores net.nodes } net' mig hne2 hndk
    (fun k hk p hp => by rw [pastryClearStores_mem _ p hp]; rfl) heq
  rw [hM,
    show pastryKeyList ({ net with nodes := pastryClearStores net.nodes } :
      PastryNet).nodes = pastryKeyList (pastryClearStores net.nodes) from rfl,
    pastryKeyList_clear, kvKeys_pastryCollect]
  simp

theorem pastryJoin_multiset (h : String → Nat) (fuel : Nat)
    (net net' : PastryNet) (cost : Nat) (hnd : (pastryKeyList net.nodes).Nodup)
    (heq : pastryJoin h fuel net = some (net', cost)) :
    (pastryKeyList net'.nodes : Multiset String) =
      (pastryKeyList net.nodes : Multiset String) := by
  unfold pastryJoin at heq
  by_cases hne : net.nodes = []
  · rw [if_pos hne] at heq
    simp only [Option.some.injEq, Prod.mk.injEq] at heq
    obtain ⟨h1, -⟩ := heq
    subst h1
    rw [hne]
    rfl
  · rw [if_neg hne] at heq
    cases hdraw : drawFresh net.rngF ID_BITS (kvKeys net.nodes) fuel net.rngK with
    | none =>
        rw [hdraw] at heq
        exact absurd heq (by simp)
    | some pr =>
        obtain ⟨new_id, k1⟩ := pr
        rw [hdraw] at heq
        dsimp only [pastryRandomNode, rngChoice] at heq
        split at heq
        · exact absurd heq (by simp)
        · rename_i dest route_hops hroute
          split at heq
          · exact absurd heq (by simp)
          · rename_i net4 migration_hops hreb
            simp only [Option.some.injEq, Prod.mk.injEq] at heq
            obtain ⟨h1, -⟩ := heq
            subst h1
            have hKL3 : pastryKeyList
                (({ (pastryRandomNode { net with rngK := k1 }).2 with
                  nodes := (pastryRandomNode { net with rngK := k1 }).2.nodes ++
                    [(new_id, [])] } : PastryNet).nodes) =
                pastryKeyList net.nodes := by
              rw [show (({ (pastryRandomNode { net with rngK := k1 }).2 with
                  nodes := (pastryRandomNode { net with rngK := k1 }).2.nodes ++
                    [(new_id, [])] } : PastryNet).nodes) =
                  net.nodes ++ [(new_id, [])] from rfl, pastryKeyList_append]
              rw [show pastryKeyList [((new_id : Nat), ([] : List (String × Rec)))] =
                [] from rfl]
              exact List.append_nil _
            have hne3 : ({ (pastryRandomNode { net with rngK := k1 }).2 with
                nodes := (pastryRandomNode { net with rngK := k1 }).2.nodes ++
                  [(new_id, [])] } : PastryNet).nodes ≠ [] := by
              simp
            have hnd3 : (pastryKeyList
                (({ (pastryRandomNode { net with rngK := k1 }).2 with
                  nodes := (pastryRandomNode { net with rngK := k1 }).2.nodes ++
                    [(new_id, [])] } : PastryNet).nodes)).Nodup := by
              rw [hKL3]
              exact hnd
            have hM := pastryRebalance_multiset h _ net4 migration_hops
              hne3 hnd3 hreb
            rw [show pastryKeyList ({ net4 with
                metrics := Metrics.record net4.metrics "join"
                  (route_hops + count_changed (pastrySnapshot net)
                    (pastrySnapshot net4) + migration_hops) } :
                PastryNet).nodes = pastryKeyList net4.nodes from rfl]
            rw [hM, hKL3]

theorem pastryLeaveAt_multiset (h : String → Nat) (netp : PastryNet)
    (node_id : Nat) (net' : PastryNet) (cost : Nat)
    (hnd : (pastryKeyList netp.nodes).Nodup)
    (heq : pastryLeaveAt h netp node_id = some (net', cost))
    (hres : net'.nodes ≠ []) :
    (pastryKeyList net'.nodes : Multiset String) =
      (pastryKeyList netp.nodes : Multiset String) := by
  unfold pastryLeaveAt at heq
  by_cases hmem : node_id ∈ kvKeys netp.nodes
  · rw [if_pos hmem] at heq
    dsimp only at heq
    by_cases hnil : kvPop netp.nodes node_id = []
    · rw [if_pos hnil] at heq
      simp only [Option.some.injEq, Prod.mk.injEq] at heq
      obtain ⟨h1, -⟩ := heq
      subst h1
      exact absurd hnil hres
    · rw [if_neg hnil] at heq
      split at heq
      · exact absurd heq (by simp)
      · rename_i net5 migration_hops hrei
        simp only [Option.some.injEq, Prod.mk.injEq] at heq
        obtain ⟨h1, -⟩ := heq
        subst h1
        have hne2 : pastryClearStores (kvPop netp.nodes node_id) ≠ [] := by
          unfold pastryClearStores
          simpa using hnil
        have hndk : (kvKeys (pastryCollect netp.nodes)).Nodup := by
          rw [kvKeys_pastryCollect]
          exact hnd
        have hM := pastryReinsert_multiset h (pastryCollect netp.nodes)
          { netp with nodes := pastryClearStores (kvPop netp.nodes node_id) }
          net5 migration_hops hne2 hndk
          (fun k hk p hp => by rw [pastryClearStores_mem _ p hp]; rfl) hrei
        rw [show pastryKeyList ({ net5 with
            metrics := Metrics.record net5.metrics "leave"
              (count_changed (pastrySnapshot netp) (pastrySnapshot net5) +
                migration_hops) } : PastryNet).nodes =
            pastryKeyList net5.nodes from rfl]
        rw [hM,
          show pastryKeyList ({ netp with
            nodes := pastryClearStores (kvPop netp.nodes node_id) } :
            PastryNet).nodes =
            pastryKeyList (pastryClearStores (kvPop netp.nodes node_id)) from rfl,
          pastryKeyList_clear, kvKeys_pastryCollect]
        simp
  · rw [if_neg hmem] at heq
    simp only [Option.some.injEq, Prod.mk.injEq] at heq
    obtain ⟨h1, -⟩ := heq
    subst h1
    rfl

theorem pastryLeave_multiset (h : String → Nat) (net : PastryNet)
    (arg : Option Nat) (net' : PastryNet) (cost : Nat)
    (hnd : (pastryKeyList net.nodes).Nodup)
    (heq : pastryLeave h net arg = some (net', cost)) (hres : net'.nodes ≠ []) :
    (pastryKeyList net'.nodes : Multiset String) =
      (pastryKeyList net.nodes : Multiset String) := by
  unfold pastryLeave at heq
  by_cases hne : net.nodes = []
  · rw [if_pos hne] at heq
    simp only [Option.some.injEq, Prod.mk.injEq] at heq
    obtain ⟨h1, -⟩ := heq
    subst h1
    rfl
  · rw [if_neg hne] at heq
    cases arg with
    | none =>
        exact pastryLeaveAt_multiset h (pastryRandomNode net).2
          (pastryRandomNode net).1 net' cost hnd heq hres
    | some nid => exact pastryLeaveAt_multiset h net nid net' cost hnd heq hres

theorem chordRunJL_multiset (fuel : Nat) :
    ∀ (ops : List JLOp) (net net' : ChordNet), ChordConsistent net →
      chordRunJLSafe fuel net ops = some net' →
      (chordKeyList net'.nodes : Multiset Nat) =
        (chordKeyList net.nodes : Multiset Nat) := by
  intro ops
  induction ops with
  | nil =>
      intro net net' hc heq
      simp only [chordRunJLSafe, Option.some.injEq] at heq
      subst heq
      rfl
  | cons op rest ih =>
      intro net net' hc heq
      cases op with
      | join =>
          unfold chordRunJLSafe at heq
          cases hj : chordJoin fuel net with
          | none =>
              rw [hj] at heq
              exact absurd heq (by simp)
          | some pr =>
              obtain ⟨net1, cost⟩ := pr
              rw [hj] at heq
              have hc1 := (chordJoin_consistent fuel net net1 cost hc hj).1
              exact (ih net1 net' hc1 heq).trans
                (chordJoin_multiset fuel net net1 cost hc hj)
      | leave arg =>
          unfold chordRunJLSafe at heq
          by_cases hres : (chordLeave net arg).1.nodes = []
          · rw [if_pos hres] at heq
            exact absurd heq (by simp)
          · rw [if_neg hres] at heq
            have hc1 := (chordLeave_consistent net arg hc hres).1
            exact (ih _ net' hc1 heq).trans (chordLeave_multiset net arg hc hres)

theorem pastryRunJL_multiset (h : String → Nat) (fuel : Nat) :
    ∀ (ops : List JLOp) (net net' : PastryNet),
      (pastryKeyList net.nodes).Nodup →
      pastryRunJLSafe h fuel net ops = some net' →
      (pastryKeyList net'.nodes : Multiset String) =
        (pastryKeyList net.nodes : Multiset String) := by
  intro ops
  induction ops with
  | nil =>
      intro net net' hnd heq
      simp only [pastryRunJLSafe, Option.some.injEq] at heq
      subst heq
      rfl
  | cons op rest ih =>
      intro net net' hnd heq
      cases op with
      | join =>
          unfold pastryRunJLSafe at heq
          cases hj : pastryJoin h fuel net with
          | none =>
              rw [hj] at heq
              exact absurd heq (by simp)
          | some pr =>
              obtain ⟨net1, cost⟩ := pr
              rw [hj] at heq
              have hM1 := pastryJoin_multiset h fuel net net1 cost hnd hj
              have hnd1 : (pastryKeyList net1.nodes).Nodup := by
                have := Multiset.coe_nodup (l := pastryKeyList net1.nodes)
                rw [hM1] at this
                exact this.mp (Multiset.coe_nodup.mpr hnd)
              exact (ih net1 net' hnd1 heq).trans hM1
      | leave arg =>
          unfold pastryRunJLSafe at heq
          cases hl : pastryLeave h net arg with
          | none =>
              rw [hl] at heq
              exact absurd heq (by simp)
          | some pr =>
              obtain ⟨net1, cost⟩ := pr
              rw [hl] at heq
              dsimp only at heq
              by_cases hres : net1.nodes = []
              · rw [if_pos hres] at heq
                exact absurd heq (by simp)
              · rw [if_neg hres] at heq
                have hM1 := pastryLeave_multiset h net arg net1 cost hnd hl hres
                have hnd1 : (pastryKeyList net1.nodes).Nodup := by
                  have := Multiset.coe_nodup (l := pastryKeyList net1.nodes)
                  rw [hM1] at this
                  exact this.mp (Multiset.coe_nodup.mpr hnd)
                exact (ih net1 net' hnd1 heq).trans hM1

/-- C3 (amended): over either overlay, the multiset of stored key-IDs
(ring) respectively stored keys (prefix), taken over all nodes' local
stores, is unchanged by any sequence of `join()` and `leave()` calls in
which every join draws a fresh ID within its retry budget and no leave
empties the network; on the prefix overlay each key must additionally be
stored at no more than one node when the sequence starts.  (The original
claim, for arbitrary sequences, fails: a leave that removes the last node
discards every stored key; see the counterexample.) -/
theorem claim_C3 :
    (∀ (fuel : Nat) (ops : List JLOp) (net net' : ChordNet),
        ChordConsistent net →
        chordRunJLSafe fuel net ops = some net' →
        (chordKeyList net'.nodes : Multiset Nat) =
          (chordKeyList net.nodes : Multiset Nat)) ∧
    (∀ (h : String → Nat) (fuel : Nat) (ops : List JLOp) (net net' : PastryNet),
        (pastryKeyList net.nodes).Nodup →
        pastryRunJLSafe h fuel net ops = some net' →
        (pastryKeyList net'.nodes : Multiset String) =
          (pastryKeyList net.nodes : Multiset String)) :=
  ⟨fun fuel ops net net' hc heq => chordRunJL_multiset fuel ops net net' hc heq,
   fun h fuel ops net net' hnd heq =>
     pastryRunJL_multiset h fuel ops net net' hnd heq⟩

def C3net : ChordNet :=
  { m_bits := 4
    nodes := [(3, [(9, [⟨"k", 0⟩])])]
    sorted_ids := [3]
    metrics := []
    rngF := fun k => k
    rngK := 0 }

/-- C3 counterexample: a consistent one-node ring network storing one
record under key-ID 9 loses that key when its only node leaves — the
multiset of stored key-IDs goes from `{9}` to `{}` under a single
`leave()` call, refuting the unrestricted claim. -/
theorem claim_C3_counterexample :
    ChordConsistent C3net ∧
    chordKeyList C3net.nodes = [9] ∧
    (chordLeave C3net (some 3)).1.nodes = [] ∧
    chordKeyList (chordLeave C3net (some 3)).1.nodes = [] := by
  refine ⟨⟨rfl, ?_, ?_⟩, rfl, rfl, rfl⟩
  · decide
  · decide

def C3wc : ChordNet :=
  { m_bits := 4
    nodes := []
    sorted_ids := []
    metrics := []
    rngF := fun k => k
    rngK := 0 }

def C3wp : PastryNet :=
  { leaf_L := 4
    nodes := []
    metrics := []
    rngF := fun k => k
    rngK := 0 }

theorem claim_C3_witness :
    (chordKeyList ((chordRunJLSafe 8 C3wc [JLOp.join]).getD C3wc).nodes :
      Multiset Nat) = (chordKeyList C3wc.nodes : Multiset Nat) ∧
    (pastryKeyList ((pastryRunJLSafe (fun s => s.length) 8 C3wp
        [JLOp.join]).getD C3wp).nodes : Multiset String) =
      (pastryKeyList C3wp.nodes : Multiset String) :=
  ⟨claim_C3.1 8 [JLOp.join] C3wc _ ⟨rfl, by decide, by decide⟩ rfl,
   claim_C3.2 (fun s => s.length) 8 [JLOp.join] C3wp _ (by decide) rfl⟩

end DhtSpec
